import Mathlib

/-!
Verification development for the sparse LDLT factorization core of the
`sprs` repository (`sprs-ldl/src/lib.rs`), the triplet-to-CSC conversion
(`src/sparse/triplet.rs`) and the sparse-to-dense assignment
(`src/sparse/to_dense.rs`).

The Rust code is shallowly embedded: machine arrays become `List`s with
`List.getD`/`List.set` (reads out of range yield the default, writes out of
range are no-ops, matching the in-contract behaviour of the source), the
mutable state of each pass becomes an explicit state record threaded through
structural recursion, and panics/non-termination are modelled with
`Option`/`Except` plus fuel on the tree walks.

Collaborator types that live outside the provided sources (the compressed
matrix container, permutations, the elimination-tree parent array, the
double-ended stack, `diag_solve`, `is_symmetric`, `convert_storage`) are
modelled from the specification; each such definition carries a doc comment
starting with `Modelled from the spec:`.
-/

namespace SprsLdl

/-! ## Data model: compressed matrices and permutations -/

/-- Modelled from the spec: the external compressed sparse matrix container.
A matrix compressed by outer index: `indptr` has one entry per outer slice
plus one, and outer slice `j` holds the `(inner index, value)` pairs found at
positions `indptr[j] .. indptr[j+1]` of `indices`/`data`. `isCsr` records
whether the outer dimension is rows (CSR) or columns (CSC). -/
structure CsMat (α : Type) where
  isCsr : Bool
  nrows : Nat
  ncols : Nat
  indptr : List Nat
  indices : List Nat
  data : List α

/-- Modelled from the spec: the outer slice `j` of a compressed matrix, as the
list of its stored `(inner index, value)` pairs. -/
def CsMat.outerSlice {α : Type} (m : CsMat α) (j : Nat) : List (Nat × α) :=
  let s := m.indptr.getD j 0
  let e := m.indptr.getD (j + 1) 0
  ((m.indices.zip m.data).drop s).take (e - s)

/-- Modelled from the spec: number of outer slices (rows for CSR, columns for
CSC). -/
def CsMat.outerDim {α : Type} (m : CsMat α) : Nat :=
  if m.isCsr then m.nrows else m.ncols

/-- Modelled from the spec: the permutation collaborator, a bijection over
`{0..n-1}` together with its inverse.  It is carried as a pair of functions;
concrete permutations are built with `Perm.ofList` and the identity with
`Perm.identity`. -/
structure Perm where
  fwd : Nat → Nat
  bwd : Nat → Nat

/-- Modelled from the spec: identity permutation construction. -/
def Perm.identity : Perm := ⟨id, id⟩

/-- Modelled from the spec: a finite permutation from its forward and inverse
index arrays. -/
def Perm.ofList (p pinv : List Nat) : Perm :=
  ⟨fun i => p.getD i i, fun i => pinv.getD i i⟩

/-- Modelled from the spec: permuted outer iteration.  The slice processed at
step `k` is the outer slice `perm.fwd k`, and its inner indices are remapped
through the inverse permutation. -/
def permSlice {α : Type} (m : CsMat α) (perm : Perm) (k : Nat) : List (Nat × α) :=
  (m.outerSlice (perm.fwd k)).map (fun e => (perm.bwd e.1, e.2))

/-- Modelled from the spec: look up the stored value at outer slice `j`,
inner index `i`, if it is stored. -/
def CsMat.findInner {α : Type} (m : CsMat α) (j i : Nat) : Option α :=
  ((m.outerSlice j).find? (fun e => e.1 = i)).map Prod.snd

/-- Modelled from the spec: the symmetry predicate of the sparse-matrix
collaborator, the exact test `A = Aᵗ` on stored entries. -/
def is_symmetric {α : Type} [DecidableEq α] (m : CsMat α) : Bool :=
  decide (m.nrows = m.ncols) &&
    (List.range m.outerDim).all (fun j =>
      (m.outerSlice j).all (fun e => decide (m.findInner e.1 j = some e.2)))

/-- Whether the symbolic pass checks symmetry of its input (source:
`SymmetryCheck`). -/
inductive SymmetryCheck
  | CheckSymmetry
  | DontCheckSymmetry

/-! ## Elimination-tree parent arrays -/

/-- Modelled from the spec: the elimination-tree parent array; one optional
parent pointer per column (`none` means root). -/
abbrev Parents : Type := List (Option Nat)

/-- Modelled from the spec: `uproot node root` attaches `node` as a child of
`root` if it has no parent yet; a parent, once set, never changes. -/
def uproot (parents : Parents) (i k : Nat) : Parents :=
  match (show List (Option Nat) from parents).getD i none with
  | none => List.set parents i (some k)
  | some _ => parents

/-- Modelled from the spec: read a node's parent pointer. -/
def getParent (parents : Parents) (i : Nat) : Option Nat :=
  (show List (Option Nat) from parents).getD i none

/-- Modelled from the spec: `set_root k` marks node `k` as a root. -/
def setRoot (parents : Parents) (k : Nat) : Parents :=
  List.set parents k none

/-- Every parent pointer set in `p` is set to the same value in `q`:
the order in which the elimination forest grows. -/
def parentsLe (p q : Parents) : Prop :=
  ∀ i v, getParent p i = some v → getParent q i = some v

/-- All parent pointers of `p` climb strictly (`i < v`) and were assigned
before column `K` (so their value is `< K`). -/
def parentsBelow (p : Parents) (K : Nat) : Prop :=
  ∀ i v, getParent p i = some v → i < v ∧ v < K

/-- The `m`-fold parent iteration: the `m`-th strict ancestor of `i`, if the
chain does not reach a root first. -/
def ancestorAfter (p : Parents) : Nat → Nat → Option Nat
  | 0, i => some i
  | mm + 1, i =>
    match getParent p i with
    | none => none
    | some j => ancestorAfter p mm j

/-! ## Symbolic pass (source: `ldl_symbolic`) -/

/-- State threaded through `ldl_symbolic`: the growing parent array, the
per-column nonzero counts `l_nz` and the visited-flag workspace. -/
structure SymState where
  parents : Parents
  lnz : List Nat
  flag : List Nat
deriving DecidableEq

/-- The freshly zeroed buffers `LdlSymbolic::new_perm` passes to
`ldl_symbolic`: `ParentsOwned::new(n)`, `vec![0; n]`, `vec![0; n]`. -/
def symInit (n : Nat) : SymState :=
  ⟨List.replicate n none, List.replicate n 0, List.replicate n 0⟩

/-- Basic well-formedness of the symbolic state after `K` columns: the three
buffers keep their allocated length `n`, and every assigned parent pointer
climbs strictly and was assigned at a column `< K`. -/
def symOk (n K : Nat) (s : SymState) : Prop :=
  s.parents.length = n ∧ s.lnz.length = n ∧ s.flag.length = n ∧
    parentsBelow s.parents K

/-- The inner `while flag_workspace[i] != k` walk of `ldl_symbolic`: climb the
elimination tree from `i`, uprooting, counting and flagging each unvisited
node.  Fuel bounds the loop; `none` models a panic of `expect` or exhausted
fuel (neither is reachable on the runs the theorems consider). -/
def symWalk (k : Nat) : Nat → SymState → Nat → Option SymState
  | 0, _, _ => none
  | fuel + 1, s, i =>
    if s.flag.getD i 0 = k then some s
    else
      match getParent (uproot s.parents i k) i with
      | none => none
      | some p =>
        symWalk k fuel
          ⟨uproot s.parents i k, s.lnz.set i (s.lnz.getD i 0 + 1), s.flag.set i k⟩ p

/-- The `for (inner_ind, _) in vec.iter_perm(...)` loop of `ldl_symbolic`:
walk up from every entry with permuted inner index `< k`. -/
def symEntries {α : Type} (k fuel : Nat) : SymState → List (Nat × α) → Option SymState
  | s, [] => some s
  | s, e :: rest =>
    if e.1 < k then
      match symWalk k fuel s e.1 with
      | none => none
      | some s' => symEntries k fuel s' rest
    else symEntries k fuel s rest

/-- One iteration of the outer loop of `ldl_symbolic` (column `k` in permuted
order): flag `k` as visited, make it a root, reset its count, then process its
entries. -/
def symColumn {α : Type} (m : CsMat α) (perm : Perm) (fuel k : Nat) (s : SymState) :
    Option SymState :=
  symEntries k fuel
    ⟨setRoot s.parents k, s.lnz.set k 0, s.flag.set k k⟩
    (permSlice m perm k)

/-- The columns `0 .. k-1` of the outer loop of `ldl_symbolic`. -/
def symRun {α : Type} (m : CsMat α) (perm : Perm) (fuel : Nat) : Nat → SymState → Option SymState
  | 0, s => some s
  | k + 1, s =>
    match symRun m perm fuel k s with
    | none => none
    | some s' => symColumn m perm fuel k s'

/-- The final column-pointer computation of `ldl_symbolic`: the exclusive
prefix sums of the per-column counts (`l_colptr[k] = prev; prev += l_nz[k]`,
then `l_colptr[n] = prev`). -/
def colptrOf : List Nat → Nat → List Nat
  | [], acc => [acc]
  | x :: xs, acc => acc :: colptrOf xs (acc + x)

/-- Result of the symbolic pass: column pointers for L, elimination forest,
per-column counts, and the final contents of the flag workspace (the caller's
buffer, reused by the numeric pass). -/
structure SymResult where
  colptr : List Nat
  parents : Parents
  nz : List Nat
  flag : List Nat
deriving DecidableEq

/-- The outer loop and column-pointer computation of `ldl_symbolic`, run on
freshly zeroed buffers as `LdlSymbolic::new_perm` supplies them
(`n = mat.rows()`). -/
def symRunFull {α : Type} (m : CsMat α) (perm : Perm) : Option SymResult :=
  match symRun m perm (m.nrows + 1) m.nrows (symInit m.nrows) with
  | none => none
  | some s => some ⟨colptrOf s.lnz 0, s.parents, s.lnz, s.flag⟩

/-- The free function `ldl_symbolic`: optional symmetry check (its panic is
modelled as `none`), then the analysis loop. -/
def ldl_symbolic {α : Type} [DecidableEq α] (m : CsMat α) (perm : Perm)
    (check : SymmetryCheck) : Option SymResult :=
  match check with
  | SymmetryCheck.CheckSymmetry => if is_symmetric m then symRunFull m perm else none
  | SymmetryCheck.DontCheckSymmetry => symRunFull m perm

/-! ## Numeric pass (source: `ldl_numeric`) -/

/-- Modelled from the spec: the double-ended pattern-discovery buffer
(`DStack`): a pair of stacks; chains are grown on the left and committed to
the right, and the committed pattern is consumed from the right stack's top.
Lists hold each stack with its top first. -/
structure DStack where
  left : List Nat
  right : List Nat
deriving DecidableEq

/-- Errors of the numeric pass: the zero-pivot panic (`"Matrix is singular"`)
and the `expect`/loop failure reached only when the parent array does not come
from a symbolic analysis of the same pattern. -/
inductive NumErr
  | SingularMatrix
  | BrokenParents
deriving DecidableEq

/-- State threaded through `ldl_numeric`: the per-column fill counters, L's
index and value storage, the diagonal, the dense accumulator `y_workspace`,
the pattern buffer and the visited-flag workspace. -/
structure NumState (α : Type) where
  lnz : List Nat
  lIndices : List Nat
  lData : List α
  diag : List α
  y : List α
  pattern : DStack
  flag : List Nat
deriving DecidableEq

/-- The inner `while flag_workspace[i] != k` walk of `ldl_numeric`: climb the
(finished) elimination tree from `i`, pushing each unvisited node on the left
stack and flagging it.  Returns the grown left stack and updated flags. -/
def numWalk (parents : Parents) (k : Nat) :
    Nat → List Nat → List Nat → Nat → Option (List Nat × List Nat)
  | 0, _, _, _ => none
  | fuel + 1, left, flag, i =>
    if flag.getD i 0 = k then some (left, flag)
    else
      match getParent parents i with
      | none => none
      | some p => numWalk parents k fuel (i :: left) (flag.set i k) p

/-- The state update of one scatter step of `ldl_numeric`: accumulate the
entry's value into `y`, adopt the flags left by the walk, and commit the
discovered chain onto the right stack (`push_left_on_right`). -/
def scatterState {α : Type} [CommRing α] (s : NumState α) (e : Nat × α)
    (left flag : List Nat) : NumState α :=
  { s with
    y := s.y.set e.1 (s.y.getD e.1 0 + e.2)
    flag := flag
    pattern := ⟨[], left.reverse ++ s.pattern.right⟩ }

/-- The scatter loop of `ldl_numeric`: for every entry with permuted inner
index `≤ k`, accumulate its value into `y` and commit the chain of new
ancestors onto the right stack (`clear_left`, walk, `push_left_on_right`). -/
def numEntries {α : Type} [CommRing α] (parents : Parents) (k fuel : Nat) :
    NumState α → List (Nat × α) → Option (NumState α)
  | s, [] => some s
  | s, e :: rest =>
    if e.1 ≤ k then
      match numWalk parents k fuel [] s.flag e.1 with
      | none => none
      | some (left, flag) =>
        numEntries parents k fuel (scatterState s e left flag) rest
    else numEntries parents k fuel s rest

/-- The innermost loop of the sparse triangular solve in `ldl_numeric`:
`for p in l_colptr[i]..p2 { y[l_indices[p]] -= l_data[p] * yi }`,
given the start position and the number of stored entries of column `i`. -/
def elimInner {α : Type} [CommRing α] (lIndices : List Nat) (lData : List α) (yi : α) :
    Nat → Nat → List α → List α
  | _, 0, y => y
  | p, c + 1, y =>
    let idx := lIndices.getD p 0
    elimInner lIndices lData yi (p + 1) c (y.set idx (y.getD idx 0 - lData.getD p 0 * yi))

/-- One iteration of the `'pattern` loop of `ldl_numeric`: consume `y[i]`,
subtract column `i`'s contribution, compute `l_ki`, update the pivot and
append `(k, l_ki)` to column `i` of L. -/
def numElim {α : Type} [CommRing α] [Div α] (colptr : List Nat) (k : Nat)
    (s : NumState α) (i : Nat) : NumState α :=
  { s with
    y := elimInner s.lIndices s.lData (s.y.getD i 0) (colptr.getD i 0) (s.lnz.getD i 0)
      (s.y.set i 0)
    diag := s.diag.set k (s.diag.getD k 0 - s.y.getD i 0 / s.diag.getD i 0 * s.y.getD i 0)
    lIndices := s.lIndices.set (colptr.getD i 0 + s.lnz.getD i 0) k
    lData := s.lData.set (colptr.getD i 0 + s.lnz.getD i 0) (s.y.getD i 0 / s.diag.getD i 0)
    lnz := s.lnz.set i (s.lnz.getD i 0 + 1) }

/-- The whole `'pattern` loop: fold `numElim` over the committed pattern. -/
def numElimList {α : Type} [CommRing α] [Div α] (colptr : List Nat) (k : Nat) :
    NumState α → List Nat → NumState α
  | s, [] => s
  | s, i :: rest => numElimList colptr k (numElim colptr k s i) rest

/-- The state update at the start of column `k` of `ldl_numeric`:
`flag[k] = k; y[k] = 0; l_nz[k] = 0; clear_right()`. -/
def colReset {α : Type} [CommRing α] (s : NumState α) (k : Nat) : NumState α :=
  { s with
    flag := s.flag.set k k
    y := s.y.set k 0
    lnz := s.lnz.set k 0
    pattern := ⟨s.pattern.left, []⟩ }

/-- The state update between the scatter and elimination phases of column `k`
of `ldl_numeric`: `diag[k] = y[k]; y[k] = 0`. -/
def pivotReset {α : Type} [CommRing α] (s : NumState α) (k : Nat) : NumState α :=
  { s with diag := s.diag.set k (s.y.getD k 0), y := s.y.set k 0 }

/-- The body of one iteration of the outer loop of `ldl_numeric` (column `k`
in permuted order) up to the final pivot check: reset the column's workspace
cells, discover the pattern and run the sparse triangular solve.  `none`
models the `expect` panic inside the tree walk. -/
def numColumnCore {α : Type} [CommRing α] [Div α] (m : CsMat α)
    (colptr : List Nat) (parents : Parents) (perm : Perm) (fuel k : Nat)
    (s : NumState α) : Option (NumState α) :=
  match numEntries parents k fuel (colReset s k) (permSlice m perm k) with
  | none => none
  | some s₁ => some (numElimList colptr k (pivotReset s₁ k) s₁.pattern.right)

/-- One iteration of the outer loop of `ldl_numeric`: the column body
followed by the `diag[k] == 0` singularity check. -/
def numColumn {α : Type} [CommRing α] [Div α] [DecidableEq α] (m : CsMat α)
    (colptr : List Nat) (parents : Parents) (perm : Perm) (fuel k : Nat)
    (s : NumState α) : Except NumErr (NumState α) :=
  match numColumnCore m colptr parents perm fuel k s with
  | none => Except.error NumErr.BrokenParents
  | some s₃ =>
    if s₃.diag.getD k 0 = 0 then Except.error NumErr.SingularMatrix else Except.ok s₃

/-- The columns `0 .. k-1` of the outer loop of `ldl_numeric`. -/
def numRun {α : Type} [CommRing α] [Div α] [DecidableEq α] (m : CsMat α)
    (colptr : List Nat) (parents : Parents) (perm : Perm) (fuel : Nat) :
    Nat → NumState α → Except NumErr (NumState α)
  | 0, s => Except.ok s
  | k + 1, s =>
    match numRun m colptr parents perm fuel k s with
    | Except.error e => Except.error e
    | Except.ok s' => numColumn m colptr parents perm fuel k s'

/-- The free function `ldl_numeric`, starting from the given workspace/output
buffers. -/
def ldl_numeric {α : Type} [CommRing α] [Div α] [DecidableEq α] (m : CsMat α)
    (colptr : List Nat) (parents : Parents) (perm : Perm) (s : NumState α) :
    Except NumErr (NumState α) :=
  numRun m colptr parents perm (m.outerDim + 1) m.outerDim s

/-- The committed pattern is parent-closed towards the end of the list: every
element's parent is either the current column `k` or occurs later in the
list.  This is the topological-order property of the pattern buffer. -/
def patOk (parentsF : Parents) (k : Nat) : List Nat → Prop
  | [] => True
  | a :: rest =>
    (∃ v, getParent parentsF a = some v ∧ (v = k ∨ v ∈ rest)) ∧ patOk parentsF k rest

/-- The canonical chain visited by a tree walk at column `k` started at node
`i` with starting flags `fl0`: empty when `i` is already flagged, otherwise
`i` followed by the chain of its parent. -/
def walkChain (parentsF : Parents) (k : Nat) (fl0 : List Nat) : Nat → List Nat → Prop
  | i, [] => fl0.getD i 0 = k
  | i, a :: rest => a = i ∧ fl0.getD i 0 ≠ k ∧
      ∃ v, getParent parentsF i = some v ∧ walkChain parentsF k fl0 v rest

/-- Relation between one symbolic tree walk (from state `t` to `t'`) and the
corresponding numeric tree walk at column `k` started at node `i0` on flag
buffer `fl`: both visit the same chain of new nodes. -/
structure WalkRel (parentsF : Parents) (n k i0 : Nat) (t : SymState) (fl : List Nat)
    (t' : SymState) (chain : List Nat) (fl' : List Nat) : Prop where
  isChain : walkChain parentsF k t.flag i0 chain
  lenFl : fl'.length = fl.length
  agree : ∀ j, j ≤ k → fl'.getD j 0 = t'.flag.getD j 0
  memLt : ∀ j, j ∈ chain → j < k
  memNotFlag : ∀ j, j ∈ chain → t.flag.getD j 0 ≠ k
  memGe : ∀ j, j ∈ chain → i0 ≤ j
  outside : ∀ j, j ∉ chain → t'.flag.getD j 0 = t.flag.getD j 0 ∧ fl'.getD j 0 = fl.getD j 0
  inside : ∀ j, j ∈ chain → t'.flag.getD j 0 = k
  lnzCount : ∀ j, t'.lnz.getD j 0 = t.lnz.getD j 0 + chain.count j
  emptyStop : chain = [] → t' = t ∧ fl' = fl ∧ t.flag.getD i0 0 = k
  headStart : chain ≠ [] → chain.head? = some i0
  links : ∀ X a Y, chain = X ++ a :: Y → ∃ v, getParent parentsF a = some v ∧
    (v = k ∨ v ∈ Y ∨ (v < k ∧ t.flag.getD v 0 = k))

/-- Relation between the symbolic state `t` and a numeric state `u` in the
middle of processing column `k`: flags agree on `0..k`, the committed pattern
is exactly the set of flagged nodes below `k`, and the symbolic fill counts
are the numeric ones plus the pending pattern occurrences. -/
structure ColRel {α : Type} (parentsF : Parents) (n k : Nat) (t : SymState)
    (u : NumState α) : Prop where
  flagLen : u.flag.length = n
  agree : ∀ j, j ≤ k → u.flag.getD j 0 = t.flag.getD j 0
  flagPat : ∀ j, j < k → (u.flag.getD j 0 = k ↔ j ∈ u.pattern.right)
  patLt : ∀ j, j ∈ u.pattern.right → j < k
  patNodup : u.pattern.right.Nodup
  lnzCnt : ∀ j, j ≤ k → t.lnz.getD j 0 = u.lnz.getD j 0 + u.pattern.right.count j
  patOkR : patOk parentsF k u.pattern.right

/-! ## Triangular solves (source: `ldl_lsolve`, `ldl_ltsolve`) -/

/-- The inner loop of `ldl_lsolve`: subtract `value * x[col]` at every stored
row of the column. -/
def lsolveCol {α : Type} [CommRing α] (entries : List (Nat × α)) (xcol : α)
    (x : List α) : List α :=
  match entries with
  | [] => x
  | e :: rest => lsolveCol rest xcol (x.set e.1 (x.getD e.1 0 - e.2 * xcol))

/-- Columns `0 .. k-1` of `ldl_lsolve` (ascending). -/
def lsolveRun {α : Type} [CommRing α] (l : CsMat α) : Nat → List α → List α
  | 0, x => x
  | k + 1, x =>
    let x' := lsolveRun l k x
    lsolveCol (l.outerSlice k) (x'.getD k 0) x'

/-- Forward substitution with the unit-lower-triangular L (source:
`ldl_lsolve`). -/
def ldl_lsolve {α : Type} [CommRing α] (l : CsMat α) (x : List α) : List α :=
  lsolveRun l l.outerDim x

/-- The inner accumulation of `ldl_ltsolve` over one column. -/
def ltsolveAcc {α : Type} [CommRing α] (entries : List (Nat × α)) (x : List α)
    (acc : α) : α :=
  match entries with
  | [] => acc
  | e :: rest => ltsolveAcc rest x (acc - e.2 * x.getD e.1 0)

/-- Columns `k-1 .. 0` of `ldl_ltsolve` (descending). -/
def ltsolveRun {α : Type} [CommRing α] (l : CsMat α) : Nat → List α → List α
  | 0, x => x
  | k + 1, x =>
    ltsolveRun l k (x.set k (ltsolveAcc (l.outerSlice k) x (x.getD k 0)))

/-- Backward substitution with Lᵗ (source: `ldl_ltsolve`). -/
def ldl_ltsolve {α : Type} [CommRing α] (l : CsMat α) (x : List α) : List α :=
  ltsolveRun l l.outerDim x

/-- Modelled from the spec: the elementwise-division collaborator
(`linalg::diag_solve`), `x[i] /= d[i]`. -/
def diag_solve {α : Type} [Div α] (d x : List α) : List α :=
  List.zipWith (fun xi di => xi / di) x d

/-- Modelled from the spec: apply a permutation to a value sequence,
producing the reordered copy `out[i] = v[perm.fwd i]`. -/
def permVec {α : Type} [Zero α] (p : Perm) (v : List α) : List α :=
  (List.range v.length).map (fun i => v.getD (p.fwd i) 0)

/-- Modelled from the spec: apply the inverse permutation to a value
sequence, `out[i] = v[perm.bwd i]`. -/
def permVecInv {α : Type} [Zero α] (p : Perm) (v : List α) : List α :=
  (List.range v.length).map (fun i => v.getD (p.bwd i) 0)

/-! ## The `LdlSymbolic`/`LdlNumeric` API -/

/-- The numeric factorization object (source: `LdlNumeric`, with its owned
`LdlSymbolic`): the symbolic layout plus all numeric storage and scratch
buffers. -/
structure LdlFactor (α : Type) where
  colptr : List Nat
  parents : Parents
  perm : Perm
  st : NumState α

/-- The size of the linear system (source: `problem_size`, the number of
nodes of the parent array). -/
def LdlFactor.problemSize {α : Type} (f : LdlFactor α) : Nat :=
  (show List (Option Nat) from f.parents).length

/-- `LdlSymbolic::factor`: allocate the numeric storage from the symbolic
layout (reusing the symbolic object's `nz` and flag buffers) and run the
numeric pass. -/
def factorOf {α : Type} [CommRing α] [Div α] [DecidableEq α] (m : CsMat α)
    (perm : Perm) (sym : SymResult) : Except NumErr (LdlFactor α) :=
  let n := m.ncols
  let nnz := sym.colptr.getD n 0
  let s₀ : NumState α :=
    ⟨sym.nz, List.replicate nnz 0, List.replicate nnz 0,
      List.replicate n 0, List.replicate n 0, ⟨[], []⟩, sym.flag⟩
  match ldl_numeric m sym.colptr sym.parents perm s₀ with
  | Except.error e => Except.error e
  | Except.ok st => Except.ok ⟨sym.colptr, sym.parents, perm, st⟩

/-- `LdlNumeric::new_perm`: symbolic analysis (with symmetry check) followed
by `factor`.  `none` models either panic. -/
def ldlNewPerm {α : Type} [CommRing α] [Div α] [DecidableEq α] (m : CsMat α)
    (perm : Perm) : Option (LdlFactor α) :=
  match ldl_symbolic m perm SymmetryCheck.CheckSymmetry with
  | none => none
  | some sym =>
    match factorOf m perm sym with
    | Except.error _ => none
    | Except.ok f => some f

/-- `LdlNumeric::update`: re-run the numeric pass in place on the stored
workspaces. -/
def LdlFactor.update {α : Type} [CommRing α] [Div α] [DecidableEq α]
    (f : LdlFactor α) (m : CsMat α) : Except NumErr (LdlFactor α) :=
  match ldl_numeric m f.colptr f.parents f.perm f.st with
  | Except.error e => Except.error e
  | Except.ok st => Except.ok { f with st := st }

/-- The borrowed view of L (source: `l_view`): a CSC matrix over the stored
column pointers, indices and values. -/
def LdlFactor.lView {α : Type} (f : LdlFactor α) : CsMat α :=
  ⟨false, f.problemSize, f.problemSize, f.colptr, f.st.lIndices, f.st.lData⟩

/-- `LdlNumeric::solve`: permute the right-hand side, forward solve, diagonal
solve, backward solve, and un-permute. -/
def LdlFactor.solve {α : Type} [CommRing α] [Div α] (f : LdlFactor α)
    (rhs : List α) : List α :=
  let x := permVec f.perm rhs
  let l := f.lView
  let x := ldl_lsolve l x
  let x := diag_solve f.st.diag x
  let x := ldl_ltsolve l x
  permVecInv f.perm x

/-! ## Sparse-to-dense assignment (source: `to_dense.rs`) -/

/-- Model of the external `ndarray` two-dimensional view: `shape()[0] = d0`,
`shape()[1] = d1`, entries stored row-major as a list of rows;
`axis_iter(Axis(0))` yields the `d0` rows and `axis_iter(Axis(1))` the `d1`
columns. -/
structure DenseMat (α : Type) where
  d0 : Nat
  d1 : Nat
  entries : List (List α)
deriving DecidableEq

/-- Write value `v` at cell `(i, j)` of a row-major entry list. -/
def dset {α : Type} (e : List (List α)) (i j : Nat) (v : α) : List (List α) :=
  e.set i ((e.getD i []).set j v)

/-- Read cell `(i, j)` of a row-major entry list, with default `d`. -/
def cellGet {α : Type} (e : List (List α)) (i j : Nat) (d : α) : α :=
  (e.getD i []).getD j d

/-- The dense cell written for a stored entry with inner index `ind` of outer
slice `k`: row `k` for CSR, column `k` for CSC. -/
def sliceCell (isCsr : Bool) (k ind : Nat) : Nat × Nat :=
  if isCsr then (k, ind) else (ind, k)

/-- The inner loop of `assign_to_dense`: `drow[[ind]] = val` for every stored
entry of one outer slice; for CSR the slice is paired with dense row `k`, for
CSC with dense column `k`. -/
def assignSlice {α : Type} (isCsr : Bool) (k : Nat) :
    List (List α) → List (Nat × α) → List (List α)
  | e, [] => e
  | e, p :: rest =>
    assignSlice isCsr k (dset e (sliceCell isCsr k p.1).1 (sliceCell isCsr k p.1).2 p.2) rest

/-- Outer slices `0 .. k-1` of the assignment loop. -/
def assignRun {α : Type} (m : CsMat α) : Nat → List (List α) → List (List α)
  | 0, e => e
  | k + 1, e => assignSlice m.isCsr k (assignRun m k e) (m.outerSlice k)

/-- `assign_to_dense`: panic (modelled as `none`) on the two dimension
checks, then zip the outer iterator with the dense axis iterator (the zip
truncates to the shorter of the two) and assign every stored entry. -/
def assign_to_dense {α : Type} (arr : DenseMat α) (m : CsMat α) : Option (DenseMat α) :=
  if m.ncols ≠ arr.d0 then none
  else if m.nrows ≠ arr.d0 then none
  else
    let axisLen := if m.isCsr then arr.d0 else arr.d1
    some { arr with entries := assignRun m (min m.outerDim axisLen) arr.entries }

/-- The sparse matrix has an explicit stored entry at (row `i`, column `j`). -/
def hasEntry {α : Type} (m : CsMat α) (i j : Nat) : Prop :=
  ∃ p ∈ m.outerSlice (if m.isCsr then i else j), p.1 = (if m.isCsr then j else i)

/-! ## Run-level simulation invariant -/

/-- Well-formedness of the stored segment of column `i` of L after the first
`K` columns of the numeric pass: the `lnzi` stored row indices sit at
positions `colptr[i] + q`, are strictly between `i` and `K`, strictly
ascend along the segment, and each is an elimination-tree ancestor of `i`. -/
structure SegOk (parentsF : Parents) (colptr : List Nat) (K i : Nat)
    (lnzi : Nat) (lIndices : List Nat) : Prop where
  rowGt : ∀ q, q < lnzi → i < lIndices.getD (colptr.getD i 0 + q) 0
  rowLt : ∀ q, q < lnzi → lIndices.getD (colptr.getD i 0 + q) 0 < K
  sorted : ∀ q q', q < q' → q' < lnzi →
    lIndices.getD (colptr.getD i 0 + q) 0 < lIndices.getD (colptr.getD i 0 + q') 0
  anc : ∀ q, q < lnzi → ∃ t, ancestorAfter parentsF (t + 1) i =
    some (lIndices.getD (colptr.getD i 0 + q) 0)

/-- Invariant relating the symbolic state `T` and the numeric state `U` once
both outer loops have processed columns `0 .. K-1`: the flag and fill-count
workspaces agree below `K`, the dense accumulator `y` is completely cleared,
and every stored column segment of L is well formed. -/
structure RunInv {α : Type} [CommRing α] (parentsF : Parents) (colptr : List Nat)
    (n K : Nat) (T : SymState) (U : NumState α) : Prop where
  flagLen : U.flag.length = n
  lnzLen : U.lnz.length = n
  liLen : colptr.getD n 0 ≤ U.lIndices.length
  flagEq : ∀ j, j < K → U.flag.getD j 0 = T.flag.getD j 0
  lnzEq : ∀ j, j < K → U.lnz.getD j 0 = T.lnz.getD j 0
  yZero : ∀ j, U.y.getD j 0 = 0
  segs : ∀ i, i < K → SegOk parentsF colptr K i (U.lnz.getD i 0) U.lIndices

/-- Relation between the state `U` of a fresh numeric run and the state `V`
of a repeated (`update`) numeric run after both have processed columns
`0 .. K-1`: the dense accumulators coincide, the diagonal and the filled
column segments of L agree, and positions past the allocated storage agree. -/
structure RunInv2 {α : Type} [CommRing α] (colptr : List Nat) (n K : Nat)
    (U V : NumState α) : Prop where
  yEq : V.y = U.y
  plU : U.pattern.left = []
  plV : V.pattern.left = []
  diagLenU : U.diag.length = n
  diagLenEq : V.diag.length = U.diag.length
  diagEq : ∀ j, j < K → V.diag.getD j 0 = U.diag.getD j 0
  ldLenU : colptr.getD n 0 ≤ U.lData.length
  ldLenV : colptr.getD n 0 ≤ V.lData.length
  liLenEq : V.lIndices.length = U.lIndices.length
  ldLenEq : V.lData.length = U.lData.length
  regEq : ∀ i, i < K → ∀ p, colptr.getD i 0 ≤ p →
    p < colptr.getD i 0 + U.lnz.getD i 0 →
    V.lIndices.getD p 0 = U.lIndices.getD p 0 ∧ V.lData.getD p 0 = U.lData.getD p 0
  hiEq : ∀ p, colptr.getD n 0 ≤ p →
    V.lIndices.getD p 0 = U.lIndices.getD p 0 ∧ V.lData.getD p 0 = U.lData.getD p 0

/-- Modelled from the spec: the in-contract precondition of `update` — a
matrix with the same sparsity structure as the factorized one (same
compression orientation, dimensions, index arrays and stored-entry count);
only the stored values may differ. -/
def samePattern {α : Type} (m m' : CsMat α) : Prop :=
  m'.isCsr = m.isCsr ∧ m'.nrows = m.nrows ∧ m'.ncols = m.ncols ∧
    m'.indptr = m.indptr ∧ m'.indices = m.indices ∧ m'.data.length = m.data.length

/-- `G` is reachable from `F` by a (possibly empty) sequence of successful
`update` calls, each with a matrix sharing the sparsity pattern of the
originally factorized matrix `m` (in particular with `m` itself). -/
inductive UpdateChain {α : Type} [CommRing α] [Div α] [DecidableEq α] (m : CsMat α) :
    LdlFactor α → LdlFactor α → Prop
  | refl (F : LdlFactor α) : UpdateChain m F F
  | step (F G H : LdlFactor α) (mv : CsMat α) : UpdateChain m F G → samePattern m mv →
      G.update mv = Except.ok H → UpdateChain m F H

/-! ## Triplet-format matrices and `to_csc` (source: `triplet.rs`) -/

/-- Triplet format matrix: three arrays of equal length with the row indices,
column indices and values of the entries (duplicate locations allowed). -/
structure TripletMat (α : Type) where
  rows : Nat
  cols : Nat
  row_inds : List Nat
  col_inds : List Nat
  data : List α

/-- The first counting loop of `to_csc`: `row_counts[i + 1] += 1` for every
stored row index. -/
def countRows : List Nat → List Nat → List Nat
  | rc, [] => rc
  | rc, i :: rest => countRows (rc.set (i + 1) (rc.getD (i + 1) 0 + 1)) rest

/-- One step of the in-place cumulative sum of `to_csc`:
`indptr[i] += indptr[i - 1]`. -/
def cumStep (ip : List Nat) (i : Nat) : List Nat :=
  ip.set i (ip.getD i 0 + ip.getD (i - 1) 0)

/-- The cumulative-sum loop `for i in 1..(rows + 1)` of `to_csc`, having
processed `i = 1 .. k`. -/
def cumRun (ip : List Nat) : Nat → List Nat
  | 0 => ip
  | k + 1 => cumStep (cumRun ip k) (k + 1)

/-- The linear scan of one stored row segment for a column index, returning
the position of the first match (`col_cell == j`). -/
def segFind (idx : List Nat) (j : Nat) : Nat → Nat → Option Nat
  | _, 0 => none
  | p, c + 1 => if idx.getD p 0 = j then some p else segFind idx j (p + 1) c

/-- The growing output arrays of `to_csc`'s accumulation loop: indices,
values and the per-row fill counts. -/
structure CscBuild (α : Type) where
  idx : List Nat
  dat : List α
  rc : List Nat

/-- One iteration of the accumulation loop of `to_csc`: scan row `t.2.1`'s
current segment for column `t.2.2`; on a hit add the value in place,
otherwise append the new column and value and bump the row count. -/
def insertTriplet {α : Type} [CommRing α] (ip : List Nat) (st : CscBuild α)
    (t : α × Nat × Nat) : CscBuild α :=
  match segFind st.idx t.2.2 (ip.getD t.2.1 0) (st.rc.getD t.2.1 0) with
  | some p => { st with dat := st.dat.set p (st.dat.getD p 0 + t.1) }
  | none =>
      { idx := st.idx.set (ip.getD t.2.1 0 + st.rc.getD t.2.1 0) t.2.2
        dat := st.dat.set (ip.getD t.2.1 0 + st.rc.getD t.2.1 0) t.1
        rc := st.rc.set t.2.1 (st.rc.getD t.2.1 0 + 1) }

/-- The whole accumulation loop of `to_csc`. -/
def insertAll {α : Type} [CommRing α] (ip : List Nat) :
    CscBuild α → List (α × Nat × Nat) → CscBuild α
  | st, [] => st
  | st, t :: rest => insertAll ip (insertTriplet ip st t) rest

/-- The inner copy loop of `to_csc`'s compression phase, having copied
offsets `0 .. k-1` from `src` to `dst` (ascending, as the source does). -/
def copySeg {α : Type} [CommRing α] (dst src : Nat) :
    Nat → List Nat → List α → List Nat × List α
  | 0, idx, dat => (idx, dat)
  | k + 1, idx, dat =>
    match copySeg dst src k idx dat with
    | (idx2, dat2) => (idx2.set (dst + k) (idx2.getD (src + k) 0),
        dat2.set (dst + k) (dat2.getD (src + k) 0))

/-- State of the compression loop of `to_csc`: the index and value arrays,
the in-place rewritten `indptr`, and `dst_start`. -/
structure CompState (α : Type) where
  idx : List Nat
  dat : List α
  ip : List Nat
  dst : Nat

/-- One iteration of the compression loop of `to_csc`: slide row `i`'s
segment down to `dst_start` (skipping the copy when already in place),
record the new start and advance `dst_start`. -/
def compressStep {α : Type} [CommRing α] (rc : List Nat) (i : Nat)
    (st : CompState α) : CompState α :=
  match (if st.ip.getD i 0 ≠ st.dst
      then copySeg st.dst (st.ip.getD i 0) (rc.getD i 0) st.idx st.dat
      else (st.idx, st.dat)) with
  | (idx2, dat2) => ⟨idx2, dat2, st.ip.set i st.dst, st.dst + rc.getD i 0⟩

/-- The compression loop of `to_csc` over rows `0 .. k-1`. -/
def compressRun {α : Type} [CommRing α] (rc : List Nat) (st : CompState α) :
    Nat → CompState α
  | 0 => st
  | i + 1 => compressStep rc i (compressRun rc st i)

/-- The stored `(inner index, value)` pairs of row `i` of a raw CSR triple. -/
def rowSegOf {α : Type} (ip idx : List Nat) (dat : List α) (i : Nat) :
    List (Nat × α) :=
  ((idx.zip dat).drop (ip.getD i 0)).take (ip.getD (i + 1) 0 - ip.getD i 0)

/-- Modelled from the spec: column `j` of the CSR-to-CSC conversion
collaborator (`csmat::raw::convert_storage`), scanning rows `0 .. i-1` in
order and picking the entries stored at column `j`; the ascending row scan
yields the sorted rows the caller relies on. -/
def cscColAux {α : Type} (ip idx : List Nat) (dat : List α) (j : Nat) :
    Nat → List (Nat × α)
  | 0 => []
  | i + 1 => cscColAux ip idx dat j i ++
      ((rowSegOf ip idx dat i).filter (fun e => e.1 = j)).map (fun e => (i, e.2))

/-- Sums `f 0 + f 1 + ... + f (t - 1)`. -/
def natPrefix (f : Nat → Nat) : Nat → Nat
  | 0 => 0
  | t + 1 => natPrefix f t + f t

/-- Modelled from the spec: the CSR-to-CSC conversion collaborator
(`csmat::raw::convert_storage`): output column pointers, indices and values
of the transposed compressed matrix. -/
def convert_storage {α : Type} (rows cols : Nat) (ip idx : List Nat)
    (dat : List α) : List Nat × List Nat × List α :=
  ((List.range (cols + 1)).map
      (natPrefix (fun j => (cscColAux ip idx dat j rows).length)),
    (List.flatten ((List.range cols).map (fun j => cscColAux ip idx dat j rows))).map
      Prod.fst,
    (List.flatten ((List.range cols).map (fun j => cscColAux ip idx dat j rows))).map
      Prod.snd)

/-- The triplet entries in iteration order: `(value, (row, col))`. -/
def tripList {α : Type} (T : TripletMat α) : List (α × Nat × Nat) :=
  T.data.zip (T.row_inds.zip T.col_inds)

/-- The raw per-row counts of `to_csc` (`row_counts` after the first loop). -/
def tripRawCounts {α : Type} (T : TripletMat α) : List Nat :=
  countRows (List.replicate (T.rows + 1) 0) T.row_inds

/-- The `indptr` of `to_csc` after the cumulative-sum loop. -/
def tripIndptr {α : Type} (T : TripletMat α) : List Nat :=
  cumRun (tripRawCounts T) T.rows

/-- `nnz_max` of `to_csc`. -/
def tripNnzMax {α : Type} (T : TripletMat α) : Nat :=
  (tripIndptr T).getD T.rows 0

/-- The arrays of `to_csc` after the accumulation loop, started on the
zeroed `indices`/`data` buffers and the reset row counts. -/
def tripBuilt {α : Type} [CommRing α] (T : TripletMat α) : CscBuild α :=
  insertAll (tripIndptr T)
    ⟨List.replicate (tripNnzMax T) 0, List.replicate (tripNnzMax T) 0,
      List.replicate (T.rows + 1) 0⟩
    (tripList T)

/-- The state of `to_csc` after the compression loop
(`dst_start` starts at `indptr[0]`). -/
def tripComp {α : Type} [CommRing α] (T : TripletMat α) : CompState α :=
  compressRun (tripBuilt T).rc
    ⟨(tripBuilt T).idx, (tripBuilt T).dat, tripIndptr T, (tripIndptr T).getD 0 0⟩
    T.rows

/-- The final CSR `indptr` of `to_csc` (`indptr[rows] = dst_start`). -/
def tripFinalIp {α : Type} [CommRing α] (T : TripletMat α) : List Nat :=
  (tripComp T).ip.set T.rows (tripComp T).dst

/-- `TripletMatView::to_csc`: accumulate duplicate locations row by row,
compress, and convert the resulting CSR matrix to CSC. -/
def TripletMat.to_csc {α : Type} [CommRing α] (T : TripletMat α) : CsMat α :=
  match convert_storage T.rows T.cols (tripFinalIp T) (tripComp T).idx
      (tripComp T).dat with
  | (oip, oidx, odat) => ⟨false, T.rows, T.cols, oip, oidx, odat⟩

/-- Accumulate a `(column, value)` pair into a deduplicated row list: add to
the first matching column, or append a fresh entry. -/
def addTo {α : Type} [CommRing α] : List (Nat × α) → Nat → α → List (Nat × α)
  | [], j, v => [(j, v)]
  | e :: rest, j, v =>
    if e.1 = j then (e.1, e.2 + v) :: rest else e :: addTo rest j v

/-- The deduplicated `(column, value)` list of row `i` after a sequence of
triplets, in first-occurrence order: the semantic content of `to_csc`'s
accumulation loop on one row. -/
def rowSpec {α : Type} [CommRing α] (i : Nat) :
    List (Nat × α) → List (α × Nat × Nat) → List (Nat × α)
  | acc, [] => acc
  | acc, t :: rest =>
    if t.2.1 = i then rowSpec i (addTo acc t.2.2 t.1) rest else rowSpec i acc rest

/-- The summed value of all triplet entries at row `i`, column `j` (the
right-hand side of the duplicate-summing contract of `to_csc`). -/
def tripSum {α : Type} [CommRing α] (ts : List (α × Nat × Nat)) (i j : Nat) : α :=
  ((ts.filter (fun t => decide (t.2.1 = i ∧ t.2.2 = j))).map (fun t => t.1)).sum

/-! ## Concrete scenarios from the test suite -/

/-- The 10×10 SPD matrix of scenario A (source: `test_mat1`), with the
decimal floating literals represented exactly as rationals. -/
def matA : CsMat ℚ :=
  ⟨false, 10, 10,
    [0, 2, 5, 6, 7, 13, 14, 17, 20, 24, 28],
    [0, 8, 1, 4, 9, 2, 3, 1, 4, 6, 7, 8, 9, 5, 4, 6, 9, 4, 7, 8, 0, 4, 7, 8, 1, 4, 6, 9],
    [mkRat 17 10, mkRat 13 100, mkRat 1 1, mkRat 2 100, mkRat 1 100, mkRat 15 10,
     mkRat 11 10, mkRat 2 100, mkRat 26 10, mkRat 16 100, mkRat 9 100, mkRat 52 100,
     mkRat 53 100, mkRat 12 10, mkRat 16 100, mkRat 13 10, mkRat 56 100, mkRat 9 100,
     mkRat 16 10, mkRat 11 100, mkRat 13 100, mkRat 52 100, mkRat 11 100, mkRat 14 10,
     mkRat 1 100, mkRat 53 100, mkRat 56 100, mkRat 31 10]⟩

/-- The 4×4 integer matrix of scenario B (source: `permuted_ldl_solve`). -/
def matB : CsMat ℤ :=
  ⟨false, 4, 4, [0, 2, 4, 6, 8], [0, 3, 1, 2, 1, 2, 0, 3], [1, 2, 21, 6, 6, 2, 2, 8]⟩

/-- The permutation `[0, 2, 1, 3]` of scenario B (it is its own inverse). -/
def permB : Perm := Perm.ofList [0, 2, 1, 3] [0, 2, 1, 3]

/-- A matrix with the sparsity pattern of scenario B but different stored
values: an in-contract input for `update` after factorizing `matB`. -/
def matB2 : CsMat ℤ :=
  ⟨false, 4, 4, [0, 2, 4, 6, 8], [0, 3, 1, 2, 1, 2, 0, 3], [3, 2, 22, 6, 6, 4, 2, 9]⟩

/-! # Theorems -/

/-! ## List helpers -/

/-! ## List helpers -/

theorem getD_set_self {β : Type _} (l : List β) (i : Nat) (a d : β) (h : i < l.length) :
    (l.set i a).getD i d = a := by
  induction l generalizing i with
  | nil => simp at h
  | cons x xs ih =>
    cases i with
    | zero => rfl
    | succ i => simpa using ih i (by simpa using h)

theorem getD_set_ne {β : Type _} (l : List β) {i j : Nat} (a : β) (d : β) (h : i ≠ j) :
    (l.set i a).getD j d = l.getD j d := by
  induction l generalizing i j with
  | nil => simp [List.set]
  | cons x xs ih =>
    cases i with
    | zero =>
      cases j with
      | zero => exact absurd rfl h
      | succ j => rfl
    | succ i =>
      cases j with
      | zero => rfl
      | succ j => simpa using ih (fun hh => h (by simpa using hh))

theorem length_set {β : Type _} (l : List β) (i : Nat) (a : β) :
    (l.set i a).length = l.length := List.length_set l i a


/-! ## Sparse-to-dense assignment: proofs (claim C10) -/

theorem cellGet_dset_ne {α : Type} (e : List (List α)) {i j i' j' : Nat} (v : α) (d : α)
    (h : i ≠ i' ∨ j ≠ j') : cellGet (dset e i' j' v) i j d = cellGet e i j d := by
  rcases h with h | h
  · unfold cellGet dset
    rw [getD_set_ne _ _ _ (fun hh => h hh.symm)]
  · by_cases hi : i = i'
    · subst hi
      unfold cellGet dset
      by_cases hlen : i < e.length
      · rw [getD_set_self _ _ _ _ hlen, getD_set_ne _ _ _ (fun hh => h hh.symm)]
      · rw [List.set_eq_of_length_le (Nat.le_of_not_lt hlen)]
    · unfold cellGet dset
      rw [getD_set_ne _ _ _ (fun hh => hi hh.symm)]

theorem assignSlice_untouched {α : Type} (isCsr : Bool) (k : Nat)
    (sl : List (Nat × α)) (e : List (List α)) {i j : Nat} (d : α)
    (h : ∀ p ∈ sl, sliceCell isCsr k p.1 ≠ (i, j)) :
    cellGet (assignSlice isCsr k e sl) i j d = cellGet e i j d := by
  induction sl generalizing e with
  | nil => rfl
  | cons p rest ih =>
    rw [assignSlice, ih _ (fun q hq => h q (List.mem_cons_of_mem _ hq))]
    have hp := h p (List.mem_cons_self _ _)
    refine cellGet_dset_ne _ _ _ ?_
    by_cases hi : i = (sliceCell isCsr k p.1).1
    · refine Or.inr (fun hj => hp ?_)
      rw [Prod.ext_iff]
      exact ⟨hi.symm, hj.symm⟩
    · exact Or.inl hi

theorem assignRun_untouched {α : Type} (m : CsMat α) (cnt : Nat) (e : List (List α))
    {i j : Nat} (d : α) (h : ¬ hasEntry m i j) :
    cellGet (assignRun m cnt e) i j d = cellGet e i j d := by
  induction cnt generalizing e with
  | zero => rfl
  | succ k ih =>
    rw [assignRun, assignSlice_untouched, ih _]
    intro p hp hpij
    apply h
    cases hcs : m.isCsr with
    | false =>
      simp only [sliceCell, hcs, Bool.false_eq_true, if_false, Prod.mk.injEq] at hpij
      exact ⟨p, by simpa [hcs, hpij.2] using hp, by simp [hcs, hpij.1]⟩
    | true =>
      simp only [sliceCell, hcs, if_true, Prod.mk.injEq] at hpij
      exact ⟨p, by simpa [hcs, hpij.1] using hp, by simp [hcs, hpij.2]⟩

/-- C10: `assign_to_dense` fails with its dimension-mismatch panic exactly
when the matrix's column count or row count differs from the dense array's
first-axis length; the second-axis length is never consulted by the check, so
a dense array with exactly the (non-square) matrix's shape is rejected; and on
every accepted pair, each dense cell with no corresponding explicit stored
entry keeps its prior value. -/
theorem assign_to_dense_spec {α : Type} (m : CsMat α) (arr : DenseMat α) :
    ((assign_to_dense arr m = none) ↔ (m.ncols ≠ arr.d0 ∨ m.nrows ≠ arr.d0))
    ∧ (∀ d1' : Nat, (assign_to_dense { arr with d1 := d1' } m = none)
        ↔ (assign_to_dense arr m = none))
    ∧ (m.nrows ≠ m.ncols → arr.d0 = m.nrows → assign_to_dense arr m = none)
    ∧ (∀ res, assign_to_dense arr m = some res →
        ∀ i j : Nat, ∀ d : α, ¬ hasEntry m i j →
          cellGet res.entries i j d = cellGet arr.entries i j d) := by
  refine ⟨?_, ?_, ?_, ?_⟩
  · unfold assign_to_dense
    by_cases h1 : m.ncols = arr.d0 <;> by_cases h2 : m.nrows = arr.d0 <;>
      simp [h1, h2]
  · intro d1'
    unfold assign_to_dense
    by_cases h1 : m.ncols = arr.d0 <;> by_cases h2 : m.nrows = arr.d0 <;>
      simp [h1, h2]
  · intro hne hd0
    unfold assign_to_dense
    have hc : m.ncols ≠ arr.d0 := fun hc => hne (hd0.symm.trans hc.symm)
    simp [hc]
  · intro res hres i j d hent
    unfold assign_to_dense at hres
    by_cases h1 : m.ncols = arr.d0
    · by_cases h2 : m.nrows = arr.d0
      · simp only [h1, h2, ne_eq, not_true_eq_false, if_false, Option.some.injEq] at hres
        subst hres
        exact assignRun_untouched m _ _ d hent
      · simp [h1, h2] at hres
    · simp [h1] at hres

/-- C10 witness: a concrete accepted pair (the 2×2 CSC identity into a 2×3
dense array) on which an untouched cell keeps its value. -/
theorem assign_to_dense_spec_witness :
    cellGet (DenseMat.entries ((assign_to_dense
        ⟨2, 3, [[5, 6, 7], [8, 9, 10]]⟩
        (⟨false, 2, 2, [0, 1, 2], [0, 1], [1, 1]⟩ : CsMat ℤ)).getD
        ⟨0, 0, []⟩)) 0 1 0 = 6 := by
  have h := (assign_to_dense_spec (⟨false, 2, 2, [0, 1, 2], [0, 1], [1, 1]⟩ : CsMat ℤ)
    ⟨2, 3, [[5, 6, 7], [8, 9, 10]]⟩).2.2.2
  have hs : assign_to_dense (⟨2, 3, [[5, 6, 7], [8, 9, 10]]⟩ : DenseMat ℤ)
      (⟨false, 2, 2, [0, 1, 2], [0, 1], [1, 1]⟩ : CsMat ℤ) =
      some ⟨2, 3, [[1, 6, 7], [8, 1, 10]]⟩ := by decide
  have hsl : (⟨false, 2, 2, [0, 1, 2], [0, 1], [1, 1]⟩ : CsMat ℤ).outerSlice 1 =
      [(1, (1 : ℤ))] := by decide
  have hne : ¬ hasEntry (⟨false, 2, 2, [0, 1, 2], [0, 1], [1, 1]⟩ : CsMat ℤ) 0 1 := by
    rintro ⟨p, hp, hp1⟩
    rw [show (if (⟨false, 2, 2, [0, 1, 2], [0, 1], [1, 1]⟩ : CsMat ℤ).isCsr then 0 else 1) = 1
      from rfl, hsl] at hp
    rw [List.mem_singleton] at hp
    subst hp
    simp at hp1
  have hc := h _ hs 0 1 0 hne
  rw [hs]
  exact hc.trans (by decide)


/-! ## Concrete scenarios: proofs (claims C1, C8) -/

/-- C1: building the numeric factorization of the scenario-B matrix with
permutation `[0,2,1,3]` and solving for the right-hand side `[9,60,18,34]`
returns exactly `[1,2,3,4]`, in exact integer arithmetic. -/
theorem scenarioB_solve_exact :
    (ldlNewPerm matB permB).map (fun f => f.solve [9, 60, 18, 34]) =
      some [1, 2, 3, 4] := by
  decide

/-- C8: symbolic analysis of the scenario-A matrix with the identity
permutation produces exactly the column pointers
`[0,1,3,3,3,7,7,10,12,13,13]`. -/
theorem scenarioA_colptr :
    (ldl_symbolic matA Perm.identity SymmetryCheck.CheckSymmetry).map SymResult.colptr =
      some [0, 1, 3, 3, 3, 7, 7, 10, 12, 13, 13] := by
  decide

/-! ## The singularity check of the numeric pass (claim C3) -/

theorem numRun_succ {α : Type} [CommRing α] [Div α] [DecidableEq α] (m : CsMat α)
    (colptr : List Nat) (parents : Parents) (perm : Perm) (fuel k : Nat) (s : NumState α) :
    numRun m colptr parents perm fuel (k + 1) s =
      match numRun m colptr parents perm fuel k s with
      | Except.error e => Except.error e
      | Except.ok s' => numColumn m colptr parents perm fuel k s' := rfl

theorem numEntries_diag {α : Type} [CommRing α] (parents : Parents) (k fuel : Nat) :
    ∀ (es : List (Nat × α)) (s s' : NumState α),
      numEntries parents k fuel s es = some s' → s'.diag = s.diag := by
  intro es
  induction es with
  | nil => intro s s' h; cases h; rfl
  | cons e rest ih =>
    intro s s' h
    rw [numEntries] at h
    by_cases he : e.1 ≤ k
    · rw [if_pos he] at h
      cases hw : numWalk parents k fuel [] s.flag e.1 with
      | none => rw [hw] at h; cases h
      | some lf =>
        obtain ⟨left, flag⟩ := lf
        rw [hw] at h
        rw [ih _ _ h]
        rfl
    · rw [if_neg he] at h
      exact ih _ _ h

theorem numElim_diag_ne {α : Type} [CommRing α] [Div α] (colptr : List Nat) (k : Nat)
    (s : NumState α) (i : Nat) {j : Nat} (hj : j ≠ k) :
    (numElim colptr k s i).diag.getD j 0 = s.diag.getD j 0 := by
  unfold numElim
  exact getD_set_ne _ _ _ (fun h => hj h.symm)

theorem numElimList_diag_ne {α : Type} [CommRing α] [Div α] (colptr : List Nat) (k : Nat) :
    ∀ (pat : List Nat) (s : NumState α) {j : Nat}, j ≠ k →
      (numElimList colptr k s pat).diag.getD j 0 = s.diag.getD j 0 := by
  intro pat
  induction pat with
  | nil => intro s j _; rfl
  | cons i rest ih =>
    intro s j hj
    rw [numElimList, ih _ hj, numElim_diag_ne _ _ _ _ hj]

theorem numColumnCore_diag_ne {α : Type} [CommRing α] [Div α] (m : CsMat α)
    (colptr : List Nat) (parents : Parents) (perm : Perm) (fuel k : Nat)
    (s s₃ : NumState α) (h : numColumnCore m colptr parents perm fuel k s = some s₃)
    {j : Nat} (hj : j ≠ k) : s₃.diag.getD j 0 = s.diag.getD j 0 := by
  unfold numColumnCore at h
  cases he : numEntries parents k fuel (colReset s k) (permSlice m perm k) with
  | none => rw [he] at h; cases h
  | some s₁ =>
    rw [he] at h
    cases h
    rw [numElimList_diag_ne _ _ _ _ hj]
    have hd := numEntries_diag parents k fuel _ _ _ he
    show (s₁.diag.set k (s₁.y.getD k 0)).getD j 0 = s.diag.getD j 0
    rw [getD_set_ne _ _ _ (fun hh => hj hh.symm), hd]
    rfl

theorem numColumn_ok_iff {α : Type} [CommRing α] [Div α] [DecidableEq α] (m : CsMat α)
    (colptr : List Nat) (parents : Parents) (perm : Perm) (fuel k : Nat)
    (s s' : NumState α) :
    numColumn m colptr parents perm fuel k s = Except.ok s' ↔
      numColumnCore m colptr parents perm fuel k s = some s' ∧ s'.diag.getD k 0 ≠ 0 := by
  unfold numColumn
  cases hc : numColumnCore m colptr parents perm fuel k s with
  | none => simp
  | some s₃ =>
    by_cases hz : s₃.diag.getD k 0 = 0
    · simp only [hz, if_pos rfl]
      constructor
      · intro h; cases h
      · rintro ⟨h3, hnz⟩
        cases h3
        exact absurd hz hnz
    · simp only [if_neg hz]
      constructor
      · intro h
        cases h
        exact ⟨rfl, hz⟩
      · rintro ⟨h3, _⟩
        cases h3
        rfl

theorem numColumn_singular_iff {α : Type} [CommRing α] [Div α] [DecidableEq α] (m : CsMat α)
    (colptr : List Nat) (parents : Parents) (perm : Perm) (fuel k : Nat) (s : NumState α) :
    numColumn m colptr parents perm fuel k s = Except.error NumErr.SingularMatrix ↔
      ∃ s₃, numColumnCore m colptr parents perm fuel k s = some s₃ ∧
        s₃.diag.getD k 0 = 0 := by
  unfold numColumn
  cases hc : numColumnCore m colptr parents perm fuel k s with
  | none =>
    simp only []
    constructor
    · intro h; cases h
    · rintro ⟨s₃, h3, _⟩; cases h3
  | some s₃ =>
    by_cases hz : s₃.diag.getD k 0 = 0
    · simp only [hz, if_pos rfl]
      exact ⟨fun _ => ⟨s₃, rfl, hz⟩, fun _ => rfl⟩
    · simp only [if_neg hz]
      constructor
      · intro h; cases h
      · rintro ⟨s₄, h4, hz4⟩
        cases h4
        exact absurd hz4 hz

theorem numRun_error_iff {α : Type} [CommRing α] [Div α] [DecidableEq α] (m : CsMat α)
    (colptr : List Nat) (parents : Parents) (perm : Perm) (fuel : Nat) (e : NumErr) :
    ∀ (N : Nat) (s₀ : NumState α),
      numRun m colptr parents perm fuel N s₀ = Except.error e ↔
        ∃ k < N, ∃ s, numRun m colptr parents perm fuel k s₀ = Except.ok s ∧
          numColumn m colptr parents perm fuel k s = Except.error e := by
  intro N
  induction N with
  | zero =>
    intro s₀
    constructor
    · intro h; cases h
    · rintro ⟨k, hk, _⟩; exact absurd hk (Nat.not_lt_zero k)
  | succ N ih =>
    intro s₀
    rw [numRun_succ]
    cases hN : numRun m colptr parents perm fuel N s₀ with
    | error e' =>
      simp only []
      constructor
      · intro h
        cases h
        rcases (ih s₀).mp hN with ⟨k, hk, s, hok, hcol⟩
        exact ⟨k, Nat.lt_succ_of_lt hk, s, hok, hcol⟩
      · rintro ⟨k, hk, s, hok, hcol⟩
        rcases Nat.lt_succ_iff_lt_or_eq.mp hk with hk' | rfl
        · have := (ih s₀).mpr ⟨k, hk', s, hok, hcol⟩
          rw [hN] at this
          exact this
        · rw [hN] at hok; cases hok
    | ok s' =>
      simp only []
      constructor
      · intro h
        exact ⟨N, Nat.lt_succ_self N, s', hN, h⟩
      · rintro ⟨k, hk, s, hok, hcol⟩
        rcases Nat.lt_succ_iff_lt_or_eq.mp hk with hk' | rfl
        · have := (ih s₀).mpr ⟨k, hk', s, hok, hcol⟩
          rw [hN] at this
          cases this
        · rw [hN] at hok
          cases hok
          exact hcol

theorem numRun_ok_diag {α : Type} [CommRing α] [Div α] [DecidableEq α] (m : CsMat α)
    (colptr : List Nat) (parents : Parents) (perm : Perm) (fuel : Nat) :
    ∀ (N : Nat) (s₀ st : NumState α),
      numRun m colptr parents perm fuel N s₀ = Except.ok st →
        ∀ k, k < N → st.diag.getD k 0 ≠ 0 := by
  intro N
  induction N with
  | zero => intro s₀ st _ k hk; exact absurd hk (Nat.not_lt_zero k)
  | succ N ih =>
    intro s₀ st h k hk
    rw [numRun_succ] at h
    cases hN : numRun m colptr parents perm fuel N s₀ with
    | error e => rw [hN] at h; cases h
    | ok s' =>
      rw [hN] at h
      rcases (numColumn_ok_iff m colptr parents perm fuel N s' st).mp h with ⟨hcore, hnz⟩
      rcases Nat.lt_succ_iff_lt_or_eq.mp hk with hk' | rfl
      · have hne : k ≠ N := Nat.ne_of_lt hk'
        rw [numColumnCore_diag_ne m colptr parents perm fuel N s' st hcore hne]
        exact ih s₀ s' hN k hk'
      · exact hnz

/-- C3: the numeric factorization fails with the `SingularMatrix` condition
exactly when, for some column `k` in permuted order, all earlier columns
completed their pivot checks and column `k`'s pivot `diag[k]` is zero once its
elimination is complete (so the failure happens at the first such column and
aborts the whole pass); and when it succeeds, every entry of the diagonal `D`
is nonzero. -/
theorem ldl_numeric_singular_iff {α : Type} [CommRing α] [Div α] [DecidableEq α]
    (m : CsMat α) (colptr : List Nat) (parents : Parents) (perm : Perm)
    (s₀ : NumState α) :
    (ldl_numeric m colptr parents perm s₀ = Except.error NumErr.SingularMatrix ↔
      ∃ k < m.outerDim, ∃ s s₃,
        numRun m colptr parents perm (m.outerDim + 1) k s₀ = Except.ok s ∧
        numColumnCore m colptr parents perm (m.outerDim + 1) k s = some s₃ ∧
        s₃.diag.getD k 0 = 0)
    ∧ (∀ st, ldl_numeric m colptr parents perm s₀ = Except.ok st →
        ∀ k, k < m.outerDim → st.diag.getD k 0 ≠ 0) := by
  constructor
  · rw [ldl_numeric.eq_def]
    rw [numRun_error_iff]
    constructor
    · rintro ⟨k, hk, s, hok, hcol⟩
      rcases (numColumn_singular_iff m colptr parents perm _ k s).mp hcol with ⟨s₃, hcore, hz⟩
      exact ⟨k, hk, s, s₃, hok, hcore, hz⟩
    · rintro ⟨k, hk, s, s₃, hok, hcore, hz⟩
      exact ⟨k, hk, s, hok,
        (numColumn_singular_iff m colptr parents perm _ k s).mpr ⟨s₃, hcore, hz⟩⟩
  · intro st h
    exact numRun_ok_diag m colptr parents perm (m.outerDim + 1) m.outerDim s₀ st h

/-- C3 witness: the 1×1 matrix whose only entry is zero makes the numeric
pass fail with `SingularMatrix` (via the first part of the characterization),
applied at column `k = 0`. -/
theorem ldl_numeric_singular_iff_witness :
    ldl_numeric (⟨false, 1, 1, [0, 1], [0], [0]⟩ : CsMat ℤ) [0, 0] [none] Perm.identity
      ⟨[0], [], [], [0], [0], ⟨[], []⟩, [0]⟩ = Except.error NumErr.SingularMatrix :=
  (ldl_numeric_singular_iff (⟨false, 1, 1, [0, 1], [0], [0]⟩ : CsMat ℤ) [0, 0] [none]
      Perm.identity ⟨[0], [], [], [0], [0], ⟨[], []⟩, [0]⟩).1.mpr
    ⟨0, by decide, ⟨[0], [], [], [0], [0], ⟨[], []⟩, [0]⟩,
      ⟨[0], [], [], [0], [0], ⟨[], []⟩, [0]⟩, rfl, by decide, by decide⟩

/-! ## The elimination forest of the symbolic pass (claim C7) -/

theorem getD_of_length_le {β : Type _} : ∀ (l : List β) (i : Nat) (d : β),
    l.length ≤ i → l.getD i d = d := by
  intro l
  induction l with
  | nil => intro i d _; cases i <;> rfl
  | cons x xs ih =>
    intro i d h
    cases i with
    | zero => simp at h
    | succ i => exact ih i d (Nat.le_of_succ_le_succ h)

theorem getParent_replicate (n i : Nat) :
    getParent (List.replicate n (none : Option Nat)) i = none := by
  unfold getParent
  induction n generalizing i with
  | zero => cases i <;> rfl
  | succ n ih =>
    cases i with
    | zero => rfl
    | succ i => exact ih i

theorem length_uproot (p : Parents) (i k : Nat) : (uproot p i k).length = p.length := by
  unfold uproot
  cases (show List (Option Nat) from p).getD i none with
  | none => exact List.length_set p i (some k)
  | some _ => rfl

theorem uproot_le (p : Parents) (i k : Nat) : parentsLe p (uproot p i k) := by
  intro j v h
  unfold uproot
  cases hpi : (show List (Option Nat) from p).getD i none with
  | none =>
    by_cases hji : j = i
    · subst hji
      rw [show getParent p j = (show List (Option Nat) from p).getD j none from rfl, hpi] at h
      cases h
    · show (List.set p i (some k)).getD j none = some v
      rw [getD_set_ne _ _ _ (fun hh => hji hh.symm)]
      exact h
  | some w => exact h

theorem getParent_uproot_cases (p : Parents) (i k j : Nat) (v : Nat)
    (h : getParent (uproot p i k) j = some v) :
    getParent p j = some v ∨ (j = i ∧ v = k) := by
  unfold uproot at h
  cases hpi : (show List (Option Nat) from p).getD i none with
  | none =>
    rw [hpi] at h
    by_cases hji : j = i
    · subst hji
      by_cases hlen : j < p.length
      · right
        rw [show getParent (List.set p j (some k)) j =
            (List.set p j (some k)).getD j none from rfl,
          getD_set_self _ _ _ _ hlen] at h
        cases h
        exact ⟨rfl, rfl⟩
      · left
        rw [show getParent (List.set p j (some k)) j =
            (List.set p j (some k)).getD j none from rfl,
          List.set_eq_of_length_le (Nat.le_of_not_lt hlen)] at h
        exact h
    · left
      rw [show getParent (List.set p i (some k)) j =
          (List.set p i (some k)).getD j none from rfl,
        getD_set_ne _ _ _ (fun hh => hji hh.symm)] at h
      exact h
  | some w =>
    rw [hpi] at h
    exact Or.inl h

theorem getParent_setRoot_cases (p : Parents) (k j : Nat) (v : Nat)
    (h : getParent (setRoot p k) j = some v) : getParent p j = some v ∧ j ≠ k := by
  unfold setRoot at h
  by_cases hjk : j = k
  · subst hjk
    by_cases hlen : j < p.length
    · rw [show getParent (List.set p j none) j = (List.set p j none).getD j none from rfl,
        getD_set_self _ _ _ _ hlen] at h
      cases h
    · rw [show getParent (List.set p j none) j = (List.set p j none).getD j none from rfl,
        List.set_eq_of_length_le (Nat.le_of_not_lt hlen),
        getD_of_length_le _ _ _ (Nat.le_of_not_lt hlen)] at h
      cases h
  · constructor
    · rw [show getParent (List.set p k none) j = (List.set p k none).getD j none from rfl,
        getD_set_ne _ _ _ (fun hh => hjk hh.symm)] at h
      exact h
    · exact hjk

theorem symWalk_inv {n k : Nat} : ∀ (fuel : Nat) (s : SymState) (i : Nat) (s' : SymState),
    symWalk k fuel s i = some s' →
    s.parents.length = n → s.lnz.length = n → s.flag.length = n →
    parentsBelow s.parents (k + 1) →
    (s.flag.getD k 0 = k ∨ n ≤ k) →
    i ≤ k →
    parentsLe s.parents s'.parents ∧ parentsBelow s'.parents (k + 1) ∧
      s'.parents.length = n ∧ s'.lnz.length = n ∧ s'.flag.length = n ∧
      (s'.flag.getD k 0 = k ∨ n ≤ k) := by
  intro fuel
  induction fuel with
  | zero => intro s i s' h; cases h
  | succ fuel ih =>
    intro s i s' h hpl hll hfl hbelow hflag hik
    rw [symWalk] at h
    by_cases hstop : s.flag.getD i 0 = k
    · rw [if_pos hstop] at h
      cases h
      exact ⟨fun _ _ hh => hh, hbelow, hpl, hll, hfl, hflag⟩
    · rw [if_neg hstop] at h
      have hik' : i < k := by
        rcases Nat.lt_or_ge i k with hlt | hge
        · exact hlt
        · exfalso
          have hik2 : i = k := Nat.le_antisymm hik hge
          rcases hflag with hfk | hnk
          · exact hstop (by rw [hik2]; exact hfk)
          · have hpi : getParent s.parents i = none := by
              cases hpi : getParent s.parents i with
              | none => rfl
              | some v =>
                exfalso
                rcases hbelow i v hpi with ⟨h1, h2⟩
                rw [hik2] at h1
                exact absurd (Nat.lt_of_lt_of_le h2 (Nat.succ_le_of_lt h1)) (Nat.lt_irrefl _)
            have hnone : getParent (uproot s.parents i k) i = none := by
              unfold uproot
              rw [show (show List (Option Nat) from s.parents).getD i none =
                getParent s.parents i from rfl, hpi]
              show (List.set s.parents i (some k)).getD i none = none
              rw [List.set_eq_of_length_le (by rw [hpl, hik2]; exact hnk)]
              exact hpi
            rw [hnone] at h
            cases h
      cases hq : getParent (uproot s.parents i k) i with
      | none => rw [hq] at h; cases h
      | some pnext =>
        rw [hq] at h
        have hbelow' : parentsBelow (uproot s.parents i k) (k + 1) := by
          intro j v hv
          rcases getParent_uproot_cases _ _ _ _ _ hv with hold | ⟨hji, hvk⟩
          · exact hbelow j v hold
          · exact ⟨by rw [hji, hvk]; exact hik', by rw [hvk]; exact Nat.lt_succ_self k⟩
        have hnext : pnext ≤ k := Nat.lt_succ_iff.mp (hbelow' i pnext hq).2
        have hflag' : ((s.flag.set i k).getD k 0 = k ∨ n ≤ k) := by
          rcases hflag with hfk | hnk
          · left
            rw [getD_set_ne _ _ _ (Nat.ne_of_lt hik')]
            exact hfk
          · exact Or.inr hnk
        rcases ih ⟨uproot s.parents i k, s.lnz.set i (s.lnz.getD i 0 + 1), s.flag.set i k⟩
            pnext s' h
            (by rw [show (⟨uproot s.parents i k, _, _⟩ : SymState).parents =
                uproot s.parents i k from rfl, length_uproot]; exact hpl)
            (by simpa using hll)
            (by simpa using hfl)
            hbelow' hflag' hnext with ⟨hle, hb, h1, h2, h3, h4⟩
        exact ⟨fun j v hv => hle j v (uproot_le s.parents i k j v hv), hb, h1, h2, h3, h4⟩

theorem symEntries_inv {α : Type} {n k fuel : Nat} :
    ∀ (es : List (Nat × α)) (s s' : SymState),
    symEntries k fuel s es = some s' →
    s.parents.length = n → s.lnz.length = n → s.flag.length = n →
    parentsBelow s.parents (k + 1) →
    (s.flag.getD k 0 = k ∨ n ≤ k) →
    parentsLe s.parents s'.parents ∧ parentsBelow s'.parents (k + 1) ∧
      s'.parents.length = n ∧ s'.lnz.length = n ∧ s'.flag.length = n := by
  intro es
  induction es with
  | nil =>
    intro s s' h hpl hll hfl hbelow hflag
    cases h
    exact ⟨fun _ _ hh => hh, hbelow, hpl, hll, hfl⟩
  | cons e rest ih =>
    intro s s' h hpl hll hfl hbelow hflag
    rw [symEntries] at h
    by_cases he : e.1 < k
    · rw [if_pos he] at h
      cases hw : symWalk k fuel s e.1 with
      | none => rw [hw] at h; cases h
      | some t =>
        rw [hw] at h
        rcases symWalk_inv fuel s e.1 t hw hpl hll hfl hbelow hflag (Nat.le_of_lt he) with
          ⟨hle, hb, h1, h2, h3, h4⟩
        rcases ih t s' h h1 h2 h3 hb h4 with ⟨hle2, hb2, g1, g2, g3⟩
        exact ⟨fun j v hv => hle2 j v (hle j v hv), hb2, g1, g2, g3⟩
    · rw [if_neg he] at h
      exact ih s s' h hpl hll hfl hbelow hflag

theorem symColumn_inv {α : Type} {n : Nat} (m : CsMat α) (perm : Perm) (fuel k : Nat)
    (s s' : SymState) (h : symColumn m perm fuel k s = some s') (hok : symOk n k s) :
    parentsLe s.parents s'.parents ∧ symOk n (k + 1) s' := by
  rcases hok with ⟨hpl, hll, hfl, hbelow⟩
  rw [symColumn] at h
  have hb0 : parentsBelow (setRoot s.parents k) (k + 1) := by
    intro j v hv
    rcases getParent_setRoot_cases _ _ _ _ hv with ⟨hold, _⟩
    rcases hbelow j v hold with ⟨h1, h2⟩
    exact ⟨h1, Nat.lt_succ_of_lt h2⟩
  have hflag0 : ((s.flag.set k k).getD k 0 = k ∨ n ≤ k) := by
    rcases Nat.lt_or_ge k n with hlt | hge
    · left
      exact getD_set_self _ _ _ _ (by rw [hfl]; exact hlt)
    · exact Or.inr hge
  rcases symEntries_inv (permSlice m perm k) _ s' h
      (by rw [show (⟨setRoot s.parents k, s.lnz.set k 0, s.flag.set k k⟩ : SymState).parents =
          setRoot s.parents k from rfl]; unfold setRoot; rw [List.length_set]; exact hpl)
      (by simpa using hll) (by simpa using hfl) hb0 hflag0 with ⟨hle, hb, h1, h2, h3⟩
  refine ⟨?_, h1, h2, h3, hb⟩
  intro j v hv
  apply hle
  show getParent (setRoot s.parents k) j = some v
  unfold setRoot
  by_cases hjk : j = k
  · subst hjk
    rcases hbelow j v hv with ⟨hlt1, hlt2⟩
    exact absurd (Nat.lt_trans hlt1 hlt2) (Nat.lt_irrefl j)
  · rw [show getParent (List.set s.parents k none) j =
      (List.set s.parents k none).getD j none from rfl,
      getD_set_ne _ _ _ (fun hh => hjk hh.symm)]
    exact hv

theorem symRun_succ {α : Type} (m : CsMat α) (perm : Perm) (fuel k : Nat) (s : SymState) :
    symRun m perm fuel (k + 1) s =
      match symRun m perm fuel k s with
      | none => none
      | some s' => symColumn m perm fuel k s' := rfl

theorem symRun_inv {α : Type} (m : CsMat α) (perm : Perm) (fuel n : Nat) :
    ∀ (K : Nat) (s' : SymState),
      symRun m perm fuel K (symInit n) = some s' → symOk n K s' := by
  intro K
  induction K with
  | zero =>
    intro s' h
    cases h
    refine ⟨List.length_replicate _ _, List.length_replicate _ _, List.length_replicate _ _, ?_⟩
    intro i v hv
    rw [show (symInit n).parents = List.replicate n none from rfl,
      getParent_replicate] at hv
    cases hv
  | succ K ih =>
    intro s' h
    rw [symRun_succ] at h
    cases hm : symRun m perm fuel K (symInit n) with
    | none => rw [hm] at h; cases h
    | some t =>
      rw [hm] at h
      exact (symColumn_inv m perm fuel K t s' h (ih t hm)).2

theorem symRun_mono {α : Type} (m : CsMat α) (perm : Perm) (fuel n : Nat) :
    ∀ (K₂ K₁ : Nat) (s₁ s₂ : SymState), K₁ ≤ K₂ →
      symRun m perm fuel K₁ (symInit n) = some s₁ →
      symRun m perm fuel K₂ (symInit n) = some s₂ →
      parentsLe s₁.parents s₂.parents := by
  intro K₂
  induction K₂ with
  | zero =>
    intro K₁ s₁ s₂ hle h1 h2
    have : K₁ = 0 := Nat.le_zero.mp hle
    subst this
    rw [h1] at h2
    cases h2
    exact fun _ _ hh => hh
  | succ K ih =>
    intro K₁ s₁ s₂ hle h1 h2
    rcases Nat.eq_or_lt_of_le hle with heq | hlt
    · subst heq
      rw [h1] at h2
      cases h2
      exact fun _ _ hh => hh
    · rw [symRun_succ] at h2
      cases hm : symRun m perm fuel K (symInit n) with
      | none => rw [hm] at h2; cases h2
      | some t =>
        rw [hm] at h2
        have hle1 := ih K₁ s₁ t (Nat.lt_succ_iff.mp hlt) h1 hm
        have hcol := symColumn_inv m perm fuel K t s₂ h2 (symRun_inv m perm fuel n K t hm)
        exact fun j v hv => hcol.1 j v (hle1 j v hv)

theorem ancestorAfter_lt (p : Parents) (K : Nat) (hb : parentsBelow p K) :
    ∀ (mm i j : Nat), ancestorAfter p (mm + 1) i = some j → i < j := by
  intro mm
  induction mm with
  | zero =>
    intro i j h
    rw [ancestorAfter] at h
    cases hp : getParent p i with
    | none => rw [hp] at h; cases h
    | some u =>
      rw [hp] at h
      cases h
      exact (hb i j hp).1
  | succ mm ih =>
    intro i j h
    rw [ancestorAfter] at h
    cases hp : getParent p i with
    | none => rw [hp] at h; cases h
    | some u =>
      rw [hp] at h
      exact Nat.lt_trans (hb i u hp).1 (ih u j h)

theorem ldl_symbolic_elim {α : Type} [DecidableEq α] (m : CsMat α) (perm : Perm)
    (check : SymmetryCheck) (res : SymResult)
    (h : ldl_symbolic m perm check = some res) :
    ∃ s, symRun m perm (m.nrows + 1) m.nrows (symInit m.nrows) = some s ∧
      res = ⟨colptrOf s.lnz 0, s.parents, s.lnz, s.flag⟩ := by
  have hfull : symRunFull m perm = some res := by
    unfold ldl_symbolic at h
    cases check with
    | CheckSymmetry =>
      by_cases hsym : is_symmetric m
      · rw [if_pos hsym] at h; exact h
      · rw [if_neg hsym] at h; cases h
    | DontCheckSymmetry => exact h
  unfold symRunFull at hfull
  cases hs : symRun m perm (m.nrows + 1) m.nrows (symInit m.nrows) with
  | none => rw [hs] at hfull; cases hfull
  | some s =>
    rw [hs] at hfull
    cases hfull
    exact ⟨s, rfl, rfl⟩

/-- C7: during one entire run of `ldl_symbolic`, a node's parent, once set,
is never changed by a later step of the left-to-right sweep (every binding
present after `K₁` columns is still present, unchanged, after `K₂ ≥ K₁`
columns); moreover in the resulting forest every parent pointer climbs
strictly (`i < parent i`), so the parent structure is acyclic: no chain of
parent pointers returns to its starting node. -/
theorem ldl_symbolic_parent_once {α : Type} [DecidableEq α] (m : CsMat α) (perm : Perm)
    (check : SymmetryCheck) (res : SymResult)
    (hs : ldl_symbolic m perm check = some res) :
    (∀ K₁ K₂ s₁ s₂, K₁ ≤ K₂ →
        symRun m perm (m.nrows + 1) K₁ (symInit m.nrows) = some s₁ →
        symRun m perm (m.nrows + 1) K₂ (symInit m.nrows) = some s₂ →
        ∀ i v, getParent s₁.parents i = some v → getParent s₂.parents i = some v)
    ∧ (∀ i v, getParent res.parents i = some v → i < v)
    ∧ (∀ i mm, ancestorAfter res.parents (mm + 1) i ≠ some i) := by
  rcases ldl_symbolic_elim m perm check res hs with ⟨s, hrun, hres⟩
  have hok := symRun_inv m perm (m.nrows + 1) m.nrows m.nrows s hrun
  have hbelow : parentsBelow res.parents m.nrows := by
    rw [hres]
    exact hok.2.2.2
  refine ⟨?_, ?_, ?_⟩
  · intro K₁ K₂ s₁ s₂ hle h1 h2
    exact symRun_mono m perm (m.nrows + 1) m.nrows K₂ K₁ s₁ s₂ hle h1 h2
  · intro i v hv
    exact (hbelow i v hv).1
  · intro i mm h
    exact absurd (ancestorAfter_lt res.parents m.nrows hbelow mm i i h) (Nat.lt_irrefl i)

/-- C7 witness: a concrete 2×2 matrix whose symbolic analysis assigns node 0
the parent 1; the parent chain from node 0 does not return to 0. -/
theorem ldl_symbolic_parent_once_witness :
    ancestorAfter [some 1, none] 1 0 ≠ some 0 :=
  (ldl_symbolic_parent_once (⟨false, 2, 2, [0, 2, 4], [0, 1, 0, 1], [5, 6, 7, 8]⟩ : CsMat ℤ)
      Perm.identity SymmetryCheck.DontCheckSymmetry
      ⟨[0, 1, 1], [some 1, none], [1, 0], [1, 1]⟩ (by decide)).2.2 0 0

/-! ## Only the permuted upper triangle is consulted (claim C6) -/

theorem outerDim_eq_nrows {α : Type} (m : CsMat α) (hsq : m.nrows = m.ncols) :
    m.outerDim = m.nrows := by
  unfold CsMat.outerDim
  cases m.isCsr <;> simp [hsq]

theorem symEntries_eq_filter {α : Type} (k fuel : Nat) :
    ∀ (es : List (Nat × α)) (s : SymState),
      symEntries k fuel s es =
        symEntries k fuel s (es.filter (fun e => decide (e.1 < k))) := by
  intro es
  induction es with
  | nil => intro s; rfl
  | cons e rest ih =>
    intro s
    by_cases he : e.1 < k
    · rw [List.filter_cons_of_pos (by simpa using he)]
      rw [symEntries, symEntries, if_pos he, if_pos he]
      cases symWalk k fuel s e.1 with
      | none => rfl
      | some s' => exact ih s'
    · rw [List.filter_cons_of_neg (by simpa using he)]
      rw [symEntries, if_neg he]
      exact ih s

theorem numEntries_eq_filter {α : Type} [CommRing α] (parents : Parents) (k fuel : Nat) :
    ∀ (es : List (Nat × α)) (s : NumState α),
      numEntries parents k fuel s es =
        numEntries parents k fuel s (es.filter (fun e => decide (e.1 ≤ k))) := by
  intro es
  induction es with
  | nil => intro s; rfl
  | cons e rest ih =>
    intro s
    by_cases he : e.1 ≤ k
    · rw [List.filter_cons_of_pos (by simpa using he)]
      rw [numEntries, numEntries, if_pos he, if_pos he]
      cases numWalk parents k fuel [] s.flag e.1 with
      | none => rfl
      | some lf =>
        obtain ⟨left, flag⟩ := lf
        exact ih _
    · rw [List.filter_cons_of_neg (by simpa using he)]
      rw [numEntries, if_neg he]
      exact ih s

theorem filter_lt_of_filter_le {α : Type} (k : Nat) (es : List (Nat × α)) :
    es.filter (fun e => decide (e.1 < k)) =
      (es.filter (fun e => decide (e.1 ≤ k))).filter (fun e => decide (e.1 < k)) := by
  induction es with
  | nil => rfl
  | cons e rest ih =>
    simp only [List.filter_cons]
    by_cases hlt : e.1 < k
    · simp [hlt, Nat.le_of_lt hlt, ih]
    · by_cases hle : e.1 ≤ k
      · simp [hlt, hle, ih]
      · simp [hlt, hle, ih]

theorem symColumn_congr {α : Type} (A B : CsMat α) (perm : Perm) (fuel k : Nat)
    (s : SymState)
    (hagree : (permSlice A perm k).filter (fun e => decide (e.1 ≤ k)) =
      (permSlice B perm k).filter (fun e => decide (e.1 ≤ k))) :
    symColumn A perm fuel k s = symColumn B perm fuel k s := by
  unfold symColumn
  rw [symEntries_eq_filter, filter_lt_of_filter_le, hagree, ← filter_lt_of_filter_le,
    ← symEntries_eq_filter]

theorem symRun_congr {α : Type} (A B : CsMat α) (perm : Perm) (fuel : Nat) (s₀ : SymState) :
    ∀ (K : Nat),
      (∀ k, k < K → (permSlice A perm k).filter (fun e => decide (e.1 ≤ k)) =
        (permSlice B perm k).filter (fun e => decide (e.1 ≤ k))) →
      symRun A perm fuel K s₀ = symRun B perm fuel K s₀ := by
  intro K
  induction K with
  | zero => intro _; rfl
  | succ K ih =>
    intro hagree
    rw [symRun_succ, symRun_succ, ih (fun k hk => hagree k (Nat.lt_succ_of_lt hk))]
    cases symRun B perm fuel K s₀ with
    | none => rfl
    | some t => exact symColumn_congr A B perm fuel K t (hagree K (Nat.lt_succ_self K))

theorem numColumn_congr {α : Type} [CommRing α] [Div α] [DecidableEq α]
    (A B : CsMat α) (colptr : List Nat) (parents : Parents) (perm : Perm) (fuel k : Nat)
    (s : NumState α)
    (hagree : (permSlice A perm k).filter (fun e => decide (e.1 ≤ k)) =
      (permSlice B perm k).filter (fun e => decide (e.1 ≤ k))) :
    numColumn A colptr parents perm fuel k s = numColumn B colptr parents perm fuel k s := by
  unfold numColumn numColumnCore
  rw [numEntries_eq_filter, hagree, ← numEntries_eq_filter]

theorem numRun_congr {α : Type} [CommRing α] [Div α] [DecidableEq α]
    (A B : CsMat α) (colptr : List Nat) (parents : Parents) (perm : Perm) (fuel : Nat)
    (s₀ : NumState α) :
    ∀ (K : Nat),
      (∀ k, k < K → (permSlice A perm k).filter (fun e => decide (e.1 ≤ k)) =
        (permSlice B perm k).filter (fun e => decide (e.1 ≤ k))) →
      numRun A colptr parents perm fuel K s₀ = numRun B colptr parents perm fuel K s₀ := by
  intro K
  induction K with
  | zero => intro _; rfl
  | succ K ih =>
    intro hagree
    rw [numRun_succ, numRun_succ, ih (fun k hk => hagree k (Nat.lt_succ_of_lt hk))]
    cases numRun B colptr parents perm fuel K s₀ with
    | error e => rfl
    | ok t => exact numColumn_congr A B colptr parents perm fuel K t (hagree K (Nat.lt_succ_self K))

/-- C6: for two square matrices of the same size whose stored entries agree at
every position with permuted inner index ≤ permuted outer index (the permuted
upper triangle including the diagonal), symbolic analysis with symmetry
checking disabled produces identical column pointers, parents and per-column
counts, and the numeric pass produces identical L and D from any starting
buffers: entries in the strict permuted lower triangle have no influence. -/
theorem ldl_upper_triangle_only {α : Type} [CommRing α] [Div α] [DecidableEq α]
    (A B : CsMat α) (perm : Perm)
    (hsqA : A.nrows = A.ncols) (hsqB : B.nrows = B.ncols) (hn : A.nrows = B.nrows)
    (hagree : ∀ k, k < A.nrows →
      (permSlice A perm k).filter (fun e => decide (e.1 ≤ k)) =
        (permSlice B perm k).filter (fun e => decide (e.1 ≤ k))) :
    ldl_symbolic A perm SymmetryCheck.DontCheckSymmetry =
      ldl_symbolic B perm SymmetryCheck.DontCheckSymmetry
    ∧ ∀ (colptr : List Nat) (parents : Parents) (s₀ : NumState α),
        ldl_numeric A colptr parents perm s₀ = ldl_numeric B colptr parents perm s₀ := by
  constructor
  · show symRunFull A perm = symRunFull B perm
    unfold symRunFull
    rw [symRun_congr A B perm (A.nrows + 1) (symInit A.nrows) A.nrows hagree, hn]
  · intro colptr parents s₀
    unfold ldl_numeric
    have hd : A.outerDim = B.outerDim := by
      rw [outerDim_eq_nrows A hsqA, outerDim_eq_nrows B hsqB, hn]
    rw [numRun_congr A B colptr parents perm (A.outerDim + 1) s₀ A.outerDim
      (fun k hk => hagree k (by rw [← outerDim_eq_nrows A hsqA]; exact hk)), hd]

/-- C6 witness: two concrete 2×2 matrices that differ in a strict
lower-triangle entry get the same symbolic analysis. -/
theorem ldl_upper_triangle_only_witness :
    ldl_symbolic (⟨false, 2, 2, [0, 2, 3], [0, 1, 1], [1, 5, 1]⟩ : CsMat ℤ)
        Perm.identity SymmetryCheck.DontCheckSymmetry =
      ldl_symbolic (⟨false, 2, 2, [0, 2, 3], [0, 1, 1], [1, 6, 1]⟩ : CsMat ℤ)
        Perm.identity SymmetryCheck.DontCheckSymmetry :=
  (ldl_upper_triangle_only (⟨false, 2, 2, [0, 2, 3], [0, 1, 1], [1, 5, 1]⟩ : CsMat ℤ)
    (⟨false, 2, 2, [0, 2, 3], [0, 1, 1], [1, 6, 1]⟩ : CsMat ℤ) Perm.identity
    rfl rfl rfl (by decide)).1

/-! ## The symbolic/numeric walk simulation (claims C2, C4, C5) -/

theorem walkChain_mono (parentsF : Parents) (n k : Nat) (hbF : parentsBelow parentsF n)
    (fl fl' : List Nat) (i : Nat) (hagree : ∀ j, i < j → fl'.getD j 0 = fl.getD j 0) :
    ∀ (c : List Nat) (v : Nat), i < v → walkChain parentsF k fl' v c →
      walkChain parentsF k fl v c := by
  intro c
  induction c with
  | nil =>
    intro v hv h
    show fl.getD v 0 = k
    rw [← hagree v hv]
    exact h
  | cons a rest ih =>
    intro v hv h
    obtain ⟨ha, hnf, w, hw, hrest⟩ := h
    exact ⟨ha, by rw [← hagree v hv]; exact hnf, w, hw,
      ih w (Nat.lt_trans hv (hbF v w hw).1) hrest⟩

theorem walkChain_unique (parentsF : Parents) (k : Nat) (fl0 : List Nat) :
    ∀ (c₁ c₂ : List Nat) (i : Nat), walkChain parentsF k fl0 i c₁ →
      walkChain parentsF k fl0 i c₂ → c₁ = c₂ := by
  intro c₁
  induction c₁ with
  | nil =>
    intro c₂ i h1 h2
    cases c₂ with
    | nil => rfl
    | cons a rest =>
      obtain ⟨_, hnf, _⟩ := h2
      exact absurd h1 hnf
  | cons a rest ih =>
    intro c₂ i h1 h2
    obtain ⟨ha, hnf, v, hv, hrest⟩ := h1
    cases c₂ with
    | nil => exact absurd h2 hnf
    | cons b rest₂ =>
      obtain ⟨hb, _, w, hw, hrest₂⟩ := h2
      rw [hv] at hw
      injection hw with hvw
      rw [ha, hb]
      rw [ih rest₂ v hrest (by rw [hvw]; exact hrest₂)]

theorem walkSim {n k : Nat} (parentsF : Parents) (hk : k < n)
    (hbF : parentsBelow parentsF n) :
    ∀ (f : Nat) (t : SymState) (i : Nat) (t' : SymState) (fl left : List Nat),
      symWalk k f t i = some t' →
      parentsLe t'.parents parentsF →
      t.parents.length = n → t.lnz.length = n → t.flag.length = n → fl.length = n →
      parentsBelow t.parents (k + 1) →
      t.flag.getD k 0 = k →
      (∀ j, j ≤ k → fl.getD j 0 = t.flag.getD j 0) →
      i ≤ k →
      ∃ chain fl', numWalk parentsF k f left fl i = some (chain.reverse ++ left, fl') ∧
        WalkRel parentsF n k i t fl t' chain fl' := by
  intro f
  induction f with
  | zero => intro t i t' fl left hw; intro _ _ _ _ _ _ _ _ _; cases hw
  | succ f ih =>
    intro t i t' fl left hw hsub hpl hll hfl hfll hbelow hflagk hagree hik
    rw [symWalk] at hw
    by_cases hstop : t.flag.getD i 0 = k
    · rw [if_pos hstop] at hw
      cases hw
      refine ⟨[], fl, ?_, ?_⟩
      · rw [numWalk, if_pos (by rw [hagree i hik]; exact hstop)]
        rfl
      · exact {
          isChain := hstop
          lenFl := rfl
          agree := fun j hj => hagree j hj
          memLt := fun j hj => absurd hj (List.not_mem_nil j)
          memNotFlag := fun j hj => absurd hj (List.not_mem_nil j)
          memGe := fun j hj => absurd hj (List.not_mem_nil j)
          outside := fun _ _ => ⟨rfl, rfl⟩
          inside := fun j hj => absurd hj (List.not_mem_nil j)
          lnzCount := fun j => by simp
          emptyStop := fun _ => ⟨rfl, rfl, hstop⟩
          headStart := fun hne => absurd rfl hne
          links := fun X a Y hXaY => absurd hXaY.symm (List.append_ne_nil_of_right_ne_nil X
            (List.cons_ne_nil a Y)) }
    · rw [if_neg hstop] at hw
      have hik' : i < k := Nat.lt_of_le_of_ne hik (fun he => hstop (by rw [he]; exact hflagk))
      cases hq : getParent (uproot t.parents i k) i with
      | none => rw [hq] at hw; cases hw
      | some p =>
        rw [hq] at hw
        have hin : i < n := Nat.lt_trans hik' hk
        have hb₂ : parentsBelow (uproot t.parents i k) (k + 1) := by
          intro j v hv
          rcases getParent_uproot_cases _ _ _ _ _ hv with hold | ⟨hji, hvk⟩
          · exact hbelow j v hold
          · exact ⟨by rw [hji, hvk]; exact hik', by rw [hvk]; exact Nat.lt_succ_self k⟩
        have hip : i < p := (hb₂ i p hq).1
        have hpk : p ≤ k := Nat.lt_succ_iff.mp (hb₂ i p hq).2
        have hl₂p : (uproot t.parents i k).length = n := by rw [length_uproot]; exact hpl
        have hl₂l : (t.lnz.set i (t.lnz.getD i 0 + 1)).length = n := by
          rw [List.length_set]; exact hll
        have hl₂f : (t.flag.set i k).length = n := by rw [List.length_set]; exact hfl
        have hflagk₂ : (t.flag.set i k).getD k 0 = k := by
          rw [getD_set_ne _ _ _ (Nat.ne_of_lt hik')]; exact hflagk
        have hmono := (symWalk_inv (n := n) f
          ⟨uproot t.parents i k, t.lnz.set i (t.lnz.getD i 0 + 1), t.flag.set i k⟩
          p t' hw hl₂p hl₂l hl₂f hb₂ (Or.inl hflagk₂) hpk).1
        have hFp : getParent parentsF i = some p := hsub i p (hmono i p hq)
        have hagree₂ : ∀ j, j ≤ k → (fl.set i k).getD j 0 = (t.flag.set i k).getD j 0 := by
          intro j hj
          by_cases hji : j = i
          · rw [hji, getD_set_self _ _ _ _ (by rw [hfll]; exact hin),
              getD_set_self _ _ _ _ (by rw [hfl]; exact hin)]
          · rw [getD_set_ne _ _ _ (fun hh => hji hh.symm),
              getD_set_ne _ _ _ (fun hh => hji hh.symm)]
            exact hagree j hj
        rcases ih ⟨uproot t.parents i k, t.lnz.set i (t.lnz.getD i 0 + 1), t.flag.set i k⟩
            p t' (fl.set i k) (i :: left) hw hsub hl₂p hl₂l hl₂f
            (by rw [List.length_set]; exact hfll) hb₂ hflagk₂ hagree₂ hpk with
          ⟨chainT, fl', hnum, hrel⟩
        have hchainTgt : ∀ j, j ∈ chainT → i < j :=
          fun j hj => Nat.lt_of_lt_of_le hip (hrel.memGe j hj)
        refine ⟨i :: chainT, fl', ?_, ?_⟩
        · rw [numWalk, if_neg (by rw [hagree i hik]; exact hstop), hFp]
          show numWalk parentsF k f (i :: left) (fl.set i k) p =
            some ((i :: chainT).reverse ++ left, fl')
          rw [hnum, List.reverse_cons, List.append_assoc]
          rfl
        · refine {
            isChain := ⟨rfl, hstop, p, hFp,
              walkChain_mono parentsF n k hbF t.flag (t.flag.set i k) i
                (fun j hj => getD_set_ne _ _ _ (Nat.ne_of_lt hj)) chainT p hip hrel.isChain⟩
            lenFl := by rw [hrel.lenFl, List.length_set]
            agree := hrel.agree
            memLt := ?_
            memNotFlag := ?_
            memGe := ?_
            outside := ?_
            inside := ?_
            lnzCount := ?_
            emptyStop := fun h => absurd h (List.cons_ne_nil i chainT)
            headStart := fun _ => rfl
            links := ?_ }
          · intro j hj
            rcases List.mem_cons.mp hj with rfl | hj'
            · exact hik'
            · exact hrel.memLt j hj'
          · intro j hj
            rcases List.mem_cons.mp hj with rfl | hj'
            · exact hstop
            · intro hjf
              refine hrel.memNotFlag j hj' ?_
              show (t.flag.set i k).getD j 0 = k
              rw [getD_set_ne _ _ _ (Nat.ne_of_lt (hchainTgt j hj'))]
              exact hjf
          · intro j hj
            rcases List.mem_cons.mp hj with rfl | hj'
            · exact Nat.le_refl j
            · exact Nat.le_of_lt (hchainTgt j hj')
          · intro j hj
            have hji : j ≠ i := fun hh => hj (by rw [hh]; exact List.mem_cons_self i chainT)
            have hjT : j ∉ chainT := fun hh => hj (List.mem_cons_of_mem i hh)
            rcases hrel.outside j hjT with ⟨h1, h2⟩
            refine ⟨?_, ?_⟩
            · rw [h1]
              exact getD_set_ne _ _ _ (fun hh => hji hh.symm)
            · rw [h2]
              exact getD_set_ne _ _ _ (fun hh => hji hh.symm)
          · intro j hj
            rcases List.mem_cons.mp hj with rfl | hj'
            · by_cases hjT : j ∈ chainT
              · exact hrel.inside j hjT
              · rw [(hrel.outside j hjT).1]
                exact getD_set_self _ _ _ _ (by rw [hfl]; exact hin)
            · exact hrel.inside j hj'
          · intro j
            by_cases hji : j = i
            · rw [hji, hrel.lnzCount i,
                getD_set_self _ _ _ _ (by rw [hll]; exact hin),
                List.count_cons_self]
              omega
            · rw [hrel.lnzCount j, getD_set_ne _ _ _ (fun hh => hji hh.symm),
                List.count_cons_of_ne (fun hh => hji hh)]
          · intro X a Y hXaY
            cases X with
            | nil =>
              rw [List.nil_append] at hXaY
              injection hXaY with ha hY
              refine ⟨p, by rw [← ha]; exact hFp, ?_⟩
              by_cases hpk' : p = k
              · exact Or.inl hpk'
              · cases hchT : chainT with
                | nil =>
                  rcases hrel.emptyStop hchT with ⟨_, _, hfp⟩
                  refine Or.inr (Or.inr ⟨Nat.lt_of_le_of_ne hpk hpk', ?_⟩)
                  have : (t.flag.set i k).getD p 0 = k := hfp
                  rw [getD_set_ne _ _ _ (Nat.ne_of_lt hip)] at this
                  exact this
                | cons c cs =>
                  have hhd := hrel.headStart (by rw [hchT]; exact List.cons_ne_nil c cs)
                  rw [hchT] at hhd
                  have hc : c = p := by
                    rw [List.head?_cons] at hhd
                    exact (Option.some.injEq _ _ ▸ hhd)
                  refine Or.inr (Or.inl ?_)
                  rw [← hY, hchT, ← hc]
                  exact List.mem_cons_self c cs
            | cons x X' =>
              rw [List.cons_append] at hXaY
              injection hXaY with hx hT
              rcases hrel.links X' a Y hT with ⟨v, hv, hcase⟩
              refine ⟨v, hv, ?_⟩
              rcases hcase with h1 | h2 | ⟨h3, h4⟩
              · exact Or.inl h1
              · exact Or.inr (Or.inl h2)
              · refine Or.inr (Or.inr ⟨h3, ?_⟩)
                have hain : a ∈ chainT := by
                  rw [hT]
                  exact List.mem_append_right X' (List.mem_cons_self a Y)
                have hav : a < v := (hbF a v hv).1
                have hiv : i < v := Nat.lt_trans (hchainTgt a hain) hav
                have : (t.flag.set i k).getD v 0 = k := h4
                rw [getD_set_ne _ _ _ (Nat.ne_of_lt hiv)] at this
                exact this

theorem walkChain_ge (parentsF : Parents) (n k : Nat) (hbF : parentsBelow parentsF n)
    (fl0 : List Nat) : ∀ (c : List Nat) (i : Nat), walkChain parentsF k fl0 i c →
      ∀ j, j ∈ c → i ≤ j := by
  intro c
  induction c with
  | nil => intro i _ j hj; exact absurd hj (List.not_mem_nil j)
  | cons a rest ih =>
    intro i hc j hj
    obtain ⟨ha, _, v, hv, hrest⟩ := hc
    rcases List.mem_cons.mp hj with rfl | hj'
    · exact Nat.le_of_eq ha.symm
    · exact Nat.le_of_lt (Nat.lt_of_lt_of_le (hbF i v hv).1 (ih v hrest j hj'))

theorem walkChain_nodup (parentsF : Parents) (n k : Nat) (hbF : parentsBelow parentsF n)
    (fl0 : List Nat) : ∀ (c : List Nat) (i : Nat), walkChain parentsF k fl0 i c →
      c.Nodup := by
  intro c
  induction c with
  | nil => intro i _; exact List.nodup_nil
  | cons a rest ih =>
    intro i hc
    obtain ⟨ha, _, v, hv, hrest⟩ := hc
    refine List.Nodup.cons ?_ (ih v hrest)
    intro hmem
    have h1 : v ≤ a := walkChain_ge parentsF n k hbF fl0 rest v hrest a hmem
    have h2 : a < v := by rw [ha]; exact (hbF i v hv).1
    exact absurd (Nat.lt_of_lt_of_le h2 h1) (Nat.lt_irrefl a)

theorem patOk_append (parentsF : Parents) (k : Nat) (P : List Nat) (hP : patOk parentsF k P) :
    ∀ (chain : List Nat),
      (∀ X a Y, chain = X ++ a :: Y → ∃ v, getParent parentsF a = some v ∧
        (v = k ∨ v ∈ Y ∨ v ∈ P)) →
      patOk parentsF k (chain ++ P) := by
  intro chain
  induction chain with
  | nil => intro _; exact hP
  | cons c cs ih =>
    intro hlinks
    rcases hlinks [] c cs rfl with ⟨v, hv, hcase⟩
    refine ⟨⟨v, hv, ?_⟩, ih (fun X a Y hXY => hlinks (c :: X) a Y (by rw [hXY]; rfl))⟩
    rcases hcase with h1 | h2 | h3
    · exact Or.inl h1
    · exact Or.inr (List.mem_append_left P h2)
    · exact Or.inr (List.mem_append_right cs h3)

theorem entriesSim {α : Type} [CommRing α] {n k : Nat} (parentsF : Parents) (hk : k < n)
    (hbF : parentsBelow parentsF n) (f : Nat) (hf : 0 < f) :
    ∀ (es : List (Nat × α)) (t t' : SymState) (u v : NumState α),
      symEntries k f t es = some t' →
      parentsLe t'.parents parentsF →
      t.parents.length = n → t.lnz.length = n → t.flag.length = n →
      parentsBelow t.parents (k + 1) →
      t.flag.getD k 0 = k →
      ColRel parentsF n k t u →
      ColRel parentsF n k t v →
      u.y = v.y →
      u.pattern.right = v.pattern.right →
      u.pattern.left = v.pattern.left →
      ∃ u' v',
        numEntries parentsF k f u es = some u' ∧
        numEntries parentsF k f v es = some v' ∧
        ColRel parentsF n k t' u' ∧
        ColRel parentsF n k t' v' ∧
        u'.y = v'.y ∧ u'.pattern.right = v'.pattern.right ∧
        u'.pattern.left = v'.pattern.left ∧
        u'.lnz = u.lnz ∧ u'.lIndices = u.lIndices ∧ u'.lData = u.lData ∧ u'.diag = u.diag ∧
        v'.lnz = v.lnz ∧ v'.lIndices = v.lIndices ∧ v'.lData = v.lData ∧ v'.diag = v.diag ∧
        (∃ Pnew, u'.pattern.right = Pnew ++ u.pattern.right) ∧
        (∀ j, u'.y.getD j 0 ≠ u.y.getD j 0 → j ∈ u'.pattern.right ∨ j = k) ∧
        (u'.pattern.left = u.pattern.left ∨ u'.pattern.left = []) := by
  intro es
  induction es with
  | nil =>
    intro t t' u v hsym hsub hpl hll hfl hbelow hflagk hcu hcv hy hpr hplft
    cases hsym
    exact ⟨u, v, rfl, rfl, hcu, hcv, hy, hpr, hplft, rfl, rfl, rfl, rfl, rfl, rfl, rfl, rfl,
      ⟨[], rfl⟩, fun j hj => absurd rfl hj, Or.inl rfl⟩
  | cons e rest ih =>
    intro t t' u v hsym hsub hpl hll hfl hbelow hflagk hcu hcv hy hpr hplft
    rw [symEntries] at hsym
    by_cases hek : e.1 < k
    · rw [if_pos hek] at hsym
      cases hw : symWalk k f t e.1 with
      | none => rw [hw] at hsym; cases hsym
      | some t₁ =>
        rw [hw] at hsym
        have ht₁ := symWalk_inv (n := n) f t e.1 t₁ hw hpl hll hfl hbelow (Or.inl hflagk)
          (Nat.le_of_lt hek)
        obtain ⟨hmono₁, hb₁, hpl₁, hll₁, hfl₁, hflag₁⟩ := ht₁
        have hflagk₁ : t₁.flag.getD k 0 = k := by
          rcases hflag₁ with h | h
          · exact h
          · exact absurd hk (Nat.not_lt_of_le h)
        have hsub₁ : parentsLe t₁.parents parentsF := by
          have hrest := @symEntries_inv α n k f rest t₁ t' hsym
            hpl₁ hll₁ hfl₁ hb₁ (Or.inl hflagk₁)
          exact fun j w hj => hsub j w (hrest.1 j w hj)
        rcases walkSim (n := n) parentsF hk hbF f t e.1 t₁ u.flag [] hw hsub₁ hpl hll hfl
          hcu.flagLen hbelow hflagk (fun j hj => hcu.agree j hj) (Nat.le_of_lt hek) with
          ⟨chU, flU, hnumU, hrelU⟩
        rcases walkSim (n := n) parentsF hk hbF f t e.1 t₁ v.flag [] hw hsub₁ hpl hll hfl
          hcv.flagLen hbelow hflagk (fun j hj => hcv.agree j hj) (Nat.le_of_lt hek) with
          ⟨chV, flV, hnumV, hrelV⟩
        have hch : chV = chU := walkChain_unique parentsF k t.flag chV chU e.1
          hrelV.isChain hrelU.isChain
        subst hch
        have hchM : ∀ j, j ∈ chV → j < k := hrelU.memLt
        have hchN : chV.Nodup := walkChain_nodup parentsF n k hbF t.flag chV e.1 hrelU.isChain
        have hscU : scatterState u e (chV.reverse ++ []) flU =
            { u with
              y := u.y.set e.1 (u.y.getD e.1 0 + e.2), flag := flU,
              pattern := ⟨[], chV ++ u.pattern.right⟩ } := by
          unfold scatterState
          rw [List.append_nil, List.reverse_reverse]
        have hscV : scatterState v e (chV.reverse ++ []) flV =
            { v with
              y := v.y.set e.1 (v.y.getD e.1 0 + e.2), flag := flV,
              pattern := ⟨[], chV ++ v.pattern.right⟩ } := by
          unfold scatterState
          rw [List.append_nil, List.reverse_reverse]
        have hcolU : ColRel parentsF n k t₁
            ({ u with
              y := u.y.set e.1 (u.y.getD e.1 0 + e.2), flag := flU,
               pattern := ⟨[], chV ++ u.pattern.right⟩ } : NumState α) := by
          refine {
            flagLen := by
              show flU.length = n
              rw [hrelU.lenFl, hcu.flagLen]
            agree := fun j hj => hrelU.agree j hj
            flagPat := ?_
            patLt := ?_
            patNodup := ?_
            lnzCnt := ?_
            patOkR := ?_ }
          · intro j hj
            show flU.getD j 0 = k ↔ j ∈ chV ++ u.pattern.right
            by_cases hjc : j ∈ chV
            · constructor
              · intro _
                exact List.mem_append_left _ hjc
              · intro _
                rw [hrelU.agree j (Nat.le_of_lt hj)]
                exact hrelU.inside j hjc
            · rw [(hrelU.outside j hjc).2]
              rw [hcu.flagPat j hj]
              constructor
              · intro hm
                exact List.mem_append_right _ hm
              · intro hm
                rcases List.mem_append.mp hm with hm1 | hm2
                · exact absurd hm1 hjc
                · exact hm2
          · intro j hj
            rcases List.mem_append.mp hj with h1 | h2
            · exact hchM j h1
            · exact hcu.patLt j h2
          · show (chV ++ u.pattern.right).Nodup
            refine List.Nodup.append hchN hcu.patNodup ?_
            intro j hj1 hj2
            have h1 : t.flag.getD j 0 ≠ k := hrelU.memNotFlag j hj1
            have h2 : u.flag.getD j 0 = k :=
              (hcu.flagPat j (hchM j hj1)).mpr hj2
            rw [hcu.agree j (Nat.le_of_lt (hchM j hj1))] at h2
            exact h1 h2
          · intro j hj
            show t₁.lnz.getD j 0 = u.lnz.getD j 0 + (chV ++ u.pattern.right).count j
            rw [List.count_append, hrelU.lnzCount j, hcu.lnzCnt j hj]
            omega
          · show patOk parentsF k (chV ++ u.pattern.right)
            refine patOk_append parentsF k u.pattern.right hcu.patOkR chV ?_
            intro X a Y hXY
            rcases hrelU.links X a Y hXY with ⟨w, hw2, hcase⟩
            refine ⟨w, hw2, ?_⟩
            rcases hcase with h1 | h2 | ⟨h3, h4⟩
            · exact Or.inl h1
            · exact Or.inr (Or.inl h2)
            · refine Or.inr (Or.inr ?_)
              rw [← hcu.agree w (Nat.le_of_lt h3)] at h4
              exact (hcu.flagPat w h3).mp h4
        have hcolV : ColRel parentsF n k t₁
            ({ v with
              y := v.y.set e.1 (v.y.getD e.1 0 + e.2), flag := flV,
               pattern := ⟨[], chV ++ v.pattern.right⟩ } : NumState α) := by
          refine {
            flagLen := by
              show flV.length = n
              rw [hrelV.lenFl, hcv.flagLen]
            agree := fun j hj => hrelV.agree j hj
            flagPat := ?_
            patLt := ?_
            patNodup := ?_
            lnzCnt := ?_
            patOkR := ?_ }
          · intro j hj
            show flV.getD j 0 = k ↔ j ∈ chV ++ v.pattern.right
            by_cases hjc : j ∈ chV
            · constructor
              · intro _
                exact List.mem_append_left _ hjc
              · intro _
                rw [hrelV.agree j (Nat.le_of_lt hj)]
                exact hrelV.inside j hjc
            · rw [(hrelV.outside j hjc).2]
              rw [hcv.flagPat j hj]
              constructor
              · intro hm
                exact List.mem_append_right _ hm
              · intro hm
                rcases List.mem_append.mp hm with hm1 | hm2
                · exact absurd hm1 hjc
                · exact hm2
          · intro j hj
            rcases List.mem_append.mp hj with h1 | h2
            · exact hchM j h1
            · exact hcv.patLt j h2
          · show (chV ++ v.pattern.right).Nodup
            refine List.Nodup.append hchN hcv.patNodup ?_
            intro j hj1 hj2
            have h1 : t.flag.getD j 0 ≠ k := hrelV.memNotFlag j hj1
            have h2 : v.flag.getD j 0 = k :=
              (hcv.flagPat j (hchM j hj1)).mpr hj2
            rw [hcv.agree j (Nat.le_of_lt (hchM j hj1))] at h2
            exact h1 h2
          · intro j hj
            show t₁.lnz.getD j 0 = v.lnz.getD j 0 + (chV ++ v.pattern.right).count j
            rw [List.count_append, hrelV.lnzCount j, hcv.lnzCnt j hj]
            omega
          · show patOk parentsF k (chV ++ v.pattern.right)
            refine patOk_append parentsF k v.pattern.right hcv.patOkR chV ?_
            intro X a Y hXY
            rcases hrelV.links X a Y hXY with ⟨w, hw2, hcase⟩
            refine ⟨w, hw2, ?_⟩
            rcases hcase with h1 | h2 | ⟨h3, h4⟩
            · exact Or.inl h1
            · exact Or.inr (Or.inl h2)
            · refine Or.inr (Or.inr ?_)
              rw [← hcv.agree w (Nat.le_of_lt h3)] at h4
              exact (hcv.flagPat w h3).mp h4
        rcases ih t₁ t'
            ({ u with
              y := u.y.set e.1 (u.y.getD e.1 0 + e.2), flag := flU,
               pattern := ⟨[], chV ++ u.pattern.right⟩ } : NumState α)
            ({ v with
              y := v.y.set e.1 (v.y.getD e.1 0 + e.2), flag := flV,
               pattern := ⟨[], chV ++ v.pattern.right⟩ } : NumState α)
            hsym hsub hpl₁ hll₁ hfl₁ hb₁ hflagk₁ hcolU hcolV
            (by show (u.y.set e.1 (u.y.getD e.1 0 + e.2)) = (v.y.set e.1 (v.y.getD e.1 0 + e.2))
                rw [hy])
            (by show chV ++ u.pattern.right = chV ++ v.pattern.right
                rw [hpr])
            rfl with
          ⟨u', v', hnu, hnv, hcu', hcv', hy', hpr', hplft', hulnz, huli, huld, hudg,
            hvlnz, hvli, hvld, hvdg, ⟨Pnew, hPnew⟩, hEy, hLft⟩
        refine ⟨u', v', ?_, ?_, hcu', hcv', hy', hpr', hplft', hulnz, huli, huld, hudg,
          hvlnz, hvli, hvld, hvdg, ?_, ?_, ?_⟩
        · rw [numEntries, if_pos (Nat.le_of_lt hek), hnumU]
          show numEntries parentsF k f (scatterState u e (chV.reverse ++ []) flU) rest = some u'
          rw [hscU]
          exact hnu
        · rw [numEntries, if_pos (Nat.le_of_lt hek), hnumV]
          show numEntries parentsF k f (scatterState v e (chV.reverse ++ []) flV) rest = some v'
          rw [hscV]
          exact hnv
        · refine ⟨Pnew ++ chV, ?_⟩
          rw [hPnew]
          show Pnew ++ (chV ++ u.pattern.right) = (Pnew ++ chV) ++ u.pattern.right
          rw [List.append_assoc]
        · intro j hj
          by_cases hju : u'.y.getD j 0 = (u.y.set e.1 (u.y.getD e.1 0 + e.2)).getD j 0
          · have hj2 : (u.y.set e.1 (u.y.getD e.1 0 + e.2)).getD j 0 ≠ u.y.getD j 0 := by
              rw [← hju]
              exact hj
            have hje : j = e.1 := by
              by_contra hne
              exact hj2 (getD_set_ne _ _ _ (fun hh => hne hh.symm))
            subst hje
            left
            rw [hPnew]
            refine List.mem_append_right Pnew ?_
            show e.1 ∈ chV ++ u.pattern.right
            by_cases hjc : e.1 ∈ chV
            · exact List.mem_append_left _ hjc
            · refine List.mem_append_right _ ?_
              cases hchV : chV with
              | nil =>
                rcases hrelU.emptyStop hchV with ⟨_, _, hflj⟩
                refine (hcu.flagPat e.1 hek).mp ?_
                rw [hcu.agree e.1 (Nat.le_of_lt hek)]
                exact hflj
              | cons c cs =>
                exfalso
                have hhd := hrelU.headStart (by rw [hchV]; exact List.cons_ne_nil c cs)
                rw [hchV, List.head?_cons] at hhd
                injection hhd with hc
                refine hjc ?_
                rw [hchV, hc]
                exact List.mem_cons_self _ _
          · rcases hEy j (fun hh => hju hh) with h1 | h2
            · exact Or.inl h1
            · exact Or.inr h2
        · rcases hLft with h1 | h2
          · exact Or.inr h1
          · exact Or.inr h2
    · rw [if_neg hek] at hsym
      by_cases hik : e.1 ≤ k
      · have hekk : e.1 = k := Nat.le_antisymm hik (Nat.le_of_not_lt hek)
        have hflu : u.flag.getD e.1 0 = k := by
          rw [hekk, hcu.agree k (Nat.le_refl k)]
          exact hflagk
        have hflv : v.flag.getD e.1 0 = k := by
          rw [hekk, hcv.agree k (Nat.le_refl k)]
          exact hflagk
        have hcolU : ColRel parentsF n k t (scatterState u e [] u.flag) := by
          refine {
            flagLen := hcu.flagLen
            agree := hcu.agree
            flagPat := ?_
            patLt := ?_
            patNodup := ?_
            lnzCnt := ?_
            patOkR := ?_ }
          · intro j hj
            show u.flag.getD j 0 = k ↔ j ∈ ([] : List Nat).reverse ++ u.pattern.right
            exact hcu.flagPat j hj
          · intro j hj
            exact hcu.patLt j hj
          · exact hcu.patNodup
          · intro j hj
            exact hcu.lnzCnt j hj
          · exact hcu.patOkR
        have hcolV : ColRel parentsF n k t (scatterState v e [] v.flag) := by
          refine {
            flagLen := hcv.flagLen
            agree := hcv.agree
            flagPat := ?_
            patLt := ?_
            patNodup := ?_
            lnzCnt := ?_
            patOkR := ?_ }
          · intro j hj
            show v.flag.getD j 0 = k ↔ j ∈ ([] : List Nat).reverse ++ v.pattern.right
            exact hcv.flagPat j hj
          · intro j hj
            exact hcv.patLt j hj
          · exact hcv.patNodup
          · intro j hj
            exact hcv.lnzCnt j hj
          · exact hcv.patOkR
        rcases ih t t' (scatterState u e [] u.flag) (scatterState v e [] v.flag) hsym hsub
            hpl hll hfl hbelow hflagk hcolU hcolV
            (by show (u.y.set e.1 (u.y.getD e.1 0 + e.2)) = (v.y.set e.1 (v.y.getD e.1 0 + e.2))
                rw [hy])
            (by show ([] : List Nat).reverse ++ u.pattern.right =
                  ([] : List Nat).reverse ++ v.pattern.right
                rw [hpr])
            rfl with
          ⟨u', v', hnu, hnv, hcu', hcv', hy', hpr', hplft', hulnz, huli, huld, hudg,
            hvlnz, hvli, hvld, hvdg, ⟨Pnew, hPnew⟩, hEy, hLft⟩
        refine ⟨u', v', ?_, ?_, hcu', hcv', hy', hpr', hplft', hulnz, huli, huld, hudg,
          hvlnz, hvli, hvld, hvdg, ?_, ?_, ?_⟩
        · rw [numEntries, if_pos hik]
          cases f with
          | zero => exact absurd hf (Nat.lt_irrefl 0)
          | succ f₁ =>
            rw [numWalk, if_pos hflu]
            show numEntries parentsF k (f₁ + 1) (scatterState u e [] u.flag) rest = some u'
            exact hnu
        · rw [numEntries, if_pos hik]
          cases f with
          | zero => exact absurd hf (Nat.lt_irrefl 0)
          | succ f₁ =>
            rw [numWalk, if_pos hflv]
            show numEntries parentsF k (f₁ + 1) (scatterState v e [] v.flag) rest = some v'
            exact hnv
        · exact ⟨Pnew, hPnew⟩
        · intro j hj
          by_cases hju : u'.y.getD j 0 = (scatterState u e [] u.flag).y.getD j 0
          · have hj2 : (scatterState u e [] u.flag).y.getD j 0 ≠ u.y.getD j 0 := by
              rw [← hju]
              exact hj
            have hje : j = e.1 := by
              by_contra hne
              refine hj2 ?_
              show (u.y.set e.1 (u.y.getD e.1 0 + e.2)).getD j 0 = u.y.getD j 0
              exact getD_set_ne _ _ _ (fun hh => hne hh.symm)
            right
            rw [hje, hekk]
          · rcases hEy j (fun hh => hju hh) with h1 | h2
            · exact Or.inl h1
            · exact Or.inr h2
        · rcases hLft with h1 | h2
          · right
            rw [h1]
            rfl
          · exact Or.inr h2
      · rcases ih t t' u v hsym hsub hpl hll hfl hbelow hflagk hcu hcv hy hpr hplft with
          ⟨u', v', hnu, hnv, hrest⟩
        refine ⟨u', v', ?_, ?_, hrest.1, hrest.2.1, hrest.2.2.1, hrest.2.2.2.1,
          hrest.2.2.2.2.1, hrest.2.2.2.2.2.1, hrest.2.2.2.2.2.2.1, hrest.2.2.2.2.2.2.2.1,
          hrest.2.2.2.2.2.2.2.2.1, hrest.2.2.2.2.2.2.2.2.2.1, hrest.2.2.2.2.2.2.2.2.2.2.1,
          hrest.2.2.2.2.2.2.2.2.2.2.2.1, hrest.2.2.2.2.2.2.2.2.2.2.2.2.1,
          hrest.2.2.2.2.2.2.2.2.2.2.2.2.2.1, hrest.2.2.2.2.2.2.2.2.2.2.2.2.2.2.1,
          hrest.2.2.2.2.2.2.2.2.2.2.2.2.2.2.2⟩
        · rw [numEntries, if_neg hik]
          exact hnu
        · rw [numEntries, if_neg hik]
          exact hnv

/-! ## Run-level simulation: list and column-pointer helpers -/

theorem getD_set_cases {β : Type _} :
    ∀ (l : List β) (i j : Nat) (a d : β),
      (l.set i a).getD j d = l.getD j d ∨ (l.set i a).getD j d = a := by
  intro l
  induction l with
  | nil => intro i j a d; exact Or.inl rfl
  | cons x t ih =>
    intro i j a d
    cases i with
    | zero =>
      cases j with
      | zero => exact Or.inr rfl
      | succ j => exact Or.inl rfl
    | succ i =>
      cases j with
      | zero => exact Or.inl rfl
      | succ j => exact ih i j a d

theorem getD_set_at {β : Type _} :
    ∀ (l : List β) (k : Nat) (d : β), (l.set k d).getD k d = d := by
  intro l
  induction l with
  | nil => intro k d; cases k <;> rfl
  | cons x t ih =>
    intro k d
    cases k with
    | zero => rfl
    | succ k => exact ih k d

theorem colptrOf_length : ∀ (xs : List Nat) (acc : Nat),
    (colptrOf xs acc).length = xs.length + 1 := by
  intro xs
  induction xs with
  | nil => intro acc; rfl
  | cons x t ih =>
    intro acc
    show (acc :: colptrOf t (acc + x)).length = t.length + 1 + 1
    rw [List.length_cons, ih]

theorem colptrOf_getD_zero : ∀ (xs : List Nat) (acc : Nat),
    (colptrOf xs acc).getD 0 0 = acc := by
  intro xs acc
  cases xs <;> rfl

theorem colptrOf_getD_succ : ∀ (xs : List Nat) (acc i : Nat), i < xs.length →
    (colptrOf xs acc).getD (i + 1) 0 =
      (colptrOf xs acc).getD i 0 + xs.getD i 0 := by
  intro xs
  induction xs with
  | nil => intro acc i h; cases h
  | cons x t ih =>
    intro acc i h
    cases i with
    | zero =>
      show (colptrOf t (acc + x)).getD 0 0 = acc + x
      exact colptrOf_getD_zero t (acc + x)
    | succ i =>
      show (colptrOf t (acc + x)).getD (i + 1) 0 =
        (colptrOf t (acc + x)).getD i 0 + t.getD i 0
      exact ih (acc + x) i (Nat.lt_of_succ_lt_succ h)

theorem colptrOf_mono (xs : List Nat) (acc : Nat) (a : Nat) : ∀ (b : Nat), a ≤ b →
    b ≤ xs.length → (colptrOf xs acc).getD a 0 ≤ (colptrOf xs acc).getD b 0 := by
  intro b
  induction b with
  | zero =>
    intro hab _
    cases Nat.le_zero.mp hab
    exact Nat.le_refl _
  | succ b ih =>
    intro hab hb
    rcases Nat.eq_or_lt_of_le hab with he | hl
    · rw [he]
    · have h1 := ih (Nat.lt_succ_iff.mp hl) (Nat.le_of_lt hb)
      rw [colptrOf_getD_succ xs acc b hb]
      omega

/-! ## Run-level simulation: extra symbolic-pass lemmas -/

theorem symWalk_flag_cases {k : Nat} : ∀ (fuel : Nat) (s : SymState) (i : Nat) (s' : SymState),
    symWalk k fuel s i = some s' →
    ∀ j, s'.flag.getD j 0 = s.flag.getD j 0 ∨ s'.flag.getD j 0 = k := by
  intro fuel
  induction fuel with
  | zero => intro s i s' h; cases h
  | succ fuel ih =>
    intro s i s' h j
    rw [symWalk] at h
    by_cases hf : s.flag.getD i 0 = k
    · rw [if_pos hf] at h
      cases h
      exact Or.inl rfl
    · rw [if_neg hf] at h
      cases hp : getParent (uproot s.parents i k) i with
      | none => rw [hp] at h; cases h
      | some p =>
        rw [hp] at h
        rcases ih _ p s' h j with h1 | h1
        · rcases getD_set_cases s.flag i j k 0 with h2 | h2
          · exact Or.inl (by
              rw [h1]
              exact h2)
          · exact Or.inr (by
              rw [h1]
              exact h2)
        · exact Or.inr h1

theorem symEntries_flag_cases {α : Type} {k fuel : Nat} :
    ∀ (es : List (Nat × α)) (s s' : SymState),
      symEntries k fuel s es = some s' →
      ∀ j, s'.flag.getD j 0 = s.flag.getD j 0 ∨ s'.flag.getD j 0 = k := by
  intro es
  induction es with
  | nil =>
    intro s s' h j
    cases h
    exact Or.inl rfl
  | cons e rest ih =>
    intro s s' h j
    rw [symEntries] at h
    by_cases he : e.1 < k
    · rw [if_pos he] at h
      cases hw : symWalk k fuel s e.1 with
      | none => rw [hw] at h; cases h
      | some t =>
        rw [hw] at h
        rcases ih t s' h j with h1 | h1
        · rcases symWalk_flag_cases fuel s e.1 t hw j with h2 | h2
          · exact Or.inl (by rw [h1]; exact h2)
          · exact Or.inr (by rw [h1]; exact h2)
        · exact Or.inr h1
    · rw [if_neg he] at h
      exact ih s s' h j

theorem symWalk_lnz_mono {k : Nat} : ∀ (fuel : Nat) (s : SymState) (i : Nat) (s' : SymState),
    symWalk k fuel s i = some s' →
    ∀ j, s.lnz.getD j 0 ≤ s'.lnz.getD j 0 := by
  intro fuel
  induction fuel with
  | zero => intro s i s' h; cases h
  | succ fuel ih =>
    intro s i s' h j
    rw [symWalk] at h
    by_cases hf : s.flag.getD i 0 = k
    · rw [if_pos hf] at h
      cases h
      exact Nat.le_refl _
    · rw [if_neg hf] at h
      cases hp : getParent (uproot s.parents i k) i with
      | none => rw [hp] at h; cases h
      | some p =>
        rw [hp] at h
        refine Nat.le_trans ?_ (ih _ p s' h j)
        show s.lnz.getD j 0 ≤ (s.lnz.set i (s.lnz.getD i 0 + 1)).getD j 0
        by_cases hij : i = j
        · rcases getD_set_cases s.lnz i j (s.lnz.getD i 0 + 1) 0 with h2 | h2
          · rw [h2]
          · rw [h2, ← hij]
            exact Nat.le_succ _
        · rw [getD_set_ne _ _ _ hij]

theorem symEntries_lnz_mono {α : Type} {k fuel : Nat} :
    ∀ (es : List (Nat × α)) (s s' : SymState),
      symEntries k fuel s es = some s' →
      ∀ j, s.lnz.getD j 0 ≤ s'.lnz.getD j 0 := by
  intro es
  induction es with
  | nil =>
    intro s s' h j
    cases h
    exact Nat.le_refl _
  | cons e rest ih =>
    intro s s' h j
    rw [symEntries] at h
    by_cases he : e.1 < k
    · rw [if_pos he] at h
      cases hw : symWalk k fuel s e.1 with
      | none => rw [hw] at h; cases h
      | some t =>
        rw [hw] at h
        exact Nat.le_trans (symWalk_lnz_mono fuel s e.1 t hw j) (ih t s' h j)
    · rw [if_neg he] at h
      exact ih s s' h j

theorem symColumn_lnz_mono {α : Type} (m : CsMat α) (perm : Perm) (fuel k : Nat)
    (s s' : SymState) (h : symColumn m perm fuel k s = some s') :
    ∀ j, j ≠ k → s.lnz.getD j 0 ≤ s'.lnz.getD j 0 := by
  intro j hj
  rw [symColumn] at h
  have h1 := symEntries_lnz_mono (permSlice m perm k)
    ⟨setRoot s.parents k, s.lnz.set k 0, s.flag.set k k⟩ s' h j
  rw [show (⟨setRoot s.parents k, s.lnz.set k 0, s.flag.set k k⟩ : SymState).lnz =
    s.lnz.set k 0 from rfl, getD_set_ne _ _ _ (fun hh => hj hh.symm)] at h1
  exact h1

theorem symRun_lnz_mono {α : Type} (m : CsMat α) (perm : Perm) (fuel n : Nat) :
    ∀ (K₂ K₁ : Nat) (s₁ s₂ : SymState), K₁ ≤ K₂ →
      symRun m perm fuel K₁ (symInit n) = some s₁ →
      symRun m perm fuel K₂ (symInit n) = some s₂ →
      ∀ j, j < K₁ → s₁.lnz.getD j 0 ≤ s₂.lnz.getD j 0 := by
  intro K₂
  induction K₂ with
  | zero =>
    intro K₁ s₁ s₂ hle h1 h2 j hj
    cases Nat.le_zero.mp hle
    cases hj
  | succ K ih =>
    intro K₁ s₁ s₂ hle h1 h2 j hj
    rcases Nat.eq_or_lt_of_le hle with heq | hlt
    · subst heq
      rw [h1] at h2
      cases h2
      exact Nat.le_refl _
    · rw [symRun_succ] at h2
      cases hm : symRun m perm fuel K (symInit n) with
      | none => rw [hm] at h2; cases h2
      | some t =>
        rw [hm] at h2
        have hK1 : K₁ ≤ K := Nat.lt_succ_iff.mp hlt
        refine Nat.le_trans (ih K₁ s₁ t hK1 h1 hm j hj) ?_
        exact symColumn_lnz_mono m perm fuel K t s₂ h2 j (by omega)

theorem symRun_prefix_ok {α : Type} (m : CsMat α) (perm : Perm) (fuel : Nat) (s0 : SymState) :
    ∀ (K : Nat) (s' : SymState), symRun m perm fuel K s0 = some s' →
      ∀ k, k ≤ K → ∃ t, symRun m perm fuel k s0 = some t := by
  intro K
  induction K with
  | zero =>
    intro s' h k hk
    cases Nat.le_zero.mp hk
    exact ⟨s', h⟩
  | succ K ih =>
    intro s' h k hk
    rcases Nat.eq_or_lt_of_le hk with heq | hlt
    · subst heq
      exact ⟨s', h⟩
    · rw [symRun_succ] at h
      cases hm : symRun m perm fuel K s0 with
      | none => rw [hm] at h; cases h
      | some t =>
        exact ih t hm k (Nat.lt_succ_iff.mp hlt)

theorem symRun_flag_lt {α : Type} (m : CsMat α) (perm : Perm) (fuel n : Nat) :
    ∀ (K : Nat), K ≤ n → ∀ (T : SymState),
      symRun m perm fuel K (symInit n) = some T →
      ∀ j, j < K → T.flag.getD j 0 < K := by
  intro K
  induction K with
  | zero => intro _ T _ j hj; cases hj
  | succ K ih =>
    intro hKn T h j hj
    rw [symRun_succ] at h
    cases hm : symRun m perm fuel K (symInit n) with
    | none => rw [hm] at h; cases h
    | some t =>
      rw [hm] at h
      have h2 : symColumn m perm fuel K t = some T := h
      rw [symColumn] at h2
      have hfl : t.flag.length = n := (symRun_inv m perm fuel n K t hm).2.2.1
      rcases symEntries_flag_cases (permSlice m perm K)
        ⟨setRoot t.parents K, t.lnz.set K 0, t.flag.set K K⟩ T h2 j with h1 | h1
      · rw [show (⟨setRoot t.parents K, t.lnz.set K 0, t.flag.set K K⟩ : SymState).flag =
          t.flag.set K K from rfl] at h1
        by_cases hjK : j = K
        · rw [h1, hjK, getD_set_self _ _ _ _ (by rw [hfl]; omega)]
          exact Nat.lt_succ_self K
        · rw [h1, getD_set_ne _ _ _ (fun hh => hjK hh.symm)]
          have := ih (Nat.le_of_lt hKn) t hm j (by omega)
          omega
      · rw [h1]
        exact Nat.lt_succ_self K

/-! ## Run-level simulation: pattern-order and ancestor lemmas -/

theorem ancestorAfter_ge (p : Parents) (N : Nat) (hb : parentsBelow p N) :
    ∀ (t a w : Nat), ancestorAfter p t a = some w → a ≤ w := by
  intro t a w h
  cases t with
  | zero =>
    rw [ancestorAfter] at h
    cases h
    exact Nat.le_refl _
  | succ t => exact Nat.le_of_lt (ancestorAfter_lt p N hb t a w h)

theorem ancestorAfter_step (p : Parents) (t a v : Nat)
    (hv : getParent p a = some v) :
    ancestorAfter p (t + 1) a = ancestorAfter p t v := by
  rw [ancestorAfter, hv]

theorem patOk_mem (parentsF : Parents) (k : Nat) :
    ∀ (P : List Nat), patOk parentsF k P → ∀ a, a ∈ P →
      ∃ v, getParent parentsF a = some v ∧ (v = k ∨ v ∈ P) := by
  intro P
  induction P with
  | nil => intro _ a ha; cases ha
  | cons b rest ih =>
    intro hP a ha
    rcases List.mem_cons.mp ha with he | ht
    · rcases hP.1 with ⟨v, hv, hc⟩
      subst he
      refine ⟨v, hv, ?_⟩
      rcases hc with h1 | h2
      · exact Or.inl h1
      · exact Or.inr (List.mem_cons_of_mem _ h2)
    · rcases ih hP.2 a ht with ⟨v, hv, hc⟩
      refine ⟨v, hv, ?_⟩
      rcases hc with h1 | h2
      · exact Or.inl h1
      · exact Or.inr (List.mem_cons_of_mem _ h2)

theorem patOk_chain_mem (parentsF : Parents) (N k : Nat)
    (hb : parentsBelow parentsF N) (P : List Nat) (hP : patOk parentsF k P) :
    ∀ (t a w : Nat), a ∈ P → ancestorAfter parentsF t a = some w → w < k → w ∈ P := by
  intro t
  induction t with
  | zero =>
    intro a w ha h _
    rw [ancestorAfter] at h
    cases h
    exact ha
  | succ t ih =>
    intro a w ha h hwk
    rcases patOk_mem parentsF k P hP a ha with ⟨v, hv, hc⟩
    rw [ancestorAfter_step parentsF t a v hv] at h
    rcases hc with h1 | h2
    · subst h1
      have := ancestorAfter_ge parentsF N hb t v w h
      omega
    · exact ih v w h2 h hwk

theorem patOk_reaches (parentsF : Parents) (k : Nat) :
    ∀ (P : List Nat), patOk parentsF k P → ∀ a, a ∈ P →
      ∃ t, ancestorAfter parentsF (t + 1) a = some k := by
  intro P
  induction P with
  | nil => intro _ a ha; cases ha
  | cons b rest ih =>
    intro hP a ha
    rcases List.mem_cons.mp ha with he | ht
    · rcases hP.1 with ⟨v, hv, hc⟩
      subst he
      rcases hc with h1 | h2
      · refine ⟨0, ?_⟩
        rw [ancestorAfter_step parentsF 0 a v hv, ancestorAfter, h1]
      · rcases ih hP.2 v h2 with ⟨t, ht2⟩
        refine ⟨t + 1, ?_⟩
        rw [ancestorAfter_step parentsF (t + 1) a v hv]
        exact ht2
    · exact ih hP.2 a ht

/-! ## Run-level simulation: elimination-loop effect lemmas -/

theorem elimInner_succ {α : Type} [CommRing α] (lIdx : List Nat) (lData : List α)
    (yi : α) (p c : Nat) (y : List α) :
    elimInner lIdx lData yi p (c + 1) y =
      elimInner lIdx lData yi (p + 1) c
        (y.set (lIdx.getD p 0) (y.getD (lIdx.getD p 0) 0 - lData.getD p 0 * yi)) := rfl

theorem elimInner_support {α : Type} [CommRing α] (lIdx : List Nat) (lData : List α)
    (yi : α) (Q : Nat → Prop) :
    ∀ (c p : Nat) (y : List α),
      (∀ j, y.getD j 0 ≠ 0 → Q j) →
      (∀ q, q < c → Q (lIdx.getD (p + q) 0)) →
      ∀ j, (elimInner lIdx lData yi p c y).getD j 0 ≠ 0 → Q j := by
  intro c
  induction c with
  | zero => intro p y hy _ j hj; exact hy j hj
  | succ c ih =>
    intro p y hy hq j hj
    rw [elimInner_succ] at hj
    refine ih (p + 1) _ ?_ ?_ j hj
    · intro j' hj'
      by_cases hne : lIdx.getD p 0 = j'
      · subst hne
        have := hq 0 (Nat.succ_pos c)
        rw [Nat.add_zero] at this
        exact this
      · rw [getD_set_ne _ _ _ hne] at hj'
        exact hy j' hj'
    · intro q hqc
      have := hq (q + 1) (by omega)
      rw [show p + (q + 1) = p + 1 + q by omega] at this
      exact this

theorem numElim_flag {α : Type} [CommRing α] [Div α] (colptr : List Nat) (k : Nat)
    (s : NumState α) (i : Nat) : (numElim colptr k s i).flag = s.flag := rfl

theorem numElim_pat {α : Type} [CommRing α] [Div α] (colptr : List Nat) (k : Nat)
    (s : NumState α) (i : Nat) : (numElim colptr k s i).pattern = s.pattern := rfl

theorem numElim_lnz {α : Type} [CommRing α] [Div α] (colptr : List Nat) (k : Nat)
    (s : NumState α) (i : Nat) :
    (numElim colptr k s i).lnz = s.lnz.set i (s.lnz.getD i 0 + 1) := rfl

theorem numElim_li {α : Type} [CommRing α] [Div α] (colptr : List Nat) (k : Nat)
    (s : NumState α) (i : Nat) :
    (numElim colptr k s i).lIndices =
      s.lIndices.set (colptr.getD i 0 + s.lnz.getD i 0) k := rfl

theorem numElim_y {α : Type} [CommRing α] [Div α] (colptr : List Nat) (k : Nat)
    (s : NumState α) (i : Nat) :
    (numElim colptr k s i).y = elimInner s.lIndices s.lData (s.y.getD i 0)
      (colptr.getD i 0) (s.lnz.getD i 0) (s.y.set i 0) := rfl

theorem numElimList_flag {α : Type} [CommRing α] [Div α] (colptr : List Nat) (k : Nat) :
    ∀ (P : List Nat) (s : NumState α), (numElimList colptr k s P).flag = s.flag := by
  intro P
  induction P with
  | nil => intro s; rfl
  | cons i rest ih =>
    intro s
    rw [numElimList, ih, numElim_flag]

theorem numElimList_pat {α : Type} [CommRing α] [Div α] (colptr : List Nat) (k : Nat) :
    ∀ (P : List Nat) (s : NumState α), (numElimList colptr k s P).pattern = s.pattern := by
  intro P
  induction P with
  | nil => intro s; rfl
  | cons i rest ih =>
    intro s
    rw [numElimList, ih, numElim_pat]

theorem numElimList_lnz_len {α : Type} [CommRing α] [Div α] (colptr : List Nat) (k : Nat) :
    ∀ (P : List Nat) (s : NumState α),
      (numElimList colptr k s P).lnz.length = s.lnz.length := by
  intro P
  induction P with
  | nil => intro s; rfl
  | cons i rest ih =>
    intro s
    rw [numElimList, ih, numElim_lnz, length_set]

theorem numElimList_li_len {α : Type} [CommRing α] [Div α] (colptr : List Nat) (k : Nat) :
    ∀ (P : List Nat) (s : NumState α),
      (numElimList colptr k s P).lIndices.length = s.lIndices.length := by
  intro P
  induction P with
  | nil => intro s; rfl
  | cons i rest ih =>
    intro s
    rw [numElimList, ih, numElim_li, length_set]

theorem numElimList_lnz_getD {α : Type} [CommRing α] [Div α] (colptr : List Nat) (k : Nat) :
    ∀ (P : List Nat) (s : NumState α), (∀ i, i ∈ P → i < s.lnz.length) →
      ∀ j, (numElimList colptr k s P).lnz.getD j 0 = s.lnz.getD j 0 + P.count j := by
  intro P
  induction P with
  | nil =>
    intro s _ j
    rw [show numElimList colptr k s [] = s from rfl, List.count_nil, Nat.add_zero]
  | cons i rest ih =>
    intro s hlen j
    rw [numElimList]
    have hlen2 : ∀ i', i' ∈ rest → i' < (numElim colptr k s i).lnz.length := by
      intro i' hi'
      rw [numElim_lnz, length_set]
      exact hlen i' (List.mem_cons_of_mem _ hi')
    rw [ih (numElim colptr k s i) hlen2 j, numElim_lnz]
    by_cases hij : i = j
    · subst hij
      rw [getD_set_self _ _ _ _ (hlen i (List.mem_cons_self _ _)), List.count_cons_self]
      omega
    · rw [getD_set_ne _ _ _ hij, List.count_cons_of_ne (fun hh => hij hh.symm)]

/-- The elimination (`'pattern`) loop of one numeric column: it clears the
dense accumulator completely, and grows exactly the column segments named by
the pattern, keeping every segment strictly ascending, strictly below its
column index from above, bounded by the current column, and made of
elimination-tree ancestors. -/
theorem elimPhase_inv {α : Type} [CommRing α] [Div α] (parentsF : Parents)
    (colptr : List Nat) (n K : Nat) (hKn : K ≤ n)
    (hb : parentsBelow parentsF n)
    (hmono : ∀ a b, a ≤ b → b ≤ n → colptr.getD a 0 ≤ colptr.getD b 0) :
    ∀ (P : List Nat) (s : NumState α),
      patOk parentsF K P → P.Nodup → (∀ i, i ∈ P → i < K) →
      s.lnz.length = n → colptr.getD n 0 ≤ s.lIndices.length →
      (∀ i, i ∈ P → colptr.getD i 0 + s.lnz.getD i 0 < colptr.getD (i + 1) 0) →
      (∀ i, i < K → colptr.getD i 0 + s.lnz.getD i 0 ≤ colptr.getD (i + 1) 0) →
      (∀ i, i ∈ P → ∀ q, q < s.lnz.getD i 0 →
        s.lIndices.getD (colptr.getD i 0 + q) 0 < K) →
      (∀ i, i < K →
        (∀ q, q < s.lnz.getD i 0 → i < s.lIndices.getD (colptr.getD i 0 + q) 0 ∧
          s.lIndices.getD (colptr.getD i 0 + q) 0 ≤ K) ∧
        (∀ q q', q < q' → q' < s.lnz.getD i 0 →
          s.lIndices.getD (colptr.getD i 0 + q) 0 <
            s.lIndices.getD (colptr.getD i 0 + q') 0) ∧
        (∀ q, q < s.lnz.getD i 0 → ∃ t, ancestorAfter parentsF (t + 1) i =
          some (s.lIndices.getD (colptr.getD i 0 + q) 0))) →
      (∀ j, s.y.getD j 0 ≠ 0 → j ∈ P) →
      (∀ j, (numElimList colptr K s P).y.getD j 0 = 0) ∧
      (∀ i, i < K →
        (∀ q, q < (numElimList colptr K s P).lnz.getD i 0 →
          i < (numElimList colptr K s P).lIndices.getD (colptr.getD i 0 + q) 0 ∧
          (numElimList colptr K s P).lIndices.getD (colptr.getD i 0 + q) 0 ≤ K) ∧
        (∀ q q', q < q' → q' < (numElimList colptr K s P).lnz.getD i 0 →
          (numElimList colptr K s P).lIndices.getD (colptr.getD i 0 + q) 0 <
            (numElimList colptr K s P).lIndices.getD (colptr.getD i 0 + q') 0) ∧
        (∀ q, q < (numElimList colptr K s P).lnz.getD i 0 →
          ∃ t, ancestorAfter parentsF (t + 1) i =
            some ((numElimList colptr K s P).lIndices.getD (colptr.getD i 0 + q) 0))) := by
  intro P
  induction P with
  | nil =>
    intro s hpat hnod hPlt hlen hliLen hroomP hroomAll hsegP hsegAll hysup
    constructor
    · intro j
      by_contra hh
      exact absurd (hysup j hh) (List.not_mem_nil j)
    · intro i hi
      exact hsegAll i hi
  | cons i rest ih =>
    intro s hpat hnod hPlt hlen hliLen hroomP hroomAll hsegP hsegAll hysup
    have hiK : i < K := hPlt i (List.mem_cons_self _ _)
    have hinotr : i ∉ rest := (List.nodup_cons.mp hnod).1
    have hilen : i < s.lnz.length := by omega
    have hwlt : colptr.getD i 0 + s.lnz.getD i 0 < colptr.getD (i + 1) 0 :=
      hroomP i (List.mem_cons_self _ _)
    have hwli : colptr.getD i 0 + s.lnz.getD i 0 < s.lIndices.length := by
      have h1 : colptr.getD (i + 1) 0 ≤ colptr.getD n 0 := hmono (i + 1) n (by omega) (Nat.le_refl n)
      omega
    rw [numElimList]
    -- positions of other columns' segments avoid the write position of column i
    have hposne : ∀ i', i' < K → i' ≠ i → ∀ q, q < s.lnz.getD i' 0 →
        colptr.getD i 0 + s.lnz.getD i 0 ≠ colptr.getD i' 0 + q := by
      intro i' hi'K hne q hq
      rcases Nat.lt_or_ge i' i with hlt | hge
      · have h1 : colptr.getD i' 0 + s.lnz.getD i' 0 ≤ colptr.getD (i' + 1) 0 :=
          hroomAll i' hi'K
        have h2 : colptr.getD (i' + 1) 0 ≤ colptr.getD i 0 := hmono (i' + 1) i hlt (by omega)
        omega
      · have hgt : i < i' := Nat.lt_of_le_of_ne hge (fun hh => hne hh.symm)
        have h2 : colptr.getD (i + 1) 0 ≤ colptr.getD i' 0 := hmono (i + 1) i' hgt (by omega)
        omega
    -- the state after eliminating column i
    refine ih (numElim colptr K s i) hpat.2 (List.nodup_cons.mp hnod).2
      (fun i' hi' => hPlt i' (List.mem_cons_of_mem _ hi')) ?_ ?_ ?_ ?_ ?_ ?_ ?_
    · rw [numElim_lnz, length_set]
      exact hlen
    · rw [numElim_li, length_set]
      exact hliLen
    · intro i' hi'
      have hne : i ≠ i' := fun hh => hinotr (hh ▸ hi')
      rw [numElim_lnz, getD_set_ne _ _ _ hne]
      exact hroomP i' (List.mem_cons_of_mem _ hi')
    · intro i' hi'K
      by_cases hne : i' = i
      · subst hne
        rw [numElim_lnz, getD_set_self _ _ _ _ hilen]
        omega
      · rw [numElim_lnz, getD_set_ne _ _ _ (fun hh => hne hh.symm)]
        exact hroomAll i' hi'K
    · intro i' hi' q hq
      have hne : i ≠ i' := fun hh => hinotr (hh ▸ hi')
      rw [numElim_lnz, getD_set_ne _ _ _ hne] at hq
      rw [numElim_li,
        getD_set_ne _ _ _ (hposne i' (hPlt i' (List.mem_cons_of_mem _ hi')) (fun hh => hne hh.symm) q hq)]
      exact hsegP i' (List.mem_cons_of_mem _ hi') q hq
    · intro i'' hi''K
      by_cases hne : i'' = i
      · subst hne
        rw [numElim_lnz, numElim_li, getD_set_self _ _ _ _ hilen]
        refine ⟨?_, ?_, ?_⟩
        · intro q hq
          rcases Nat.lt_or_ge q (s.lnz.getD i'' 0) with hqlt | hqge
          · rw [getD_set_ne _ _ _ (by omega)]
            exact ((hsegAll i'' hi''K).1 q hqlt)
          · have hqe : q = s.lnz.getD i'' 0 := by omega
            subst hqe
            rw [getD_set_self _ _ _ _ hwli]
            omega
        · intro q q' hqq hq'
          rcases Nat.lt_or_ge q' (s.lnz.getD i'' 0) with hqlt | hqge
          · rw [getD_set_ne _ _ _ (by omega), getD_set_ne _ _ _ (by omega)]
            exact (hsegAll i'' hi''K).2.1 q q' hqq hqlt
          · have hqe : q' = s.lnz.getD i'' 0 := by omega
            subst hqe
            rw [getD_set_ne _ _ _ (by omega), getD_set_self _ _ _ _ hwli]
            exact hsegP i'' (List.mem_cons_self _ _) q (by omega)
        · intro q hq
          rcases Nat.lt_or_ge q (s.lnz.getD i'' 0) with hqlt | hqge
          · rw [getD_set_ne _ _ _ (by omega)]
            exact (hsegAll i'' hi''K).2.2 q hqlt
          · have hqe : q = s.lnz.getD i'' 0 := by omega
            subst hqe
            rw [getD_set_self _ _ _ _ hwli]
            exact patOk_reaches parentsF K (i'' :: rest) hpat i'' (List.mem_cons_self _ _)
      · rw [numElim_lnz, numElim_li, getD_set_ne _ _ _ (fun hh => hne hh.symm)]
        refine ⟨?_, ?_, ?_⟩
        · intro q hq
          rw [getD_set_ne _ _ _ (hposne i'' hi''K hne q hq)]
          exact (hsegAll i'' hi''K).1 q hq
        · intro q q' hqq hq'
          rw [getD_set_ne _ _ _ (hposne i'' hi''K hne q' hq'),
            getD_set_ne _ _ _ (hposne i'' hi''K hne q (by omega))]
          exact (hsegAll i'' hi''K).2.1 q q' hqq hq'
        · intro q hq
          rw [getD_set_ne _ _ _ (hposne i'' hi''K hne q hq)]
          exact (hsegAll i'' hi''K).2.2 q hq
    · intro j hj
      rw [numElim_y] at hj
      refine elimInner_support s.lIndices s.lData (s.y.getD i 0) (fun j' => j' ∈ rest)
        (s.lnz.getD i 0) (colptr.getD i 0) (s.y.set i 0) ?_ ?_ j hj
      · intro j' hj'
        by_cases hne : i = j'
        · subst hne
          rw [getD_set_at] at hj'
          exact absurd rfl hj'
        · rw [getD_set_ne _ _ _ hne] at hj'
          rcases List.mem_cons.mp (hysup j' hj') with h1 | h2
          · exact absurd h1.symm hne
          · exact h2
      · intro q hq
        have hvlt : s.lIndices.getD (colptr.getD i 0 + q) 0 < K :=
          hsegP i (List.mem_cons_self _ _) q hq
        have hvgt : i < s.lIndices.getD (colptr.getD i 0 + q) 0 :=
          ((hsegAll i hiK).1 q hq).1
        rcases (hsegAll i hiK).2.2 q hq with ⟨t, ht⟩
        have hmem := patOk_chain_mem parentsF n K hb (i :: rest) hpat (t + 1) i
          (s.lIndices.getD (colptr.getD i 0 + q) 0) (List.mem_cons_self _ _) ht hvlt
        rcases List.mem_cons.mp hmem with h1 | h2
        · omega
        · exact h2

theorem colReset_flag {α : Type} [CommRing α] (s : NumState α) (k : Nat) :
    (colReset s k).flag = s.flag.set k k := rfl

theorem colReset_lnz {α : Type} [CommRing α] (s : NumState α) (k : Nat) :
    (colReset s k).lnz = s.lnz.set k 0 := rfl

theorem colReset_y {α : Type} [CommRing α] (s : NumState α) (k : Nat) :
    (colReset s k).y = s.y.set k 0 := rfl

theorem colReset_li {α : Type} [CommRing α] (s : NumState α) (k : Nat) :
    (colReset s k).lIndices = s.lIndices := rfl

theorem colReset_right {α : Type} [CommRing α] (s : NumState α) (k : Nat) :
    (colReset s k).pattern.right = [] := rfl

theorem pivotReset_y {α : Type} [CommRing α] (s : NumState α) (k : Nat) :
    (pivotReset s k).y = s.y.set k 0 := rfl

theorem pivotReset_lnz {α : Type} [CommRing α] (s : NumState α) (k : Nat) :
    (pivotReset s k).lnz = s.lnz := rfl

theorem pivotReset_li {α : Type} [CommRing α] (s : NumState α) (k : Nat) :
    (pivotReset s k).lIndices = s.lIndices := rfl

theorem pivotReset_flag {α : Type} [CommRing α] (s : NumState α) (k : Nat) :
    (pivotReset s k).flag = s.flag := rfl

/-- One column of the numeric pass, started from a state related to the
symbolic state by `RunInv`: the column body succeeds and re-establishes the
invariant one column further. -/
theorem columnStep {α : Type} [CommRing α] [Div α] [DecidableEq α] (m : CsMat α)
    (perm : Perm) (n f K : Nat) (hf : 0 < f) (hK : K < n)
    (Tn TK TK1 : SymState) (U : NumState α) (colptr : List Nat)
    (hcp : colptr = colptrOf Tn.lnz 0)
    (hsymN : symRun m perm f n (symInit n) = some Tn)
    (hTK : symRun m perm f K (symInit n) = some TK)
    (hTK1 : symRun m perm f (K + 1) (symInit n) = some TK1)
    (hinv : RunInv Tn.parents colptr n K TK U) :
    ∃ s₃, numColumnCore m colptr Tn.parents perm f K U = some s₃ ∧
      RunInv Tn.parents colptr n (K + 1) TK1 s₃ := by
  have hokN := symRun_inv m perm f n n Tn hsymN
  have hokK := symRun_inv m perm f n K TK hTK
  have hokK1 := symRun_inv m perm f n (K + 1) TK1 hTK1
  have hbF : parentsBelow Tn.parents n := hokN.2.2.2
  have hlenN : Tn.lnz.length = n := hokN.2.1
  have hmono : ∀ a b, a ≤ b → b ≤ n → colptr.getD a 0 ≤ colptr.getD b 0 := by
    intro a b hab hb
    rw [hcp]
    exact colptrOf_mono _ 0 a b hab (by rw [hlenN]; exact hb)
  have hsucc : ∀ i, i < n → colptr.getD (i + 1) 0 = colptr.getD i 0 + Tn.lnz.getD i 0 := by
    intro i hi
    rw [hcp]
    exact colptrOf_getD_succ _ 0 i (by rw [hlenN]; exact hi)
  have hcol : symColumn m perm f K TK = some TK1 := by
    rw [symRun_succ, hTK] at hTK1
    exact hTK1
  rw [symColumn] at hcol
  have hsub : parentsLe TK1.parents Tn.parents :=
    symRun_mono m perm f n n (K + 1) TK1 Tn hK hTK1 hsymN
  have hflagLtK : ∀ j, j < K → TK.flag.getD j 0 < K :=
    symRun_flag_lt m perm f n K (Nat.le_of_lt hK) TK hTK
  -- the seed column relation between the reset states
  have hcolrel : ColRel Tn.parents n K
      ⟨setRoot TK.parents K, TK.lnz.set K 0, TK.flag.set K K⟩ (colReset U K) := by
    refine {
      flagLen := by
        rw [colReset_flag, length_set]
        exact hinv.flagLen
      agree := ?_
      flagPat := ?_
      patLt := ?_
      patNodup := List.nodup_nil
      lnzCnt := ?_
      patOkR := trivial }
    · intro j hj
      rw [colReset_flag]
      show (U.flag.set K K).getD j 0 = (TK.flag.set K K).getD j 0
      rcases Nat.eq_or_lt_of_le hj with he | hl
      · subst he
        rw [getD_set_self _ _ _ _ (by rw [hinv.flagLen]; exact hK),
          getD_set_self _ _ _ _ (by rw [hokK.2.2.1]; exact hK)]
      · rw [getD_set_ne _ _ _ (by omega), getD_set_ne _ _ _ (by omega)]
        exact hinv.flagEq j hl
    · intro j hj
      rw [colReset_flag, colReset_right]
      constructor
      · intro hh
        rw [getD_set_ne _ _ _ (by omega)] at hh
        rw [hinv.flagEq j hj] at hh
        have := hflagLtK j hj
        omega
      · intro hh
        cases hh
    · intro j hj
      rw [colReset_right] at hj
      cases hj
    · intro j hj
      rw [colReset_right, colReset_lnz, List.count_nil, Nat.add_zero]
      show (TK.lnz.set K 0).getD j 0 = (U.lnz.set K 0).getD j 0
      rcases Nat.eq_or_lt_of_le hj with he | hl
      · subst he
        rw [getD_set_at, getD_set_at]
      · rw [getD_set_ne _ _ _ (by omega), getD_set_ne _ _ _ (by omega)]
        exact (hinv.lnzEq j hl).symm
  rcases entriesSim (n := n) (k := K) Tn.parents hK hbF f hf (permSlice m perm K)
      ⟨setRoot TK.parents K, TK.lnz.set K 0, TK.flag.set K K⟩ TK1
      (colReset U K) (colReset U K) hcol hsub
      (by
        show (setRoot TK.parents K).length = n
        rw [setRoot, length_set]
        exact hokK.1)
      (by
        show (TK.lnz.set K 0).length = n
        rw [length_set]
        exact hokK.2.1)
      (by
        show (TK.flag.set K K).length = n
        rw [length_set]
        exact hokK.2.2.1)
      (by
        intro j v hv
        rcases getParent_setRoot_cases TK.parents K j v hv with ⟨hold, _⟩
        rcases hokK.2.2.2 j v hold with ⟨h1, h2⟩
        exact ⟨h1, by omega⟩)
      (by
        show (TK.flag.set K K).getD K 0 = K
        rw [getD_set_self _ _ _ _ (by rw [hokK.2.2.1]; exact hK)])
      hcolrel hcolrel rfl rfl rfl with
    ⟨u', v', hnu, hnv, hcu', hcv', hy', hpr', hplft', hulnz, huli, huld, hudg,
      hvlnz, hvli, hvld, hvdg, ⟨Pnew, hPnew⟩, hEy, hLft⟩
  have hcore : numColumnCore m colptr Tn.parents perm f K U =
      some (numElimList colptr K (pivotReset u' K) u'.pattern.right) := by
    rw [numColumnCore, hnu]
  -- the reset numeric state has an all-zero accumulator
  have hy0 : ∀ j, (colReset U K).y.getD j 0 = 0 := by
    intro j
    rw [colReset_y]
    by_cases hjK : K = j
    · subst hjK
      rw [getD_set_at]
    · rw [getD_set_ne _ _ _ hjK]
      exact hinv.yZero j
  have hulnz2 : u'.lnz = U.lnz.set K 0 := by
    rw [hulnz, colReset_lnz]
  have huli2 : u'.lIndices = U.lIndices := by
    rw [huli, colReset_li]
  have hPlt : ∀ i, i ∈ u'.pattern.right → i < K := hcu'.patLt
  have hlnzK : ∀ j, j ≤ K → TK1.lnz.getD j 0 =
      (U.lnz.set K 0).getD j 0 + u'.pattern.right.count j := by
    intro j hj
    rw [← hulnz2]
    exact hcu'.lnzCnt j hj
  have hsymMoK : ∀ j, j < K → TK.lnz.getD j 0 ≤ Tn.lnz.getD j 0 := by
    intro j hj
    exact symRun_lnz_mono m perm f n n K TK Tn (Nat.le_of_lt hK) hTK hsymN j hj
  have hsymMoK1 : ∀ j, j < K + 1 → TK1.lnz.getD j 0 ≤ Tn.lnz.getD j 0 := by
    intro j hj
    exact symRun_lnz_mono m perm f n n (K + 1) TK1 Tn hK hTK1 hsymN j hj
  rcases elimPhase_inv Tn.parents colptr n K (Nat.le_of_lt hK) hbF hmono
      u'.pattern.right (pivotReset u' K) hcu'.patOkR hcu'.patNodup hPlt
      (by
        rw [pivotReset_lnz, hulnz2, length_set]
        exact hinv.lnzLen)
      (by
        rw [pivotReset_li, huli2]
        exact hinv.liLen)
      (by
        intro i hi
        have hiK : i < K := hPlt i hi
        rw [pivotReset_lnz, hulnz2, getD_set_ne _ _ _ (by omega)]
        have hcnt : u'.pattern.right.count i ≠ 0 :=
          fun hh => (List.count_eq_zero.mp hh) hi
        have h1 := hlnzK i (Nat.le_of_lt hiK)
        rw [getD_set_ne _ _ _ (by omega)] at h1
        have h2 := hsymMoK1 i (by omega)
        have h3 := hsucc i (by omega)
        have h4 := hinv.lnzEq i hiK
        omega)
      (by
        intro i hiK
        rw [pivotReset_lnz, hulnz2, getD_set_ne _ _ _ (by omega)]
        have h2 := hsymMoK i hiK
        have h3 := hsucc i (by omega)
        have h4 := hinv.lnzEq i hiK
        omega)
      (by
        intro i hi q hq
        have hiK : i < K := hPlt i hi
        rw [pivotReset_lnz, hulnz2, getD_set_ne _ _ _ (by omega)] at hq
        rw [pivotReset_li, huli2]
        exact (hinv.segs i hiK).rowLt q hq)
      (by
        intro i hiK
        rw [pivotReset_lnz, pivotReset_li, hulnz2, huli2,
          getD_set_ne _ _ _ (by omega)]
        refine ⟨?_, ?_, ?_⟩
        · intro q hq
          exact ⟨(hinv.segs i hiK).rowGt q hq,
            Nat.le_of_lt ((hinv.segs i hiK).rowLt q hq)⟩
        · intro q q' hqq hq'
          exact (hinv.segs i hiK).sorted q q' hqq hq'
        · intro q hq
          exact (hinv.segs i hiK).anc q hq)
      (by
        intro j hj
        rw [pivotReset_y] at hj
        by_cases hjK : K = j
        · subst hjK
          rw [getD_set_at] at hj
          exact absurd rfl hj
        · rw [getD_set_ne _ _ _ hjK] at hj
          rcases hEy j (by rw [hy0 j]; exact hj) with h1 | h2
          · exact h1
          · exact absurd h2.symm hjK)
    with ⟨hyzero, hsegs3⟩
  refine ⟨numElimList colptr K (pivotReset u' K) u'.pattern.right, hcore, ?_⟩
  have hlnz3 : ∀ j, (numElimList colptr K (pivotReset u' K) u'.pattern.right).lnz.getD j 0 =
      (U.lnz.set K 0).getD j 0 + u'.pattern.right.count j := by
    intro j
    rw [numElimList_lnz_getD colptr K u'.pattern.right (pivotReset u' K)
      (by
        intro i hi
        rw [pivotReset_lnz, hulnz2, length_set, hinv.lnzLen]
        exact Nat.lt_trans (hPlt i hi) hK),
      pivotReset_lnz, hulnz2]
  refine {
    flagLen := ?_
    lnzLen := ?_
    liLen := ?_
    flagEq := ?_
    lnzEq := ?_
    yZero := hyzero
    segs := ?_ }
  · rw [numElimList_flag, pivotReset_flag]
    exact hcu'.flagLen
  · rw [numElimList_lnz_len, pivotReset_lnz, hulnz2, length_set]
    exact hinv.lnzLen
  · rw [numElimList_li_len, pivotReset_li, huli2]
    exact hinv.liLen
  · intro j hj
    rw [numElimList_flag, pivotReset_flag]
    exact hcu'.agree j (by omega)
  · intro j hj
    rw [hlnz3 j]
    exact (hlnzK j (by omega)).symm
  · intro i hi
    rcases Nat.lt_or_ge i K with hiK | hiGe
    · rcases hsegs3 i hiK with ⟨h1, h2, h3⟩
      exact ⟨fun q hq => (h1 q hq).1, fun q hq => by
          have := (h1 q hq).2
          omega,
        h2, h3⟩
    · have hie : i = K := by omega
      have hz : (numElimList colptr K (pivotReset u' K) u'.pattern.right).lnz.getD i 0 = 0 := by
        rw [hlnz3 i, hie, getD_set_at,
          List.count_eq_zero.mpr (fun hh => Nat.lt_irrefl K (hPlt K hh))]
      refine ⟨?_, ?_, ?_, ?_⟩ <;> intro q
      · intro hq
        rw [hz] at hq
        cases hq
      · intro hq
        rw [hz] at hq
        cases hq
      · intro q' _ hq'
        rw [hz] at hq'
        cases hq'
      · intro hq
        rw [hz] at hq
        cases hq

theorem getD_replicate_self {β : Type _} (d : β) (n i : Nat) :
    (List.replicate n d).getD i d = d := by
  rcases Nat.lt_or_ge i n with h | h
  · rw [List.getD_eq_getElem _ _ (by simpa using h), List.getElem_replicate]
  · rw [List.getD_eq_default _ _ (by simpa using h)]

theorem numRun_prefix_ok {α : Type} [CommRing α] [Div α] [DecidableEq α] (m : CsMat α)
    (colptr : List Nat) (parents : Parents) (perm : Perm) (fuel : Nat) (s0 : NumState α) :
    ∀ (K : Nat) (U : NumState α), numRun m colptr parents perm fuel K s0 = Except.ok U →
      ∀ k, k ≤ K → ∃ V, numRun m colptr parents perm fuel k s0 = Except.ok V := by
  intro K
  induction K with
  | zero =>
    intro U h k hk
    cases Nat.le_zero.mp hk
    exact ⟨U, h⟩
  | succ K ih =>
    intro U h k hk
    rcases Nat.eq_or_lt_of_le hk with heq | hlt
    · subst heq
      exact ⟨U, h⟩
    · rw [numRun_succ] at h
      cases hm : numRun m colptr parents perm fuel K s0 with
      | error e => rw [hm] at h; cases h
      | ok V => exact ih V hm k (Nat.lt_succ_iff.mp hlt)

/-- The runs of the symbolic and numeric outer loops stay related by `RunInv`
at every column, provided the numeric pass starts on the buffers the
`factor` call allocates from the symbolic layout. -/
theorem runSim {α : Type} [CommRing α] [Div α] [DecidableEq α] (m : CsMat α)
    (perm : Perm) (n f : Nat) (hf : 0 < f) (Tn : SymState)
    (hsymN : symRun m perm f n (symInit n) = some Tn)
    (colptr : List Nat) (hcp : colptr = colptrOf Tn.lnz 0) (s₀ : NumState α)
    (hfl0 : s₀.flag.length = n) (hlz0 : s₀.lnz.length = n)
    (hli0 : colptr.getD n 0 ≤ s₀.lIndices.length)
    (hy0 : ∀ j, s₀.y.getD j 0 = 0) :
    ∀ (K : Nat), K ≤ n → ∀ (U : NumState α) (TK : SymState),
      numRun m colptr Tn.parents perm f K s₀ = Except.ok U →
      symRun m perm f K (symInit n) = some TK →
      RunInv Tn.parents colptr n K TK U := by
  intro K
  induction K with
  | zero =>
    intro _ U TK hU hT
    rw [show numRun m colptr Tn.parents perm f 0 s₀ = Except.ok s₀ from rfl] at hU
    rw [show symRun m perm f 0 (symInit n) = some (symInit n) from rfl] at hT
    cases hU
    cases hT
    exact {
      flagLen := hfl0
      lnzLen := hlz0
      liLen := hli0
      flagEq := fun j hj => absurd hj (Nat.not_lt_zero j)
      lnzEq := fun j hj => absurd hj (Nat.not_lt_zero j)
      yZero := hy0
      segs := fun i hi => absurd hi (Nat.not_lt_zero i) }
  | succ K ih =>
    intro hKn U TK1 hU hT
    rw [numRun_succ] at hU
    cases hUK : numRun m colptr Tn.parents perm f K s₀ with
    | error e => rw [hUK] at hU; cases hU
    | ok V =>
      rw [hUK] at hU
      rw [symRun_succ] at hT
      cases hTK : symRun m perm f K (symInit n) with
      | none => rw [hTK] at hT; cases hT
      | some TK =>
        rw [hTK] at hT
        have hT1 : symRun m perm f (K + 1) (symInit n) = some TK1 := by
          rw [symRun_succ, hTK]
          exact hT
        have hinv := ih (Nat.le_of_lt hKn) V TK hUK hTK
        rcases columnStep m perm n f K hf hKn Tn TK TK1 V colptr hcp hsymN hTK hT1 hinv with
          ⟨s₃, hcore, hinv1⟩
        have hU2 : numColumn m colptr Tn.parents perm f K V = Except.ok U := hU
        rw [numColumn, hcore] at hU2
        have hU3 : (if s₃.diag.getD K 0 = 0
            then (Except.error NumErr.SingularMatrix : Except NumErr (NumState α))
            else Except.ok s₃) = Except.ok U := hU2
        by_cases hd : s₃.diag.getD K 0 = 0
        · rw [if_pos hd] at hU3
          cases hU3
        · rw [if_neg hd] at hU3
          cases hU3
          exact hinv1

/-! ## Claim C2: the numeric pass fills the symbolic layout exactly -/

/-- C2: for every square matrix and permutation, when the numeric pass runs
on the column pointers and parents produced by `ldl_symbolic` for the same
matrix and permutation (through `LdlSymbolic::factor`) and completes without
a singularity failure, on completion `l_colptr[i] + l_nz[i] = l_colptr[i+1]`
for every column `i`: every column of L is filled to exactly the count the
symbolic analysis predicted, with no over-allocation. -/
theorem ldl_numeric_fills_symbolic_layout {α : Type} [CommRing α] [Div α] [DecidableEq α]
    (m : CsMat α) (perm : Perm) (check : SymmetryCheck) (sym : SymResult) (F : LdlFactor α)
    (hsq : m.nrows = m.ncols)
    (hsym : ldl_symbolic m perm check = some sym)
    (hnum : factorOf m perm sym = Except.ok F) :
    ∀ i, i < m.nrows → F.colptr.getD i 0 + F.st.lnz.getD i 0 = F.colptr.getD (i + 1) 0 := by
  have hrun : symRunFull m perm = some sym := by
    cases check with
    | CheckSymmetry =>
      rw [ldl_symbolic] at hsym
      by_cases hs : is_symmetric m
      · rw [if_pos hs] at hsym
        exact hsym
      · rw [if_neg hs] at hsym
        cases hsym
    | DontCheckSymmetry => exact hsym
  rw [symRunFull] at hrun
  cases hTn : symRun m perm (m.nrows + 1) m.nrows (symInit m.nrows) with
  | none => rw [hTn] at hrun; cases hrun
  | some Tn =>
    rw [hTn] at hrun
    have hrun2 : some (⟨colptrOf Tn.lnz 0, Tn.parents, Tn.lnz, Tn.flag⟩ : SymResult) =
        some sym := hrun
    have hsymval : sym = ⟨colptrOf Tn.lnz 0, Tn.parents, Tn.lnz, Tn.flag⟩ := by
      injection hrun2 with hh
      exact hh.symm
    have hok := symRun_inv m perm (m.nrows + 1) m.nrows m.nrows Tn hTn
    have houter : m.outerDim = m.nrows := outerDim_eq_nrows m hsq
    simp only [factorOf] at hnum
    cases hnn : ldl_numeric m sym.colptr sym.parents perm
        (⟨sym.nz, List.replicate (sym.colptr.getD m.ncols 0) 0,
          List.replicate (sym.colptr.getD m.ncols 0) 0, List.replicate m.ncols 0,
          List.replicate m.ncols 0, ⟨[], []⟩, sym.flag⟩ : NumState α) with
    | error e =>
      rw [hnn] at hnum
      cases hnum
    | ok st =>
      rw [hnn] at hnum
      have hnum2 : Except.ok (⟨sym.colptr, sym.parents, perm, st⟩ : LdlFactor α) =
          Except.ok F := hnum
      have hFval : F = ⟨sym.colptr, sym.parents, perm, st⟩ := by
        injection hnum2 with hh
        exact hh.symm
      rw [ldl_numeric, houter] at hnn
      rw [hsymval] at hnn
      have hinv := runSim m perm m.nrows (m.nrows + 1) (Nat.succ_pos _) Tn hTn
        (colptrOf Tn.lnz 0) rfl _
        (by
          show Tn.flag.length = m.nrows
          exact hok.2.2.1)
        (by
          show Tn.lnz.length = m.nrows
          exact hok.2.1)
        (by
          show (colptrOf Tn.lnz 0).getD m.nrows 0 ≤
            (List.replicate ((colptrOf Tn.lnz 0).getD m.ncols 0) (0 : Nat)).length
          rw [List.length_replicate, ← hsq])
        (by
          intro j
          show (List.replicate m.ncols (0 : α)).getD j 0 = 0
          exact getD_replicate_self 0 m.ncols j)
        m.nrows (Nat.le_refl _) st Tn hnn hTn
      intro i hi
      rw [hFval]
      show sym.colptr.getD i 0 + st.lnz.getD i 0 = sym.colptr.getD (i + 1) 0
      rw [hsymval]
      show (colptrOf Tn.lnz 0).getD i 0 + st.lnz.getD i 0 =
        (colptrOf Tn.lnz 0).getD (i + 1) 0
      rw [hinv.lnzEq i hi, colptrOf_getD_succ Tn.lnz 0 i (by rw [hok.2.1]; exact hi)]

/-- Witness for C2 on the concrete scenario-B matrix and permutation. -/
theorem ldl_numeric_fills_symbolic_layout_witness :
    ∃ (sym : SymResult) (F : LdlFactor ℤ),
      ldl_symbolic matB permB SymmetryCheck.CheckSymmetry = some sym ∧
      factorOf matB permB sym = Except.ok F ∧
      ∀ i, i < matB.nrows → F.colptr.getD i 0 + F.st.lnz.getD i 0 = F.colptr.getD (i + 1) 0 :=
  ⟨⟨[0, 1, 2, 2, 2], [some 3, some 2, none, none], [1, 1, 0, 0], [3, 2, 2, 3]⟩,
    ⟨[0, 1, 2, 2, 2], [some 3, some 2, none, none], permB,
      ⟨[1, 1, 0, 0], [3, 2], [2, 3], [1, 2, 3, 4], [0, 0, 0, 0], ⟨[], [0]⟩, [3, 2, 2, 3]⟩⟩,
    rfl, rfl,
    ldl_numeric_fills_symbolic_layout matB permB SymmetryCheck.CheckSymmetry
      ⟨[0, 1, 2, 2, 2], [some 3, some 2, none, none], [1, 1, 0, 0], [3, 2, 2, 3]⟩
      ⟨[0, 1, 2, 2, 2], [some 3, some 2, none, none], permB,
        ⟨[1, 1, 0, 0], [3, 2], [2, 3], [1, 2, 3, 4], [0, 0, 0, 0], ⟨[], [0]⟩, [3, 2, 2, 3]⟩⟩
      rfl rfl rfl⟩

/-! ## Claim C4: L stays strictly lower triangular with ascending rows -/

/-- The symbolic pass reads only the sparsity pattern: first, projecting a
zip to its first components truncates to the shorter length. -/
theorem map_fst_zip_take {β γ : Type} : ∀ (l1 : List β) (l2 : List γ),
    (l1.zip l2).map Prod.fst = l1.take l2.length := by
  intro l1
  induction l1 with
  | nil =>
    intro l2
    rw [List.take_nil, List.zip_nil_left, List.map_nil]
  | cons a t ih =>
    intro l2
    cases l2 with
    | nil => rfl
    | cons b t2 =>
      show a :: (t.zip t2).map Prod.fst = a :: t.take t2.length
      rw [ih t2]

theorem outerSlice_fst_congr {α : Type} (m mv : CsMat α) (hsp : samePattern m mv) :
    ∀ j, (mv.outerSlice j).map Prod.fst = (m.outerSlice j).map Prod.fst := by
  intro j
  show (((mv.indices.zip mv.data).drop (mv.indptr.getD j 0)).take
      (mv.indptr.getD (j + 1) 0 - mv.indptr.getD j 0)).map Prod.fst =
    (((m.indices.zip m.data).drop (m.indptr.getD j 0)).take
      (m.indptr.getD (j + 1) 0 - m.indptr.getD j 0)).map Prod.fst
  rw [hsp.2.2.2.1, hsp.2.2.2.2.1, List.map_take, List.map_take, List.map_drop,
    List.map_drop, map_fst_zip_take, map_fst_zip_take, hsp.2.2.2.2.2]

theorem permSlice_fst_congr {α : Type} (m mv : CsMat α) (perm : Perm)
    (hsp : samePattern m mv) :
    ∀ k, (permSlice mv perm k).map Prod.fst = (permSlice m perm k).map Prod.fst := by
  intro k
  rw [permSlice, permSlice, List.map_map, List.map_map]
  have h1 : ∀ (l : List (Nat × α)),
      l.map (Prod.fst ∘ fun e => ((perm.bwd e.1 : Nat), e.2)) =
        (l.map Prod.fst).map perm.bwd := by
    intro l
    rw [List.map_map]
    rfl
  rw [h1, h1, outerSlice_fst_congr m mv hsp]

theorem symEntries_fst_congr {α : Type} (k fuel : Nat) :
    ∀ (es esv : List (Nat × α)) (s : SymState),
      es.map Prod.fst = esv.map Prod.fst →
      symEntries k fuel s es = symEntries k fuel s esv := by
  intro es
  induction es with
  | nil =>
    intro esv s h
    have h2 : esv = [] := by
      cases esv with
      | nil => rfl
      | cons ev tv =>
        rw [List.map_nil, List.map_cons] at h
        cases h
    subst h2
    rfl
  | cons e rest ih =>
    intro esv s h
    cases esv with
    | nil =>
      rw [List.map_cons, List.map_nil] at h
      cases h
    | cons ev restv =>
      rw [List.map_cons, List.map_cons] at h
      injection h with h1 h2
      rw [symEntries, symEntries, ← h1]
      by_cases hek : e.1 < k
      · rw [if_pos hek, if_pos hek]
        cases hw : symWalk k fuel s e.1 with
        | none => rfl
        | some s2 => exact ih restv s2 h2
      · rw [if_neg hek, if_neg hek]
        exact ih restv s h2

theorem symColumn_fst_congr {α : Type} (m mv : CsMat α) (perm : Perm)
    (hsp : samePattern m mv) (fuel k : Nat) (s : SymState) :
    symColumn mv perm fuel k s = symColumn m perm fuel k s := by
  rw [symColumn, symColumn]
  exact symEntries_fst_congr k fuel _ _ _ (permSlice_fst_congr m mv perm hsp k)

theorem symRun_fst_congr {α : Type} (m mv : CsMat α) (perm : Perm)
    (hsp : samePattern m mv) (fuel : Nat) :
    ∀ (K : Nat) (s : SymState), symRun mv perm fuel K s = symRun m perm fuel K s := by
  intro K
  induction K with
  | zero => intro s; rfl
  | succ k ih =>
    intro s
    rw [symRun_succ, symRun_succ, ih s]
    cases hx : symRun m perm fuel k s with
    | none => rfl
    | some s2 => exact symColumn_fst_congr m mv perm hsp fuel k s2

/-- Any number of successful `update` calls with matrices sharing the
original sparsity pattern preserves the layout fields and the run invariant
of the factorized state. -/
theorem updateChain_inv {α : Type} [CommRing α] [Div α] [DecidableEq α] (m : CsMat α)
    (perm : Perm) (n : Nat) (Tn : SymState) (colptr : List Nat)
    (hcp : colptr = colptrOf Tn.lnz 0) (houter : m.outerDim = n)
    (hTn : symRun m perm (n + 1) n (symInit n) = some Tn) :
    ∀ (F G : LdlFactor α), UpdateChain m F G →
      F.colptr = colptr → F.parents = Tn.parents → F.perm = perm →
      RunInv Tn.parents colptr n n Tn F.st →
      G.colptr = colptr ∧ G.parents = Tn.parents ∧ G.perm = perm ∧
        RunInv Tn.parents colptr n n Tn G.st := by
  intro F G hchain
  induction hchain with
  | refl =>
    intro h1 h2 h3 h4
    exact ⟨h1, h2, h3, h4⟩
  | step G H mv hch hsp hupd ih =>
    intro h1 h2 h3 h4
    rcases ih h1 h2 h3 h4 with ⟨g1, g2, g3, g4⟩
    rw [LdlFactor.update] at hupd
    cases hnn : ldl_numeric mv G.colptr G.parents G.perm G.st with
    | error e =>
      rw [hnn] at hupd
      cases hupd
    | ok st =>
      rw [hnn] at hupd
      have hupd2 : Except.ok ({ G with st := st } : LdlFactor α) = Except.ok H := hupd
      have hHval : H = { G with st := st } := by
        injection hupd2 with hh
        exact hh.symm
      have houter2 : mv.outerDim = m.outerDim := by
        rw [CsMat.outerDim, CsMat.outerDim, hsp.1, hsp.2.1, hsp.2.2.1]
      have hTn2 : symRun mv perm (n + 1) n (symInit n) = some Tn := by
        rw [symRun_fst_congr m mv perm hsp (n + 1) n (symInit n)]
        exact hTn
      rw [ldl_numeric, houter2, houter, g1, g2, g3] at hnn
      have hinv := runSim mv perm n (n + 1) (Nat.succ_pos _) Tn hTn2 colptr hcp G.st
        g4.flagLen g4.lnzLen g4.liLen g4.yZero n (Nat.le_refl _) st Tn hnn hTn2
      rw [hHval]
      exact ⟨g1, g2, g3, hinv⟩

/-- C4: after every successful numeric factorization — and after any number
of further successful `update` calls, each with a matrix sharing the original
sparsity pattern (new values allowed; the same matrix is the special case) —
every column `i` of the stored L factor has its row indices
`l_indices[l_colptr[i] .. l_colptr[i+1]]` strictly ascending and each
strictly greater than `i` (strictly lower triangular; the unit diagonal is
not stored). -/
theorem ldl_L_strictly_lower {α : Type} [CommRing α] [Div α] [DecidableEq α]
    (m : CsMat α) (perm : Perm) (check : SymmetryCheck) (sym : SymResult)
    (F G : LdlFactor α) (hsq : m.nrows = m.ncols)
    (hsym : ldl_symbolic m perm check = some sym)
    (hnum : factorOf m perm sym = Except.ok F)
    (hchain : UpdateChain m F G) :
    ∀ i, i < m.nrows →
      (∀ p, G.colptr.getD i 0 ≤ p → p < G.colptr.getD (i + 1) 0 →
        i < G.st.lIndices.getD p 0) ∧
      (∀ p p', G.colptr.getD i 0 ≤ p → p < p' → p' < G.colptr.getD (i + 1) 0 →
        G.st.lIndices.getD p 0 < G.st.lIndices.getD p' 0) := by
  have hrun : symRunFull m perm = some sym := by
    cases check with
    | CheckSymmetry =>
      rw [ldl_symbolic] at hsym
      by_cases hs : is_symmetric m
      · rw [if_pos hs] at hsym
        exact hsym
      · rw [if_neg hs] at hsym
        cases hsym
    | DontCheckSymmetry => exact hsym
  rw [symRunFull] at hrun
  cases hTn : symRun m perm (m.nrows + 1) m.nrows (symInit m.nrows) with
  | none => rw [hTn] at hrun; cases hrun
  | some Tn =>
    rw [hTn] at hrun
    have hrun2 : some (⟨colptrOf Tn.lnz 0, Tn.parents, Tn.lnz, Tn.flag⟩ : SymResult) =
        some sym := hrun
    have hsymval : sym = ⟨colptrOf Tn.lnz 0, Tn.parents, Tn.lnz, Tn.flag⟩ := by
      injection hrun2 with hh
      exact hh.symm
    have hok := symRun_inv m perm (m.nrows + 1) m.nrows m.nrows Tn hTn
    have houter : m.outerDim = m.nrows := outerDim_eq_nrows m hsq
    simp only [factorOf] at hnum
    cases hnn : ldl_numeric m sym.colptr sym.parents perm
        (⟨sym.nz, List.replicate (sym.colptr.getD m.ncols 0) 0,
          List.replicate (sym.colptr.getD m.ncols 0) 0, List.replicate m.ncols 0,
          List.replicate m.ncols 0, ⟨[], []⟩, sym.flag⟩ : NumState α) with
    | error e =>
      rw [hnn] at hnum
      cases hnum
    | ok st =>
      rw [hnn] at hnum
      have hnum2 : Except.ok (⟨sym.colptr, sym.parents, perm, st⟩ : LdlFactor α) =
          Except.ok F := hnum
      have hFval : F = ⟨sym.colptr, sym.parents, perm, st⟩ := by
        injection hnum2 with hh
        exact hh.symm
      rw [ldl_numeric, houter] at hnn
      rw [hsymval] at hnn
      have hinv0 := runSim m perm m.nrows (m.nrows + 1) (Nat.succ_pos _) Tn hTn
        (colptrOf Tn.lnz 0) rfl _
        (by
          show Tn.flag.length = m.nrows
          exact hok.2.2.1)
        (by
          show Tn.lnz.length = m.nrows
          exact hok.2.1)
        (by
          show (colptrOf Tn.lnz 0).getD m.nrows 0 ≤
            (List.replicate ((colptrOf Tn.lnz 0).getD m.ncols 0) (0 : Nat)).length
          rw [List.length_replicate, ← hsq])
        (by
          intro j
          show (List.replicate m.ncols (0 : α)).getD j 0 = 0
          exact getD_replicate_self 0 m.ncols j)
        m.nrows (Nat.le_refl _) st Tn hnn hTn
      rcases updateChain_inv m perm m.nrows Tn (colptrOf Tn.lnz 0) rfl houter hTn
          F G hchain
          (by rw [hFval, hsymval])
          (by rw [hFval, hsymval])
          (by rw [hFval])
          (by rw [hFval]; exact hinv0) with
        ⟨hg1, hg2, hg3, hg4⟩
      intro i hi
      have hlnzi : G.st.lnz.getD i 0 = Tn.lnz.getD i 0 := hg4.lnzEq i hi
      have hseg := hg4.segs i hi
      have hsucc2 : (colptrOf Tn.lnz 0).getD (i + 1) 0 =
          (colptrOf Tn.lnz 0).getD i 0 + Tn.lnz.getD i 0 :=
        colptrOf_getD_succ Tn.lnz 0 i (by rw [hok.2.1]; exact hi)
      rw [hg1]
      constructor
      · intro p hp1 hp2
        have hq := hseg.rowGt (p - (colptrOf Tn.lnz 0).getD i 0) (by omega)
        rw [show (colptrOf Tn.lnz 0).getD i 0 +
          (p - (colptrOf Tn.lnz 0).getD i 0) = p from by omega] at hq
        exact hq
      · intro p p' hp1 hpp hp2
        have hq := hseg.sorted (p - (colptrOf Tn.lnz 0).getD i 0)
          (p' - (colptrOf Tn.lnz 0).getD i 0) (by omega) (by omega)
        rw [show (colptrOf Tn.lnz 0).getD i 0 +
            (p - (colptrOf Tn.lnz 0).getD i 0) = p from by omega,
          show (colptrOf Tn.lnz 0).getD i 0 +
            (p' - (colptrOf Tn.lnz 0).getD i 0) = p' from by omega] at hq
        exact hq

/-- Witness for C4 on the concrete scenario-B matrix, including one
successful `update` step with a same-pattern matrix carrying different
stored values. -/
theorem ldl_L_strictly_lower_witness :
    ∃ (sym : SymResult) (F G : LdlFactor ℤ),
      ldl_symbolic matB permB SymmetryCheck.CheckSymmetry = some sym ∧
      factorOf matB permB sym = Except.ok F ∧
      samePattern matB matB2 ∧
      F.update matB2 = Except.ok G ∧
      ∀ i, i < matB.nrows →
        (∀ p, G.colptr.getD i 0 ≤ p → p < G.colptr.getD (i + 1) 0 →
          i < G.st.lIndices.getD p 0) ∧
        (∀ p p', G.colptr.getD i 0 ≤ p → p < p' → p' < G.colptr.getD (i + 1) 0 →
          G.st.lIndices.getD p 0 < G.st.lIndices.getD p' 0) :=
  ⟨⟨[0, 1, 2, 2, 2], [some 3, some 2, none, none], [1, 1, 0, 0], [3, 2, 2, 3]⟩,
    ⟨[0, 1, 2, 2, 2], [some 3, some 2, none, none], permB,
      ⟨[1, 1, 0, 0], [3, 2], [2, 3], [1, 2, 3, 4], [0, 0, 0, 0], ⟨[], [0]⟩, [3, 2, 2, 3]⟩⟩,
    ⟨[0, 1, 2, 2, 2], [some 3, some 2, none, none], permB,
      ⟨[1, 1, 0, 0], [3, 2], [0, 1], [3, 4, 16, 9], [0, 0, 0, 0], ⟨[], [0]⟩, [3, 2, 2, 3]⟩⟩,
    rfl, rfl, ⟨rfl, rfl, rfl, rfl, rfl, rfl⟩, rfl,
    ldl_L_strictly_lower matB permB SymmetryCheck.CheckSymmetry
      ⟨[0, 1, 2, 2, 2], [some 3, some 2, none, none], [1, 1, 0, 0], [3, 2, 2, 3]⟩
      ⟨[0, 1, 2, 2, 2], [some 3, some 2, none, none], permB,
        ⟨[1, 1, 0, 0], [3, 2], [2, 3], [1, 2, 3, 4], [0, 0, 0, 0], ⟨[], [0]⟩, [3, 2, 2, 3]⟩⟩
      ⟨[0, 1, 2, 2, 2], [some 3, some 2, none, none], permB,
        ⟨[1, 1, 0, 0], [3, 2], [0, 1], [3, 4, 16, 9], [0, 0, 0, 0], ⟨[], [0]⟩, [3, 2, 2, 3]⟩⟩
      rfl rfl rfl
      (UpdateChain.step _ _ _ matB2 (UpdateChain.refl _)
        ⟨rfl, rfl, rfl, rfl, rfl, rfl⟩ rfl)⟩

/-! ## Claim C5 support: state-component bookkeeping lemmas -/

theorem list_eq_of_getD {β : Type _} (d : β) :
    ∀ (l l' : List β), l.length = l'.length →
      (∀ j, j < l.length → l.getD j d = l'.getD j d) → l = l' := by
  intro l l' hlen h
  refine List.ext_getElem hlen ?_
  intro j hj hj'
  have := h j hj
  rw [List.getD_eq_getElem l d hj, List.getD_eq_getElem l' d hj'] at this
  exact this

theorem colptrOf_cover : ∀ (xs : List Nat) (acc p : Nat), acc ≤ p →
    p < (colptrOf xs acc).getD xs.length 0 →
    ∃ i, i < xs.length ∧ (colptrOf xs acc).getD i 0 ≤ p ∧
      p < (colptrOf xs acc).getD (i + 1) 0 := by
  intro xs
  induction xs with
  | nil =>
    intro acc p h1 h2
    have h2' : p < acc := h2
    exact absurd h2' (Nat.not_lt_of_le h1)
  | cons x t ih =>
    intro acc p h1 h2
    rcases Nat.lt_or_ge p (acc + x) with hlt | hge
    · refine ⟨0, Nat.succ_pos _, ?_, ?_⟩
      · rw [colptrOf_getD_zero]
        exact h1
      · show p < (colptrOf t (acc + x)).getD 0 0
        rw [colptrOf_getD_zero]
        exact hlt
    · have h2' : p < (colptrOf t (acc + x)).getD t.length 0 := h2
      rcases ih (acc + x) p hge h2' with ⟨i, hi1, hi2, hi3⟩
      exact ⟨i + 1, by rw [List.length_cons]; omega, hi2, hi3⟩

theorem elimInner_len {α : Type} [CommRing α] (lIdx : List Nat) (lData : List α)
    (yi : α) : ∀ (c p : Nat) (y : List α),
      (elimInner lIdx lData yi p c y).length = y.length := by
  intro c
  induction c with
  | zero => intro p y; rfl
  | succ c ih =>
    intro p y
    rw [elimInner_succ, ih, length_set]

theorem elimInner_congr {α : Type} [CommRing α] (yi : α) :
    ∀ (c p : Nat) (liU liV : List Nat) (ldU ldV yU yV : List α),
      yV = yU →
      (∀ q, q < c → liV.getD (p + q) 0 = liU.getD (p + q) 0 ∧
        ldV.getD (p + q) 0 = ldU.getD (p + q) 0) →
      elimInner liV ldV yi p c yV = elimInner liU ldU yi p c yU := by
  intro c
  induction c with
  | zero => intro p _ _ _ _ _ _ hy _; exact hy
  | succ c ih =>
    intro p liU liV ldU ldV yU yV hy hq
    rw [elimInner_succ, elimInner_succ]
    have h0 := hq 0 (Nat.succ_pos c)
    rw [Nat.add_zero] at h0
    refine ih (p + 1) liU liV ldU ldV _ _ ?_ ?_
    · rw [hy, h0.1, h0.2]
    · intro q hqc
      have := hq (q + 1) (by omega)
      rw [show p + (q + 1) = p + 1 + q by omega] at this
      exact this

theorem numElim_ld {α : Type} [CommRing α] [Div α] (colptr : List Nat) (k : Nat)
    (s : NumState α) (i : Nat) :
    (numElim colptr k s i).lData =
      s.lData.set (colptr.getD i 0 + s.lnz.getD i 0) (s.y.getD i 0 / s.diag.getD i 0) := rfl

theorem numElim_dg {α : Type} [CommRing α] [Div α] (colptr : List Nat) (k : Nat)
    (s : NumState α) (i : Nat) :
    (numElim colptr k s i).diag =
      s.diag.set k (s.diag.getD k 0 - s.y.getD i 0 / s.diag.getD i 0 * s.y.getD i 0) := rfl

theorem numElimList_ld_len {α : Type} [CommRing α] [Div α] (colptr : List Nat) (k : Nat) :
    ∀ (P : List Nat) (s : NumState α),
      (numElimList colptr k s P).lData.length = s.lData.length := by
  intro P
  induction P with
  | nil => intro s; rfl
  | cons i rest ih =>
    intro s
    rw [numElimList, ih, numElim_ld, length_set]

theorem numElimList_diag_len {α : Type} [CommRing α] [Div α] (colptr : List Nat) (k : Nat) :
    ∀ (P : List Nat) (s : NumState α),
      (numElimList colptr k s P).diag.length = s.diag.length := by
  intro P
  induction P with
  | nil => intro s; rfl
  | cons i rest ih =>
    intro s
    rw [numElimList, ih, numElim_dg, length_set]

theorem numElimList_y_len {α : Type} [CommRing α] [Div α] (colptr : List Nat) (k : Nat) :
    ∀ (P : List Nat) (s : NumState α),
      (numElimList colptr k s P).y.length = s.y.length := by
  intro P
  induction P with
  | nil => intro s; rfl
  | cons i rest ih =>
    intro s
    rw [numElimList, ih, numElim_y, elimInner_len, length_set]

theorem numEntries_li {α : Type} [CommRing α] (parents : Parents) (k fuel : Nat) :
    ∀ (es : List (Nat × α)) (s s' : NumState α),
      numEntries parents k fuel s es = some s' → s'.lIndices = s.lIndices := by
  intro es
  induction es with
  | nil => intro s s' h; cases h; rfl
  | cons e rest ih =>
    intro s s' h
    rw [numEntries] at h
    by_cases he : e.1 ≤ k
    · rw [if_pos he] at h
      cases hw : numWalk parents k fuel [] s.flag e.1 with
      | none => rw [hw] at h; cases h
      | some lf =>
        obtain ⟨left, flag⟩ := lf
        rw [hw] at h
        rw [ih _ _ h]
        rfl
    · rw [if_neg he] at h
      exact ih _ _ h

theorem numEntries_ld {α : Type} [CommRing α] (parents : Parents) (k fuel : Nat) :
    ∀ (es : List (Nat × α)) (s s' : NumState α),
      numEntries parents k fuel s es = some s' → s'.lData = s.lData := by
  intro es
  induction es with
  | nil => intro s s' h; cases h; rfl
  | cons e rest ih =>
    intro s s' h
    rw [numEntries] at h
    by_cases he : e.1 ≤ k
    · rw [if_pos he] at h
      cases hw : numWalk parents k fuel [] s.flag e.1 with
      | none => rw [hw] at h; cases h
      | some lf =>
        obtain ⟨left, flag⟩ := lf
        rw [hw] at h
        rw [ih _ _ h]
        rfl
    · rw [if_neg he] at h
      exact ih _ _ h

theorem numEntries_lnz {α : Type} [CommRing α] (parents : Parents) (k fuel : Nat) :
    ∀ (es : List (Nat × α)) (s s' : NumState α),
      numEntries parents k fuel s es = some s' → s'.lnz = s.lnz := by
  intro es
  induction es with
  | nil => intro s s' h; cases h; rfl
  | cons e rest ih =>
    intro s s' h
    rw [numEntries] at h
    by_cases he : e.1 ≤ k
    · rw [if_pos he] at h
      cases hw : numWalk parents k fuel [] s.flag e.1 with
      | none => rw [hw] at h; cases h
      | some lf =>
        obtain ⟨left, flag⟩ := lf
        rw [hw] at h
        rw [ih _ _ h]
        rfl
    · rw [if_neg he] at h
      exact ih _ _ h

theorem numEntries_y_len {α : Type} [CommRing α] (parents : Parents) (k fuel : Nat) :
    ∀ (es : List (Nat × α)) (s s' : NumState α),
      numEntries parents k fuel s es = some s' → s'.y.length = s.y.length := by
  intro es
  induction es with
  | nil => intro s s' h; cases h; rfl
  | cons e rest ih =>
    intro s s' h
    rw [numEntries] at h
    by_cases he : e.1 ≤ k
    · rw [if_pos he] at h
      cases hw : numWalk parents k fuel [] s.flag e.1 with
      | none => rw [hw] at h; cases h
      | some lf =>
        obtain ⟨left, flag⟩ := lf
        rw [hw] at h
        rw [ih _ _ h]
        show (s.y.set e.1 (s.y.getD e.1 0 + e.2)).length = s.y.length
        rw [length_set]
    · rw [if_neg he] at h
      exact ih _ _ h

theorem numEntries_pl {α : Type} [CommRing α] (parents : Parents) (k fuel : Nat) :
    ∀ (es : List (Nat × α)) (s s' : NumState α),
      numEntries parents k fuel s es = some s' → s.pattern.left = [] →
      s'.pattern.left = [] := by
  intro es
  induction es with
  | nil => intro s s' h hp; cases h; exact hp
  | cons e rest ih =>
    intro s s' h hp
    rw [numEntries] at h
    by_cases he : e.1 ≤ k
    · rw [if_pos he] at h
      cases hw : numWalk parents k fuel [] s.flag e.1 with
      | none => rw [hw] at h; cases h
      | some lf =>
        obtain ⟨left, flag⟩ := lf
        rw [hw] at h
        exact ih _ _ h rfl
    · rw [if_neg he] at h
      exact ih _ _ h hp

theorem numColumnCore_lens {α : Type} [CommRing α] [Div α] (m : CsMat α)
    (colptr : List Nat) (parents : Parents) (perm : Perm) (fuel k : Nat)
    (s s₃ : NumState α) (h : numColumnCore m colptr parents perm fuel k s = some s₃) :
    s₃.y.length = s.y.length ∧ s₃.diag.length = s.diag.length ∧
    s₃.lIndices.length = s.lIndices.length ∧ s₃.lData.length = s.lData.length ∧
    (s.pattern.left = [] → s₃.pattern.left = []) := by
  rw [numColumnCore] at h
  cases he : numEntries parents k fuel (colReset s k) (permSlice m perm k) with
  | none => rw [he] at h; cases h
  | some s₁ =>
    rw [he] at h
    have h2 : some (numElimList colptr k (pivotReset s₁ k) s₁.pattern.right) = some s₃ := h
    have h3 : s₃ = numElimList colptr k (pivotReset s₁ k) s₁.pattern.right := by
      injection h2 with hh
      exact hh.symm
    subst h3
    have hyl := numEntries_y_len parents k fuel _ _ _ he
    have hdg := numEntries_diag parents k fuel _ _ _ he
    have hli := numEntries_li parents k fuel _ _ _ he
    have hld := numEntries_ld parents k fuel _ _ _ he
    refine ⟨?_, ?_, ?_, ?_, ?_⟩
    · rw [numElimList_y_len]
      show (s₁.y.set k 0).length = s.y.length
      rw [length_set, hyl, colReset_y, length_set]
    · rw [numElimList_diag_len]
      show (s₁.diag.set k (s₁.y.getD k 0)).length = s.diag.length
      rw [length_set, hdg]
      rfl
    · rw [numElimList_li_len, pivotReset_li, hli, colReset_li]
    · rw [numElimList_ld_len]
      show s₁.lData.length = s.lData.length
      rw [hld]
      rfl
    · intro hp
      rw [numElimList_pat]
      show s₁.pattern.left = []
      exact numEntries_pl parents k fuel _ _ _ he hp

theorem numRun_lens {α : Type} [CommRing α] [Div α] [DecidableEq α] (m : CsMat α)
    (colptr : List Nat) (parents : Parents) (perm : Perm) (fuel : Nat) (s0 : NumState α) :
    ∀ (K : Nat) (U : NumState α), numRun m colptr parents perm fuel K s0 = Except.ok U →
      U.y.length = s0.y.length ∧ U.diag.length = s0.diag.length ∧
      U.lIndices.length = s0.lIndices.length ∧ U.lData.length = s0.lData.length ∧
      (s0.pattern.left = [] → U.pattern.left = []) := by
  intro K
  induction K with
  | zero =>
    intro U h
    cases h
    exact ⟨rfl, rfl, rfl, rfl, fun hh => hh⟩
  | succ K ih =>
    intro U h
    rw [numRun_succ] at h
    cases hm : numRun m colptr parents perm fuel K s0 with
    | error e => rw [hm] at h; cases h
    | ok V =>
      rw [hm] at h
      have h2 : numColumn m colptr parents perm fuel K V = Except.ok U := h
      rw [numColumn] at h2
      cases hc : numColumnCore m colptr parents perm fuel K V with
      | none => rw [hc] at h2; cases h2
      | some s₃ =>
        rw [hc] at h2
        have h3 : (if s₃.diag.getD K 0 = 0
            then (Except.error NumErr.SingularMatrix : Except NumErr (NumState α))
            else Except.ok s₃) = Except.ok U := h2
        by_cases hd : s₃.diag.getD K 0 = 0
        · rw [if_pos hd] at h3
          cases h3
        · rw [if_neg hd] at h3
          cases h3
          rcases numColumnCore_lens m colptr parents perm fuel K V U hc with
            ⟨g1, g2, g3, g4, g5⟩
          rcases ih V hm with ⟨f1, f2, f3, f4, f5⟩
          exact ⟨g1.trans f1, g2.trans f2, g3.trans f3, g4.trans f4,
            fun hh => g5 (f5 hh)⟩

/-- The elimination loop run twice, on a fresh-run state and on an update-run
state that agree on the accumulator, the diagonal up to the pivot, and the
filled column segments: both runs perform identical writes, so the agreement
survives the loop (and extends over the newly appended entries). -/
theorem elimPhase2 {α : Type} [CommRing α] [Div α] (colptr : List Nat) (n K : Nat)
    (hKn : K ≤ n)
    (hmono : ∀ a b, a ≤ b → b ≤ n → colptr.getD a 0 ≤ colptr.getD b 0) :
    ∀ (P : List Nat) (sU sV : NumState α),
      P.Nodup → (∀ i, i ∈ P → i < K) →
      sU.lnz.length = n → sV.lnz.length = n →
      colptr.getD n 0 ≤ sU.lIndices.length → colptr.getD n 0 ≤ sV.lIndices.length →
      colptr.getD n 0 ≤ sU.lData.length → colptr.getD n 0 ≤ sV.lData.length →
      K < sU.diag.length → K < sV.diag.length →
      (∀ i, i ∈ P → colptr.getD i 0 + sU.lnz.getD i 0 < colptr.getD (i + 1) 0) →
      (∀ i, i < K → colptr.getD i 0 + sU.lnz.getD i 0 ≤ colptr.getD (i + 1) 0) →
      (∀ j, j < K → sV.lnz.getD j 0 = sU.lnz.getD j 0) →
      sV.y = sU.y →
      (∀ j, j ≤ K → sV.diag.getD j 0 = sU.diag.getD j 0) →
      (∀ i, i < K → ∀ p, colptr.getD i 0 ≤ p → p < colptr.getD i 0 + sU.lnz.getD i 0 →
        sV.lIndices.getD p 0 = sU.lIndices.getD p 0 ∧
        sV.lData.getD p 0 = sU.lData.getD p 0) →
      (∀ p, colptr.getD n 0 ≤ p →
        sV.lIndices.getD p 0 = sU.lIndices.getD p 0 ∧
        sV.lData.getD p 0 = sU.lData.getD p 0) →
      (numElimList colptr K sV P).y = (numElimList colptr K sU P).y ∧
      (∀ j, j ≤ K → (numElimList colptr K sV P).diag.getD j 0 =
        (numElimList colptr K sU P).diag.getD j 0) ∧
      (∀ i, i < K → ∀ p, colptr.getD i 0 ≤ p →
        p < colptr.getD i 0 + (numElimList colptr K sU P).lnz.getD i 0 →
        (numElimList colptr K sV P).lIndices.getD p 0 =
          (numElimList colptr K sU P).lIndices.getD p 0 ∧
        (numElimList colptr K sV P).lData.getD p 0 =
          (numElimList colptr K sU P).lData.getD p 0) ∧
      (∀ p, colptr.getD n 0 ≤ p →
        (numElimList colptr K sV P).lIndices.getD p 0 =
          (numElimList colptr K sU P).lIndices.getD p 0 ∧
        (numElimList colptr K sV P).lData.getD p 0 =
          (numElimList colptr K sU P).lData.getD p 0) := by
  intro P
  induction P with
  | nil =>
    intro sU sV _ _ _ _ _ _ _ _ _ _ _ _ hlnzEq hyEq hdiagEq hregEq hhiEq
    exact ⟨hyEq, fun j hj => hdiagEq j hj, fun i hi p hp1 hp2 => hregEq i hi p hp1 hp2,
      fun p hp => hhiEq p hp⟩
  | cons i rest ih =>
    intro sU sV hnod hPlt hlzU hlzV hliU hliV hldU hldV hdgU hdgV hroomP hroomAll
      hlnzEq hyEq hdiagEq hregEq hhiEq
    have hiK : i < K := hPlt i (List.mem_cons_self _ _)
    have hinotr : i ∉ rest := (List.nodup_cons.mp hnod).1
    have hilzU : i < sU.lnz.length := by omega
    have hilzV : i < sV.lnz.length := by omega
    have hwlt : colptr.getD i 0 + sU.lnz.getD i 0 < colptr.getD (i + 1) 0 :=
      hroomP i (List.mem_cons_self _ _)
    have hcpn : colptr.getD (i + 1) 0 ≤ colptr.getD n 0 :=
      hmono (i + 1) n (by omega) (Nat.le_refl n)
    have hwliU : colptr.getD i 0 + sU.lnz.getD i 0 < sU.lIndices.length := by omega
    have hwliV : colptr.getD i 0 + sU.lnz.getD i 0 < sV.lIndices.length := by omega
    have hwldU : colptr.getD i 0 + sU.lnz.getD i 0 < sU.lData.length := by omega
    have hwldV : colptr.getD i 0 + sU.lnz.getD i 0 < sV.lData.length := by omega
    have hlnzVi : sV.lnz.getD i 0 = sU.lnz.getD i 0 := hlnzEq i hiK
    have hposne : ∀ i', i' < K → i' ≠ i → ∀ q, q < sU.lnz.getD i' 0 →
        colptr.getD i 0 + sU.lnz.getD i 0 ≠ colptr.getD i' 0 + q := by
      intro i' hi'K hne q hq
      rcases Nat.lt_or_ge i' i with hlt | hge
      · have h1 : colptr.getD i' 0 + sU.lnz.getD i' 0 ≤ colptr.getD (i' + 1) 0 :=
          hroomAll i' hi'K
        have h2 : colptr.getD (i' + 1) 0 ≤ colptr.getD i 0 := hmono (i' + 1) i hlt (by omega)
        omega
      · have hgt : i < i' := Nat.lt_of_le_of_ne hge (fun hh => hne hh.symm)
        have h2 : colptr.getD (i + 1) 0 ≤ colptr.getD i' 0 := hmono (i + 1) i' hgt (by omega)
        omega
    have hyi : sV.y.getD i 0 = sU.y.getD i 0 := by rw [hyEq]
    have hdi : sV.diag.getD i 0 = sU.diag.getD i 0 := hdiagEq i (by omega)
    rw [numElimList, numElimList]
    refine ih (numElim colptr K sU i) (numElim colptr K sV i)
      (List.nodup_cons.mp hnod).2 (fun i' hi' => hPlt i' (List.mem_cons_of_mem _ hi'))
      ?_ ?_ ?_ ?_ ?_ ?_ ?_ ?_ ?_ ?_ ?_ ?_ ?_ ?_ ?_
    · rw [numElim_lnz, length_set]
      exact hlzU
    · rw [numElim_lnz, length_set]
      exact hlzV
    · rw [numElim_li, length_set]
      exact hliU
    · rw [numElim_li, length_set]
      exact hliV
    · rw [numElim_ld, length_set]
      exact hldU
    · rw [numElim_ld, length_set]
      exact hldV
    · rw [numElim_dg, length_set]
      exact hdgU
    · rw [numElim_dg, length_set]
      exact hdgV
    · intro i' hi'
      have hne : i ≠ i' := fun hh => hinotr (hh ▸ hi')
      rw [numElim_lnz, getD_set_ne _ _ _ hne]
      exact hroomP i' (List.mem_cons_of_mem _ hi')
    · intro i' hi'K
      by_cases hne : i' = i
      · subst hne
        rw [numElim_lnz, getD_set_self _ _ _ _ hilzU]
        omega
      · rw [numElim_lnz, getD_set_ne _ _ _ (fun hh => hne hh.symm)]
        exact hroomAll i' hi'K
    · intro j hj
      rw [numElim_lnz, numElim_lnz]
      by_cases hne : i = j
      · subst hne
        rw [getD_set_self _ _ _ _ hilzU, getD_set_self _ _ _ _ hilzV, hlnzVi]
      · rw [getD_set_ne _ _ _ hne, getD_set_ne _ _ _ hne]
        exact hlnzEq j hj
    · rw [numElim_y, numElim_y, hyEq, hlnzVi]
      refine elimInner_congr (sU.y.getD i 0) (sU.lnz.getD i 0) (colptr.getD i 0)
        sU.lIndices sV.lIndices sU.lData sV.lData _ _ rfl ?_
      intro q hq
      exact hregEq i hiK (colptr.getD i 0 + q) (by omega) (by omega)
    · intro j hj
      rw [numElim_dg, numElim_dg, hyi, hdi, hdiagEq K (Nat.le_refl K)]
      by_cases hne : K = j
      · subst hne
        rw [getD_set_self _ _ _ _ hdgU, getD_set_self _ _ _ _ hdgV]
      · rw [getD_set_ne _ _ _ hne, getD_set_ne _ _ _ hne]
        exact hdiagEq j hj
    · intro i'' hi''K p hp1 hp2
      rw [numElim_li, numElim_li, numElim_ld, numElim_ld, hyi, hdi, hlnzVi]
      by_cases hne : i'' = i
      · subst hne
        rw [numElim_lnz, getD_set_self _ _ _ _ hilzU] at hp2
        rcases Nat.lt_or_ge p (colptr.getD i'' 0 + sU.lnz.getD i'' 0) with hplt | hpge
        · rw [getD_set_ne _ _ _ (by omega), getD_set_ne _ _ _ (by omega),
            getD_set_ne _ _ _ (by omega), getD_set_ne _ _ _ (by omega)]
          exact hregEq i'' hi''K p hp1 hplt
        · have hpe : p = colptr.getD i'' 0 + sU.lnz.getD i'' 0 := by omega
          subst hpe
          rw [getD_set_self _ _ _ _ hwliU, getD_set_self _ _ _ _ hwliV,
            getD_set_self _ _ _ _ hwldU, getD_set_self _ _ _ _ hwldV]
          exact ⟨rfl, rfl⟩
      · have hne2 : i ≠ i'' := fun hh => hne hh.symm
        rw [numElim_lnz, getD_set_ne _ _ _ hne2] at hp2
        have hpne : colptr.getD i 0 + sU.lnz.getD i 0 ≠ p := by
          have := hposne i'' hi''K hne (p - colptr.getD i'' 0) (by omega)
          omega
        rw [getD_set_ne _ _ _ hpne, getD_set_ne _ _ _ hpne,
          getD_set_ne _ _ _ hpne, getD_set_ne _ _ _ hpne]
        exact hregEq i'' hi''K p hp1 hp2
    · intro p hp
      rw [numElim_li, numElim_li, numElim_ld, numElim_ld, hyi, hdi, hlnzVi]
      have hpne : colptr.getD i 0 + sU.lnz.getD i 0 ≠ p := by omega
      rw [getD_set_ne _ _ _ hpne, getD_set_ne _ _ _ hpne,
        getD_set_ne _ _ _ hpne, getD_set_ne _ _ _ hpne]
      exact hhiEq p hp

/-- The column-start relation between the reset symbolic and numeric states,
rebuilt from the run invariant. -/
theorem colRelSeed {α : Type} [CommRing α] (colptr : List Nat) (n K : Nat) (hK : K < n)
    (Tn TK : SymState) (U : NumState α) (hokK : symOk n K TK)
    (hflagLtK : ∀ j, j < K → TK.flag.getD j 0 < K)
    (hinv : RunInv Tn.parents colptr n K TK U) :
    ColRel Tn.parents n K
      ⟨setRoot TK.parents K, TK.lnz.set K 0, TK.flag.set K K⟩ (colReset U K) := by
  refine {
    flagLen := by
      rw [colReset_flag, length_set]
      exact hinv.flagLen
    agree := ?_
    flagPat := ?_
    patLt := ?_
    patNodup := List.nodup_nil
    lnzCnt := ?_
    patOkR := trivial }
  · intro j hj
    rw [colReset_flag]
    show (U.flag.set K K).getD j 0 = (TK.flag.set K K).getD j 0
    rcases Nat.eq_or_lt_of_le hj with he | hl
    · subst he
      rw [getD_set_self _ _ _ _ (by rw [hinv.flagLen]; exact hK),
        getD_set_self _ _ _ _ (by rw [hokK.2.2.1]; exact hK)]
    · rw [getD_set_ne _ _ _ (by omega), getD_set_ne _ _ _ (by omega)]
      exact hinv.flagEq j hl
  · intro j hj
    rw [colReset_flag, colReset_right]
    constructor
    · intro hh
      rw [getD_set_ne _ _ _ (by omega)] at hh
      rw [hinv.flagEq j hj] at hh
      have := hflagLtK j hj
      omega
    · intro hh
      cases hh
  · intro j hj
    rw [colReset_right] at hj
    cases hj
  · intro j hj
    rw [colReset_right, colReset_lnz, List.count_nil, Nat.add_zero]
    show (TK.lnz.set K 0).getD j 0 = (U.lnz.set K 0).getD j 0
    rcases Nat.eq_or_lt_of_le hj with he | hl
    · subst he
      rw [getD_set_at, getD_set_at]
    · rw [getD_set_ne _ _ _ (by omega), getD_set_ne _ _ _ (by omega)]
      exact (hinv.lnzEq j hl).symm

/-- One column of the numeric pass run twice — in the fresh run and in the
update run — from `RunInv2`-related states: both column bodies succeed, they
compute the same pivot, and the relation survives to the next column. -/
theorem columnStep2 {α : Type} [CommRing α] [Div α] [DecidableEq α] (m : CsMat α)
    (perm : Perm) (n f K : Nat) (hf : 0 < f) (hK : K < n)
    (Tn TK TK1 : SymState) (U V : NumState α) (colptr : List Nat)
    (hcp : colptr = colptrOf Tn.lnz 0)
    (hsymN : symRun m perm f n (symInit n) = some Tn)
    (hTK : symRun m perm f K (symInit n) = some TK)
    (hTK1 : symRun m perm f (K + 1) (symInit n) = some TK1)
    (hinvU : RunInv Tn.parents colptr n K TK U)
    (hinvV : RunInv Tn.parents colptr n K TK V)
    (h2 : RunInv2 colptr n K U V) :
    ∃ sU sV, numColumnCore m colptr Tn.parents perm f K U = some sU ∧
      numColumnCore m colptr Tn.parents perm f K V = some sV ∧
      sV.diag.getD K 0 = sU.diag.getD K 0 ∧
      RunInv2 colptr n (K + 1) sU sV := by
  have hokN := symRun_inv m perm f n n Tn hsymN
  have hokK := symRun_inv m perm f n K TK hTK
  have hbF : parentsBelow Tn.parents n := hokN.2.2.2
  have hlenN : Tn.lnz.length = n := hokN.2.1
  have hmono : ∀ a b, a ≤ b → b ≤ n → colptr.getD a 0 ≤ colptr.getD b 0 := by
    intro a b hab hb
    rw [hcp]
    exact colptrOf_mono _ 0 a b hab (by rw [hlenN]; exact hb)
  have hsucc : ∀ i, i < n → colptr.getD (i + 1) 0 = colptr.getD i 0 + Tn.lnz.getD i 0 := by
    intro i hi
    rw [hcp]
    exact colptrOf_getD_succ _ 0 i (by rw [hlenN]; exact hi)
  have hcol : symColumn m perm f K TK = some TK1 := by
    rw [symRun_succ, hTK] at hTK1
    exact hTK1
  rw [symColumn] at hcol
  have hsub : parentsLe TK1.parents Tn.parents :=
    symRun_mono m perm f n n (K + 1) TK1 Tn hK hTK1 hsymN
  have hflagLtK : ∀ j, j < K → TK.flag.getD j 0 < K :=
    symRun_flag_lt m perm f n K (Nat.le_of_lt hK) TK hTK
  have hcolrelU := colRelSeed colptr n K hK Tn TK U hokK hflagLtK hinvU
  have hcolrelV := colRelSeed colptr n K hK Tn TK V hokK hflagLtK hinvV
  rcases entriesSim (n := n) (k := K) Tn.parents hK hbF f hf (permSlice m perm K)
      ⟨setRoot TK.parents K, TK.lnz.set K 0, TK.flag.set K K⟩ TK1
      (colReset U K) (colReset V K) hcol hsub
      (by
        show (setRoot TK.parents K).length = n
        rw [setRoot, length_set]
        exact hokK.1)
      (by
        show (TK.lnz.set K 0).length = n
        rw [length_set]
        exact hokK.2.1)
      (by
        show (TK.flag.set K K).length = n
        rw [length_set]
        exact hokK.2.2.1)
      (by
        intro j v hv
        rcases getParent_setRoot_cases TK.parents K j v hv with ⟨hold, _⟩
        rcases hokK.2.2.2 j v hold with ⟨h1, h2⟩
        exact ⟨h1, by omega⟩)
      (by
        show (TK.flag.set K K).getD K 0 = K
        rw [getD_set_self _ _ _ _ (by rw [hokK.2.2.1]; exact hK)])
      hcolrelU hcolrelV
      (by
        show U.y.set K 0 = V.y.set K 0
        rw [h2.yEq])
      rfl
      (by
        show U.pattern.left = V.pattern.left
        rw [h2.plU, h2.plV]) with
    ⟨u', v', hnu, hnv, hcu', hcv', hy', hpr', hplft', hulnz, huli, huld, hudg,
      hvlnz, hvli, hvld, hvdg, ⟨Pnew, hPnew⟩, hEy, hLft⟩
  have hcoreU : numColumnCore m colptr Tn.parents perm f K U =
      some (numElimList colptr K (pivotReset u' K) u'.pattern.right) := by
    rw [numColumnCore, hnu]
  have hcoreV : numColumnCore m colptr Tn.parents perm f K V =
      some (numElimList colptr K (pivotReset v' K) u'.pattern.right) := by
    rw [numColumnCore, hnv]
    show some (numElimList colptr K (pivotReset v' K) v'.pattern.right) =
      some (numElimList colptr K (pivotReset v' K) u'.pattern.right)
    rw [hpr']
  have hulnz2 : u'.lnz = U.lnz.set K 0 := by
    rw [hulnz, colReset_lnz]
  have hvlnz2 : v'.lnz = V.lnz.set K 0 := by
    rw [hvlnz, colReset_lnz]
  have huli2 : u'.lIndices = U.lIndices := by
    rw [huli, colReset_li]
  have hvli2 : v'.lIndices = V.lIndices := by
    rw [hvli, colReset_li]
  have huld2 : u'.lData = U.lData := huld
  have hvld2 : v'.lData = V.lData := hvld
  have hudg2 : u'.diag = U.diag := hudg
  have hvdg2 : v'.diag = V.diag := hvdg
  have hPlt : ∀ i, i ∈ u'.pattern.right → i < K := hcu'.patLt
  have hlnzK : ∀ j, j ≤ K → TK1.lnz.getD j 0 =
      (U.lnz.set K 0).getD j 0 + u'.pattern.right.count j := by
    intro j hj
    rw [← hulnz2]
    exact hcu'.lnzCnt j hj
  have hsymMoK : ∀ j, j < K → TK.lnz.getD j 0 ≤ Tn.lnz.getD j 0 := by
    intro j hj
    exact symRun_lnz_mono m perm f n n K TK Tn (Nat.le_of_lt hK) hTK hsymN j hj
  have hsymMoK1 : ∀ j, j < K + 1 → TK1.lnz.getD j 0 ≤ Tn.lnz.getD j 0 := by
    intro j hj
    exact symRun_lnz_mono m perm f n n (K + 1) TK1 Tn hK hTK1 hsymN j hj
  have hdglenU : (pivotReset u' K).diag.length = n := by
    show (u'.diag.set K (u'.y.getD K 0)).length = n
    rw [length_set, hudg2, h2.diagLenU]
  have hdglenV : (pivotReset v' K).diag.length = n := by
    show (v'.diag.set K (v'.y.getD K 0)).length = n
    rw [length_set, hvdg2, h2.diagLenEq, h2.diagLenU]
  rcases elimPhase2 colptr n K (Nat.le_of_lt hK) hmono u'.pattern.right
      (pivotReset u' K) (pivotReset v' K) hcu'.patNodup hPlt
      (by
        rw [pivotReset_lnz, hulnz2, length_set]
        exact hinvU.lnzLen)
      (by
        rw [pivotReset_lnz, hvlnz2, length_set]
        exact hinvV.lnzLen)
      (by
        rw [pivotReset_li, huli2]
        exact hinvU.liLen)
      (by
        rw [pivotReset_li, hvli2]
        exact hinvV.liLen)
      (by
        show colptr.getD n 0 ≤ u'.lData.length
        rw [huld2]
        exact h2.ldLenU)
      (by
        show colptr.getD n 0 ≤ v'.lData.length
        rw [hvld2]
        exact h2.ldLenV)
      (by
        rw [hdglenU]
        exact hK)
      (by
        rw [hdglenV]
        exact hK)
      (by
        intro i hi
        have hiK : i < K := hPlt i hi
        rw [pivotReset_lnz, hulnz2, getD_set_ne _ _ _ (by omega)]
        have hcnt : u'.pattern.right.count i ≠ 0 :=
          fun hh => (List.count_eq_zero.mp hh) hi
        have h1 := hlnzK i (Nat.le_of_lt hiK)
        rw [getD_set_ne _ _ _ (by omega)] at h1
        have hh2 := hsymMoK1 i (by omega)
        have hh3 := hsucc i (by omega)
        have hh4 := hinvU.lnzEq i hiK
        omega)
      (by
        intro i hiK
        rw [pivotReset_lnz, hulnz2, getD_set_ne _ _ _ (by omega)]
        have hh2 := hsymMoK i hiK
        have hh3 := hsucc i (by omega)
        have hh4 := hinvU.lnzEq i hiK
        omega)
      (by
        intro j hj
        rw [pivotReset_lnz, pivotReset_lnz, hulnz2, hvlnz2,
          getD_set_ne _ _ _ (by omega), getD_set_ne _ _ _ (by omega),
          hinvU.lnzEq j hj, hinvV.lnzEq j hj])
      (by
        show v'.y.set K 0 = u'.y.set K 0
        rw [hy'])
      (by
        intro j hj
        show (v'.diag.set K (v'.y.getD K 0)).getD j 0 =
          (u'.diag.set K (u'.y.getD K 0)).getD j 0
        rcases Nat.eq_or_lt_of_le hj with he | hl
        · subst he
          rw [getD_set_self _ _ _ _ (by rw [hvdg2, h2.diagLenEq, h2.diagLenU]; exact hK),
            getD_set_self _ _ _ _ (by rw [hudg2, h2.diagLenU]; exact hK), hy']
        · rw [getD_set_ne _ _ _ (by omega), getD_set_ne _ _ _ (by omega),
            hudg2, hvdg2]
          exact h2.diagEq j hl)
      (by
        intro i hiK p hp1 hp2
        rw [pivotReset_lnz, hulnz2, getD_set_ne _ _ _ (by omega)] at hp2
        rw [pivotReset_li, pivotReset_li, huli2, hvli2]
        show V.lIndices.getD p 0 = U.lIndices.getD p 0 ∧
          v'.lData.getD p 0 = u'.lData.getD p 0
        rw [huld2, hvld2]
        exact h2.regEq i hiK p hp1 hp2)
      (by
        intro p hp
        rw [pivotReset_li, pivotReset_li, huli2, hvli2]
        show V.lIndices.getD p 0 = U.lIndices.getD p 0 ∧
          v'.lData.getD p 0 = u'.lData.getD p 0
        rw [huld2, hvld2]
        exact h2.hiEq p hp) with
    ⟨cy, cdiag, creg, chi⟩
  refine ⟨numElimList colptr K (pivotReset u' K) u'.pattern.right,
    numElimList colptr K (pivotReset v' K) u'.pattern.right,
    hcoreU, hcoreV, cdiag K (Nat.le_refl K), ?_⟩
  have hlnz3 : ∀ j, (numElimList colptr K (pivotReset u' K) u'.pattern.right).lnz.getD j 0 =
      (U.lnz.set K 0).getD j 0 + u'.pattern.right.count j := by
    intro j
    rw [numElimList_lnz_getD colptr K u'.pattern.right (pivotReset u' K)
      (by
        intro i hi
        rw [pivotReset_lnz, hulnz2, length_set, hinvU.lnzLen]
        exact Nat.lt_trans (hPlt i hi) hK),
      pivotReset_lnz, hulnz2]
  refine {
    yEq := cy
    plU := ?_
    plV := ?_
    diagLenU := ?_
    diagLenEq := ?_
    diagEq := fun j hj => cdiag j (by omega)
    ldLenU := ?_
    ldLenV := ?_
    liLenEq := ?_
    ldLenEq := ?_
    regEq := ?_
    hiEq := chi }
  · rw [numElimList_pat]
    show u'.pattern.left = []
    rcases hLft with h1 | h1
    · rw [h1]
      show U.pattern.left = []
      exact h2.plU
    · exact h1
  · rw [numElimList_pat]
    show v'.pattern.left = []
    rw [← hplft']
    rcases hLft with h1 | h1
    · rw [h1]
      show U.pattern.left = []
      exact h2.plU
    · exact h1
  · rw [numElimList_diag_len]
    exact hdglenU
  · rw [numElimList_diag_len, numElimList_diag_len, hdglenU, hdglenV]
  · rw [numElimList_ld_len]
    show colptr.getD n 0 ≤ u'.lData.length
    rw [huld2]
    exact h2.ldLenU
  · rw [numElimList_ld_len]
    show colptr.getD n 0 ≤ v'.lData.length
    rw [hvld2]
    exact h2.ldLenV
  · rw [numElimList_li_len, numElimList_li_len, pivotReset_li, pivotReset_li,
      huli2, hvli2]
    exact h2.liLenEq
  · rw [numElimList_ld_len, numElimList_ld_len]
    show v'.lData.length = u'.lData.length
    rw [huld2, hvld2]
    exact h2.ldLenEq
  · intro i hi p hp1 hp2
    rcases Nat.lt_or_ge i K with hiK | hiGe
    · exact creg i hiK p hp1 hp2
    · have hie : i = K := by omega
      rw [hie] at hp1 hp2
      rw [hlnz3 K, getD_set_at,
        List.count_eq_zero.mpr (fun hh => Nat.lt_irrefl K (hPlt K hh))] at hp2
      exact absurd hp2 (by omega)

/-- The fresh numeric run and the update run stay `RunInv2`-related at every
column: the update run succeeds column by column and performs exactly the
writes of the fresh run. -/
theorem runSim2 {α : Type} [CommRing α] [Div α] [DecidableEq α] (m : CsMat α)
    (perm : Perm) (n f : Nat) (hf : 0 < f) (Tn : SymState)
    (hsymN : symRun m perm f n (symInit n) = some Tn)
    (colptr : List Nat) (hcp : colptr = colptrOf Tn.lnz 0) (s₀U s₀V : NumState α)
    (hflU : s₀U.flag.length = n) (hlzU : s₀U.lnz.length = n)
    (hliU : colptr.getD n 0 ≤ s₀U.lIndices.length) (hyU : ∀ j, s₀U.y.getD j 0 = 0)
    (hflV : s₀V.flag.length = n) (hlzV : s₀V.lnz.length = n)
    (hliV : colptr.getD n 0 ≤ s₀V.lIndices.length) (hyV : ∀ j, s₀V.y.getD j 0 = 0)
    (h20 : RunInv2 colptr n 0 s₀U s₀V) :
    ∀ (K : Nat), K ≤ n → ∀ (U : NumState α) (TK : SymState),
      numRun m colptr Tn.parents perm f K s₀U = Except.ok U →
      symRun m perm f K (symInit n) = some TK →
      ∃ V, numRun m colptr Tn.parents perm f K s₀V = Except.ok V ∧
        RunInv2 colptr n K U V := by
  intro K
  induction K with
  | zero =>
    intro _ U TK hU _
    cases hU
    exact ⟨s₀V, rfl, h20⟩
  | succ K ih =>
    intro hKn U TK1 hU hT
    rw [numRun_succ] at hU
    cases hUK : numRun m colptr Tn.parents perm f K s₀U with
    | error e => rw [hUK] at hU; cases hU
    | ok UK =>
      rw [hUK] at hU
      rw [symRun_succ] at hT
      cases hTK : symRun m perm f K (symInit n) with
      | none => rw [hTK] at hT; cases hT
      | some TK =>
        rw [hTK] at hT
        have hT1 : symRun m perm f (K + 1) (symInit n) = some TK1 := by
          rw [symRun_succ, hTK]
          exact hT
        rcases ih (Nat.le_of_lt hKn) UK TK hUK hTK with ⟨VK, hVK, h2K⟩
        have hinvU := runSim m perm n f hf Tn hsymN colptr hcp s₀U
          hflU hlzU hliU hyU K (Nat.le_of_lt hKn) UK TK hUK hTK
        have hinvV := runSim m perm n f hf Tn hsymN colptr hcp s₀V
          hflV hlzV hliV hyV K (Nat.le_of_lt hKn) VK TK hVK hTK
        rcases columnStep2 m perm n f K hf hKn Tn TK TK1 UK VK colptr hcp hsymN
          hTK hT1 hinvU hinvV h2K with ⟨sU, sV, hcoreU, hcoreV, hdEq, h2K1⟩
        have hU2 : numColumn m colptr Tn.parents perm f K UK = Except.ok U := hU
        rw [numColumn, hcoreU] at hU2
        have hU3 : (if sU.diag.getD K 0 = 0
            then (Except.error NumErr.SingularMatrix : Except NumErr (NumState α))
            else Except.ok sU) = Except.ok U := hU2
        by_cases hd : sU.diag.getD K 0 = 0
        · rw [if_pos hd] at hU3
          cases hU3
        · rw [if_neg hd] at hU3
          cases hU3
          refine ⟨sV, ?_, h2K1⟩
          rw [numRun_succ, hVK]
          show numColumn m colptr Tn.parents perm f K VK = Except.ok sV
          rw [numColumn, hcoreV]
          show (if sV.diag.getD K 0 = 0
            then (Except.error NumErr.SingularMatrix : Except NumErr (NumState α))
            else Except.ok sV) = Except.ok sV
          rw [if_neg (by rw [hdEq]; exact hd)]

/-! ## Claim C5: update with the same matrix is bit-identical -/

/-- C5: for every matrix on which factorization succeeds, calling `update`
with the same matrix on the factorized state succeeds and reproduces L's
row indices and values and the diagonal D bit-identical to the fresh
`ldl_symbolic` + `factor` result it started from. -/
theorem ldl_update_bit_identical {α : Type} [CommRing α] [Div α] [DecidableEq α]
    (m : CsMat α) (perm : Perm) (check : SymmetryCheck) (sym : SymResult)
    (F : LdlFactor α) (hsq : m.nrows = m.ncols)
    (hsym : ldl_symbolic m perm check = some sym)
    (hnum : factorOf m perm sym = Except.ok F) :
    ∃ G, F.update m = Except.ok G ∧ G.colptr = F.colptr ∧ G.parents = F.parents ∧
      G.st.lIndices = F.st.lIndices ∧ G.st.lData = F.st.lData ∧
      G.st.diag = F.st.diag := by
  have hrun : symRunFull m perm = some sym := by
    cases check with
    | CheckSymmetry =>
      rw [ldl_symbolic] at hsym
      by_cases hs : is_symmetric m
      · rw [if_pos hs] at hsym
        exact hsym
      · rw [if_neg hs] at hsym
        cases hsym
    | DontCheckSymmetry => exact hsym
  rw [symRunFull] at hrun
  cases hTn : symRun m perm (m.nrows + 1) m.nrows (symInit m.nrows) with
  | none => rw [hTn] at hrun; cases hrun
  | some Tn =>
    rw [hTn] at hrun
    have hrun2 : some (⟨colptrOf Tn.lnz 0, Tn.parents, Tn.lnz, Tn.flag⟩ : SymResult) =
        some sym := hrun
    have hsymval : sym = ⟨colptrOf Tn.lnz 0, Tn.parents, Tn.lnz, Tn.flag⟩ := by
      injection hrun2 with hh
      exact hh.symm
    have hok := symRun_inv m perm (m.nrows + 1) m.nrows m.nrows Tn hTn
    have hlenN : Tn.lnz.length = m.nrows := hok.2.1
    have houter : m.outerDim = m.nrows := outerDim_eq_nrows m hsq
    have hsucc : ∀ i, i < m.nrows → (colptrOf Tn.lnz 0).getD (i + 1) 0 =
        (colptrOf Tn.lnz 0).getD i 0 + Tn.lnz.getD i 0 := by
      intro i hi
      exact colptrOf_getD_succ _ 0 i (by rw [hlenN]; exact hi)
    simp only [factorOf] at hnum
    cases hnn : ldl_numeric m sym.colptr sym.parents perm
        (⟨sym.nz, List.replicate (sym.colptr.getD m.ncols 0) 0,
          List.replicate (sym.colptr.getD m.ncols 0) 0, List.replicate m.ncols 0,
          List.replicate m.ncols 0, ⟨[], []⟩, sym.flag⟩ : NumState α) with
    | error e =>
      rw [hnn] at hnum
      cases hnum
    | ok st =>
      rw [hnn] at hnum
      have hnum2 : Except.ok (⟨sym.colptr, sym.parents, perm, st⟩ : LdlFactor α) =
          Except.ok F := hnum
      have hFval : F = ⟨sym.colptr, sym.parents, perm, st⟩ := by
        injection hnum2 with hh
        exact hh.symm
      rw [ldl_numeric, houter] at hnn
      rw [hsymval] at hnn
      have hnnz : ((⟨colptrOf Tn.lnz 0, Tn.parents, Tn.lnz, Tn.flag⟩ :
          SymResult).colptr.getD m.ncols 0) = (colptrOf Tn.lnz 0).getD m.nrows 0 := by
        rw [← hsq]
      -- initial-state conditions for the fresh run
      have hflU : Tn.flag.length = m.nrows := hok.2.2.1
      have hyU : ∀ j, (List.replicate m.ncols (0 : α)).getD j 0 = 0 :=
        fun j => getD_replicate_self 0 m.ncols j
      have hliU : (colptrOf Tn.lnz 0).getD m.nrows 0 ≤
          (List.replicate ((colptrOf Tn.lnz 0).getD m.ncols 0) (0 : Nat)).length := by
        rw [List.length_replicate, ← hsq]
      have hinvN := runSim m perm m.nrows (m.nrows + 1) (Nat.succ_pos _) Tn hTn
        (colptrOf Tn.lnz 0) rfl _ hflU hlenN hliU hyU
        m.nrows (Nat.le_refl _) st Tn hnn hTn
      have hlensU := numRun_lens m (colptrOf Tn.lnz 0) Tn.parents perm (m.nrows + 1)
        _ m.nrows st hnn
      -- the RunInv2 base relation between the fresh start and the final state
      have h20 : RunInv2 (colptrOf Tn.lnz 0) m.nrows 0
          (⟨Tn.lnz, List.replicate ((colptrOf Tn.lnz 0).getD m.ncols 0) 0,
            List.replicate ((colptrOf Tn.lnz 0).getD m.ncols 0) 0,
            List.replicate m.ncols 0, List.replicate m.ncols 0, ⟨[], []⟩,
            Tn.flag⟩ : NumState α) st := by
        refine {
          yEq := ?_
          plU := rfl
          plV := hlensU.2.2.2.2 rfl
          diagLenU := by rw [List.length_replicate, ← hsq]
          diagLenEq := hlensU.2.1
          diagEq := fun j hj => absurd hj (Nat.not_lt_zero j)
          ldLenU := by rw [List.length_replicate, ← hsq]
          ldLenV := by
            rw [hlensU.2.2.2.1, List.length_replicate, ← hsq]
          liLenEq := hlensU.2.2.1
          ldLenEq := hlensU.2.2.2.1
          regEq := fun i hi => absurd hi (Nat.not_lt_zero i)
          hiEq := ?_ }
        · refine list_eq_of_getD 0 _ _ hlensU.1 ?_
          intro j _
          rw [hinvN.yZero j]
          show (0 : α) = (List.replicate m.ncols (0 : α)).getD j 0
          rw [hyU j]
        · intro p hp
          have hlU : (List.replicate ((colptrOf Tn.lnz 0).getD m.ncols 0)
              (0 : Nat)).length ≤ p := by
            rw [List.length_replicate, ← hsq]
            exact hp
          have hlV : st.lIndices.length ≤ p := by
            rw [hlensU.2.2.1]
            exact hlU
          have hlUd : (List.replicate ((colptrOf Tn.lnz 0).getD m.ncols 0)
              (0 : α)).length ≤ p := by
            rw [List.length_replicate, ← hsq]
            exact hp
          have hlVd : st.lData.length ≤ p := by
            rw [hlensU.2.2.2.1]
            exact hlUd
          rw [getD_of_length_le _ _ _ hlU, getD_of_length_le _ _ _ hlV,
            getD_of_length_le _ _ _ hlUd, getD_of_length_le _ _ _ hlVd]
          exact ⟨rfl, rfl⟩
      rcases runSim2 m perm m.nrows (m.nrows + 1) (Nat.succ_pos _) Tn hTn
          (colptrOf Tn.lnz 0) rfl _ st hflU hlenN hliU hyU
          hinvN.flagLen hinvN.lnzLen hinvN.liLen hinvN.yZero h20
          m.nrows (Nat.le_refl _) st Tn hnn hTn with
        ⟨V, hVrun, h2n⟩
      have hnn2 : ldl_numeric m F.colptr F.parents F.perm F.st = Except.ok V := by
        rw [hFval]
        show ldl_numeric m sym.colptr sym.parents perm st = Except.ok V
        rw [ldl_numeric, houter, hsymval]
        exact hVrun
      refine ⟨{ F with st := V }, ?_, rfl, rfl, ?_, ?_, ?_⟩
      · rw [LdlFactor.update, hnn2]
      · show V.lIndices = F.st.lIndices
        rw [hFval]
        show V.lIndices = st.lIndices
        refine list_eq_of_getD 0 _ _ h2n.liLenEq ?_
        intro j hj
        rw [h2n.liLenEq, hlensU.2.2.1, List.length_replicate] at hj
        have hj2 : j < (colptrOf Tn.lnz 0).getD m.nrows 0 := by
          rw [hsq]
          exact hj
        have hj3 : j < (colptrOf Tn.lnz 0).getD Tn.lnz.length 0 := by
          rw [hlenN]
          exact hj2
        rcases colptrOf_cover Tn.lnz 0 j (Nat.zero_le j) hj3 with ⟨i, hi, hi2, hi3⟩
        rw [hlenN] at hi
        refine (h2n.regEq i hi j hi2 ?_).1
        rw [hinvN.lnzEq i hi, ← hsucc i hi]
        exact hi3
      · show V.lData = F.st.lData
        rw [hFval]
        show V.lData = st.lData
        refine list_eq_of_getD 0 _ _ h2n.ldLenEq ?_
        intro j hj
        rw [h2n.ldLenEq, hlensU.2.2.2.1, List.length_replicate] at hj
        have hj2 : j < (colptrOf Tn.lnz 0).getD m.nrows 0 := by
          rw [hsq]
          exact hj
        have hj3 : j < (colptrOf Tn.lnz 0).getD Tn.lnz.length 0 := by
          rw [hlenN]
          exact hj2
        rcases colptrOf_cover Tn.lnz 0 j (Nat.zero_le j) hj3 with ⟨i, hi, hi2, hi3⟩
        rw [hlenN] at hi
        refine (h2n.regEq i hi j hi2 ?_).2
        rw [hinvN.lnzEq i hi, ← hsucc i hi]
        exact hi3
      · show V.diag = F.st.diag
        rw [hFval]
        show V.diag = st.diag
        refine list_eq_of_getD 0 _ _ h2n.diagLenEq ?_
        intro j hj
        rw [h2n.diagLenEq, h2n.diagLenU] at hj
        exact h2n.diagEq j hj

/-- Witness for C5 on the concrete scenario-B matrix and permutation. -/
theorem ldl_update_bit_identical_witness :
    ∃ G, LdlFactor.update
        (⟨[0, 1, 2, 2, 2], [some 3, some 2, none, none], permB,
          ⟨[1, 1, 0, 0], [3, 2], [2, 3], [1, 2, 3, 4], [0, 0, 0, 0], ⟨[], [0]⟩,
            [3, 2, 2, 3]⟩⟩ : LdlFactor ℤ) matB = Except.ok G ∧
      G.colptr = (⟨[0, 1, 2, 2, 2], [some 3, some 2, none, none], permB,
          ⟨[1, 1, 0, 0], [3, 2], [2, 3], [1, 2, 3, 4], [0, 0, 0, 0], ⟨[], [0]⟩,
            [3, 2, 2, 3]⟩⟩ : LdlFactor ℤ).colptr ∧
      G.parents = (⟨[0, 1, 2, 2, 2], [some 3, some 2, none, none], permB,
          ⟨[1, 1, 0, 0], [3, 2], [2, 3], [1, 2, 3, 4], [0, 0, 0, 0], ⟨[], [0]⟩,
            [3, 2, 2, 3]⟩⟩ : LdlFactor ℤ).parents ∧
      G.st.lIndices = [3, 2] ∧ G.st.lData = [2, 3] ∧ G.st.diag = [1, 2, 3, 4] :=
  ldl_update_bit_identical matB permB SymmetryCheck.CheckSymmetry
    ⟨[0, 1, 2, 2, 2], [some 3, some 2, none, none], [1, 1, 0, 0], [3, 2, 2, 3]⟩
    ⟨[0, 1, 2, 2, 2], [some 3, some 2, none, none], permB,
      ⟨[1, 1, 0, 0], [3, 2], [2, 3], [1, 2, 3, 4], [0, 0, 0, 0], ⟨[], [0]⟩, [3, 2, 2, 3]⟩⟩
    rfl rfl rfl

/-! ## Claim C9: `to_csc` — counting and prefix sums -/

theorem countRows_len : ∀ (rs rc : List Nat), (countRows rc rs).length = rc.length := by
  intro rs
  induction rs with
  | nil => intro rc; rfl
  | cons i rest ih =>
    intro rc
    rw [countRows, ih, length_set]

theorem countRows_getD_zero : ∀ (rs rc : List Nat),
    (countRows rc rs).getD 0 0 = rc.getD 0 0 := by
  intro rs
  induction rs with
  | nil => intro rc; rfl
  | cons i rest ih =>
    intro rc
    rw [countRows, ih, getD_set_ne _ _ _ (by omega)]

theorem countRows_getD_succ : ∀ (rs rc : List Nat) (u : Nat),
    (∀ i, i ∈ rs → i + 1 < rc.length) →
    (countRows rc rs).getD (u + 1) 0 = rc.getD (u + 1) 0 + rs.count u := by
  intro rs
  induction rs with
  | nil =>
    intro rc u _
    rw [List.count_nil, Nat.add_zero]
    rfl
  | cons i rest ih =>
    intro rc u hb
    rw [countRows, ih _ u (by
      intro i' hi'
      rw [length_set]
      exact hb i' (List.mem_cons_of_mem _ hi'))]
    by_cases hiu : i = u
    · subst hiu
      rw [getD_set_self _ _ _ _ (hb i (List.mem_cons_self _ _)), List.count_cons_self]
      omega
    · rw [getD_set_ne _ _ _ (by omega), List.count_cons_of_ne (fun hh => hiu hh.symm)]

theorem cumRun_len : ∀ (K : Nat) (ip : List Nat), (cumRun ip K).length = ip.length := by
  intro K
  induction K with
  | zero => intro ip; rfl
  | succ K ih =>
    intro ip
    rw [cumRun, cumStep, length_set, ih]

theorem cumRun_getD : ∀ (K : Nat) (ip : List Nat), K < ip.length →
    (∀ t, t ≤ K → (cumRun ip K).getD t 0 = natPrefix (fun u => ip.getD u 0) (t + 1)) ∧
    (∀ t, K < t → (cumRun ip K).getD t 0 = ip.getD t 0) := by
  intro K
  induction K with
  | zero =>
    intro ip _
    constructor
    · intro t ht
      cases Nat.le_zero.mp ht
      show ip.getD 0 0 = 0 + ip.getD 0 0
      omega
    · intro t _
      rfl
  | succ K ih =>
    intro ip hK
    rcases ih ip (by omega) with ⟨ih1, ih2⟩
    have hset : cumRun ip (K + 1) = (cumRun ip K).set (K + 1)
        ((cumRun ip K).getD (K + 1) 0 + (cumRun ip K).getD K 0) := rfl
    constructor
    · intro t ht
      rcases Nat.eq_or_lt_of_le ht with he | hl
      · rw [he, hset, getD_set_self _ _ _ _ (by rw [cumRun_len]; exact hK),
          ih2 (K + 1) (Nat.lt_succ_self K), ih1 K (Nat.le_refl K)]
        show ip.getD (K + 1) 0 + natPrefix (fun u => ip.getD u 0) (K + 1) =
          natPrefix (fun u => ip.getD u 0) (K + 1) + ip.getD (K + 1) 0
        omega
      · rw [hset, getD_set_ne _ _ _ (by omega)]
        exact ih1 t (by omega)
    · intro t hl
      rw [hset, getD_set_ne _ _ _ (by omega)]
      exact ih2 t (by omega)

theorem natPrefix_mono (f : Nat → Nat) : ∀ (a b : Nat), a ≤ b →
    natPrefix f a ≤ natPrefix f b := by
  intro a b
  induction b with
  | zero =>
    intro h
    cases Nat.le_zero.mp h
    exact Nat.le_refl _
  | succ b ih =>
    intro h
    rcases Nat.eq_or_lt_of_le h with he | hl
    · rw [he]
    · refine Nat.le_trans (ih (by omega)) ?_
      show natPrefix f b ≤ natPrefix f b + f b
      omega

theorem natPrefix_shift (g : Nat → Nat) : ∀ (t : Nat),
    natPrefix g (t + 1) = g 0 + natPrefix (fun u => g (u + 1)) t := by
  intro t
  induction t with
  | zero =>
    show natPrefix g 0 + g 0 = g 0 + 0
    show 0 + g 0 = g 0 + 0
    omega
  | succ t ih =>
    rw [show natPrefix g (t + 1 + 1) = natPrefix g (t + 1) + g (t + 1) from rfl, ih,
      show natPrefix (fun u => g (u + 1)) (t + 1) =
        natPrefix (fun u => g (u + 1)) t + g (t + 1) from rfl]
    omega

theorem tripRawCounts_len {α : Type} (T : TripletMat α) :
    (tripRawCounts T).length = T.rows + 1 := by
  rw [tripRawCounts, countRows_len, List.length_replicate]

theorem tripIndptr_len {α : Type} (T : TripletMat α) :
    (tripIndptr T).length = T.rows + 1 := by
  rw [tripIndptr, cumRun_len, tripRawCounts_len]

theorem tripIndptr_getD {α : Type} (T : TripletMat α)
    (hr : ∀ i, i ∈ T.row_inds → i < T.rows) :
    ∀ t, t ≤ T.rows →
      (tripIndptr T).getD t 0 = natPrefix (fun u => T.row_inds.count u) t := by
  have hb : ∀ i, i ∈ T.row_inds → i + 1 < (List.replicate (T.rows + 1) (0 : Nat)).length := by
    intro i hi
    rw [List.length_replicate]
    have := hr i hi
    omega
  have hraw0 : (tripRawCounts T).getD 0 0 = 0 := by
    rw [tripRawCounts, countRows_getD_zero, getD_replicate_self]
  have hrawS : ∀ u, (tripRawCounts T).getD (u + 1) 0 = T.row_inds.count u := by
    intro u
    rw [tripRawCounts, countRows_getD_succ T.row_inds _ u hb, getD_replicate_self]
    omega
  intro t ht
  rw [tripIndptr,
    (cumRun_getD T.rows (tripRawCounts T) (by rw [tripRawCounts_len]; omega)).1 t ht,
    natPrefix_shift, hraw0]
  rw [Nat.zero_add]
  congr 1
  refine funext ?_
  intro u
  exact hrawS u

/-! ## Claim C9: row accumulation semantics (`addTo`/`rowSpec`) -/

theorem tripSum_cons {α : Type} [CommRing α] (t : α × Nat × Nat)
    (ts : List (α × Nat × Nat)) (i j : Nat) :
    tripSum (t :: ts) i j =
      if t.2.1 = i ∧ t.2.2 = j then t.1 + tripSum ts i j else tripSum ts i j := by
  rw [tripSum, List.filter_cons]
  by_cases h : t.2.1 = i ∧ t.2.2 = j
  · rw [if_pos h, if_pos (by rw [decide_eq_true_eq]; exact h)]
    rw [List.map_cons, List.sum_cons]
    rfl
  · rw [if_neg h, if_neg (by rw [decide_eq_true_eq]; exact h)]
    rfl

theorem addTo_of_not_mem {α : Type} [CommRing α] :
    ∀ (L : List (Nat × α)) (j : Nat) (v : α), j ∉ L.map Prod.fst →
      addTo L j v = L ++ [(j, v)] := by
  intro L
  induction L with
  | nil => intro j v _; rfl
  | cons e rest ih =>
    intro j v hj
    rw [List.map_cons] at hj
    rw [addTo, if_neg (fun hh => hj (by rw [hh]; exact List.mem_cons_self _ _)),
      ih j v (fun hh => hj (List.mem_cons_of_mem _ hh)), List.cons_append]

theorem addTo_fst_of_mem {α : Type} [CommRing α] :
    ∀ (L : List (Nat × α)) (j : Nat) (v : α), j ∈ L.map Prod.fst →
      (addTo L j v).map Prod.fst = L.map Prod.fst := by
  intro L
  induction L with
  | nil => intro j v hj; cases hj
  | cons e rest ih =>
    intro j v hj
    rw [addTo]
    by_cases he : e.1 = j
    · rw [if_pos he, List.map_cons, List.map_cons]
    · rw [if_neg he, List.map_cons, List.map_cons,
        ih j v (by
          rw [List.map_cons] at hj
          rcases List.mem_cons.mp hj with h1 | h2
          · exact absurd h1.symm he
          · exact h2)]

theorem addTo_len_of_mem {α : Type} [CommRing α] :
    ∀ (L : List (Nat × α)) (j : Nat) (v : α), j ∈ L.map Prod.fst →
      (addTo L j v).length = L.length := by
  intro L
  induction L with
  | nil => intro j v hj; cases hj
  | cons e rest ih =>
    intro j v hj
    rw [addTo]
    by_cases he : e.1 = j
    · rw [if_pos he, List.length_cons, List.length_cons]
    · rw [if_neg he, List.length_cons, List.length_cons,
        ih j v (by
          rw [List.map_cons] at hj
          rcases List.mem_cons.mp hj with h1 | h2
          · exact absurd h1.symm he
          · exact h2)]

theorem addTo_mem_ne {α : Type} [CommRing α] :
    ∀ (L : List (Nat × α)) (j : Nat) (v : α) (e : Nat × α), e.1 ≠ j →
      (e ∈ addTo L j v ↔ e ∈ L) := by
  intro L
  induction L with
  | nil =>
    intro j v e he
    rw [addTo]
    constructor
    · intro hh
      rw [List.mem_singleton] at hh
      exact absurd (congrArg Prod.fst hh) he
    · intro hh
      cases hh
  | cons a rest ih =>
    intro j v e he
    rw [addTo]
    by_cases ha : a.1 = j
    · rw [if_pos ha]
      constructor
      · intro hh
        rcases List.mem_cons.mp hh with h1 | h2
        · exact absurd (congrArg Prod.fst h1) (by rw [ha] at *; exact he)
        · exact List.mem_cons_of_mem _ h2
      · intro hh
        rcases List.mem_cons.mp hh with h1 | h2
        · exfalso
          refine he ?_
          rw [h1]
          exact ha
        · exact List.mem_cons_of_mem _ h2
    · rw [if_neg ha]
      constructor
      · intro hh
        rcases List.mem_cons.mp hh with h1 | h2
        · rw [h1]
          exact List.mem_cons_self _ _
        · exact List.mem_cons_of_mem _ ((ih j v e he).mp h2)
      · intro hh
        rcases List.mem_cons.mp hh with h1 | h2
        · rw [h1]
          exact List.mem_cons_self _ _
        · exact List.mem_cons_of_mem _ ((ih j v e he).mpr h2)

theorem addTo_mem_eq {α : Type} [CommRing α] :
    ∀ (L : List (Nat × α)), (L.map Prod.fst).Nodup → ∀ (j : Nat) (v w' : α),
      (j, w') ∈ addTo L j v → j ∈ L.map Prod.fst →
      ∃ w, (j, w) ∈ L ∧ w' = w + v := by
  intro L
  induction L with
  | nil => intro _ j v w' _ hj; cases hj
  | cons a rest ih =>
    intro hnod j v w' hm hj
    rw [List.map_cons] at hnod
    rw [addTo] at hm
    by_cases ha : a.1 = j
    · rw [if_pos ha] at hm
      rcases List.mem_cons.mp hm with h1 | h2
      · refine ⟨a.2, ?_, ?_⟩
        · rw [show (j, a.2) = a from by
            refine Prod.ext ?_ rfl
            rw [ha]]
          exact List.mem_cons_self _ _
        · exact congrArg Prod.snd h1
      · exfalso
        have : j ∈ rest.map Prod.fst := by
          refine List.mem_map.mpr ⟨(j, w'), h2, rfl⟩
        rw [← ha] at this
        exact (List.nodup_cons.mp hnod).1 this
    · rw [if_neg ha] at hm
      rcases List.mem_cons.mp hm with h1 | h2
      · exact absurd (congrArg Prod.fst h1).symm ha
      · rcases ih (List.nodup_cons.mp hnod).2 j v w' h2 (by
          rw [List.map_cons] at hj
          rcases List.mem_cons.mp hj with hh1 | hh2
          · exact absurd hh1.symm ha
          · exact hh2) with ⟨w, hw1, hw2⟩
        exact ⟨w, List.mem_cons_of_mem _ hw1, hw2⟩

theorem rowSpec_snoc {α : Type} [CommRing α] (i : Nat) :
    ∀ (ts : List (α × Nat × Nat)) (acc : List (Nat × α)) (t : α × Nat × Nat),
      rowSpec i acc (ts ++ [t]) =
        if t.2.1 = i then addTo (rowSpec i acc ts) t.2.2 t.1 else rowSpec i acc ts := by
  intro ts
  induction ts with
  | nil =>
    intro acc t
    rw [List.nil_append]
    by_cases h : t.2.1 = i
    · rw [if_pos h]
      show (if t.2.1 = i then rowSpec i (addTo acc t.2.2 t.1) [] else rowSpec i acc []) =
        addTo (rowSpec i acc []) t.2.2 t.1
      rw [if_pos h]
      rfl
    · rw [if_neg h]
      show (if t.2.1 = i then rowSpec i (addTo acc t.2.2 t.1) [] else rowSpec i acc []) =
        rowSpec i acc []
      rw [if_neg h]
  | cons s rest ih =>
    intro acc t
    rw [List.cons_append, rowSpec, rowSpec]
    by_cases h : s.2.1 = i
    · rw [if_pos h, if_pos h, ih]
    · rw [if_neg h, if_neg h, ih]

theorem rowSpec_fst_nodup {α : Type} [CommRing α] (i : Nat) :
    ∀ (ts : List (α × Nat × Nat)) (acc : List (Nat × α)),
      (acc.map Prod.fst).Nodup → ((rowSpec i acc ts).map Prod.fst).Nodup := by
  intro ts
  induction ts with
  | nil => intro acc h; exact h
  | cons t rest ih =>
    intro acc h
    rw [rowSpec]
    by_cases ht : t.2.1 = i
    · rw [if_pos ht]
      refine ih _ ?_
      by_cases hm : t.2.2 ∈ acc.map Prod.fst
      · rw [addTo_fst_of_mem acc t.2.2 t.1 hm]
        exact h
      · rw [addTo_of_not_mem acc t.2.2 t.1 hm, List.map_append]
        rw [List.map_singleton]
        refine List.Nodup.append h (List.nodup_singleton _) ?_
        intro x hx1 hx2
        rw [List.mem_singleton] at hx2
        subst hx2
        exact hm hx1
    · rw [if_neg ht]
      exact ih _ h

theorem rowSpec_mem_fst {α : Type} [CommRing α] (i : Nat) :
    ∀ (ts : List (α × Nat × Nat)) (acc : List (Nat × α)) (j : Nat),
      (j ∈ (rowSpec i acc ts).map Prod.fst ↔
        j ∈ acc.map Prod.fst ∨ ∃ t, t ∈ ts ∧ t.2.1 = i ∧ t.2.2 = j) := by
  intro ts
  induction ts with
  | nil =>
    intro acc j
    constructor
    · intro h
      exact Or.inl h
    · intro h
      rcases h with h | ⟨t, ht, _⟩
      · exact h
      · cases ht
  | cons t rest ih =>
    intro acc j
    rw [rowSpec]
    by_cases ht : t.2.1 = i
    · rw [if_pos ht]
      rw [ih]
      constructor
      · intro h
        rcases h with h1 | ⟨s, hs1, hs2, hs3⟩
        · by_cases hm : t.2.2 ∈ acc.map Prod.fst
          · rw [addTo_fst_of_mem acc t.2.2 t.1 hm] at h1
            exact Or.inl h1
          · rw [addTo_of_not_mem acc t.2.2 t.1 hm, List.map_append,
              List.map_singleton] at h1
            rcases List.mem_append.mp h1 with h2 | h2
            · exact Or.inl h2
            · rw [List.mem_singleton] at h2
              exact Or.inr ⟨t, List.mem_cons_self _ _, ht, h2.symm⟩
        · exact Or.inr ⟨s, List.mem_cons_of_mem _ hs1, hs2, hs3⟩
      · intro h
        rcases h with h1 | ⟨s, hs1, hs2, hs3⟩
        · left
          by_cases hm : t.2.2 ∈ acc.map Prod.fst
          · rw [addTo_fst_of_mem acc t.2.2 t.1 hm]
            exact h1
          · rw [addTo_of_not_mem acc t.2.2 t.1 hm, List.map_append]
            exact List.mem_append_left _ h1
        · rcases List.mem_cons.mp hs1 with he | he
          · left
            subst he
            by_cases hm : s.2.2 ∈ acc.map Prod.fst
            · rw [addTo_fst_of_mem acc s.2.2 s.1 hm]
              rw [← hs3]
              exact hm
            · rw [addTo_of_not_mem acc s.2.2 s.1 hm, List.map_append,
                List.map_singleton]
              refine List.mem_append_right _ ?_
              rw [List.mem_singleton]
              exact hs3.symm
          · exact Or.inr ⟨s, he, hs2, hs3⟩
    · rw [if_neg ht]
      rw [ih]
      constructor
      · intro h
        rcases h with h1 | ⟨s, hs1, hs2, hs3⟩
        · exact Or.inl h1
        · exact Or.inr ⟨s, List.mem_cons_of_mem _ hs1, hs2, hs3⟩
      · intro h
        rcases h with h1 | ⟨s, hs1, hs2, hs3⟩
        · exact Or.inl h1
        · rcases List.mem_cons.mp hs1 with he | he
          · exfalso
            subst he
            exact ht hs2
          · exact Or.inr ⟨s, he, hs2, hs3⟩

theorem rowSpec_len_le {α : Type} [CommRing α] (i : Nat) :
    ∀ (ts : List (α × Nat × Nat)) (acc : List (Nat × α)),
      (rowSpec i acc ts).length ≤
        acc.length + (ts.filter (fun t => decide (t.2.1 = i))).length := by
  intro ts
  induction ts with
  | nil =>
    intro acc
    rw [show rowSpec i acc [] = acc from rfl]
    omega
  | cons t rest ih =>
    intro acc
    rw [rowSpec, List.filter_cons]
    by_cases ht : t.2.1 = i
    · rw [if_pos ht, if_pos (by rw [decide_eq_true_eq]; exact ht), List.length_cons]
      refine Nat.le_trans (ih (addTo acc t.2.2 t.1)) ?_
      by_cases hm : t.2.2 ∈ acc.map Prod.fst
      · rw [addTo_len_of_mem acc t.2.2 t.1 hm]
        omega
      · rw [addTo_of_not_mem acc t.2.2 t.1 hm, List.length_append]
        rw [List.length_singleton]
        omega
    · rw [if_neg ht, if_neg (by rw [decide_eq_true_eq]; exact ht)]
      exact ih acc

theorem addTo_fst_nodup {α : Type} [CommRing α] (L : List (Nat × α)) (j : Nat) (v : α)
    (h : (L.map Prod.fst).Nodup) : ((addTo L j v).map Prod.fst).Nodup := by
  by_cases hm : j ∈ L.map Prod.fst
  · rw [addTo_fst_of_mem L j v hm]
    exact h
  · rw [addTo_of_not_mem L j v hm, List.map_append, List.map_singleton]
    refine List.Nodup.append h (List.nodup_singleton _) ?_
    intro x hx1 hx2
    rw [List.mem_singleton] at hx2
    subst hx2
    exact hm hx1

theorem rowSpec_val {α : Type} [CommRing α] (i : Nat) :
    ∀ (ts : List (α × Nat × Nat)) (acc : List (Nat × α)),
      (acc.map Prod.fst).Nodup →
      ∀ e, e ∈ rowSpec i acc ts →
        (e.1 ∈ acc.map Prod.fst →
          ∃ w, (e.1, w) ∈ acc ∧ e.2 = w + tripSum ts i e.1) ∧
        (e.1 ∉ acc.map Prod.fst → e.2 = tripSum ts i e.1) := by
  intro ts
  induction ts with
  | nil =>
    intro acc _ e he
    constructor
    · intro _
      refine ⟨e.2, ?_, ?_⟩
      · rw [show (e.1, e.2) = e from rfl]
        exact he
      · show e.2 = e.2 + 0
        rw [add_zero]
    · intro hne
      exact absurd (List.mem_map.mpr ⟨e, he, rfl⟩) hne
  | cons t rest ih =>
    intro acc hnod e he
    rw [rowSpec] at he
    by_cases ht : t.2.1 = i
    · rw [if_pos ht] at he
      have hnod' : ((addTo acc t.2.2 t.1).map Prod.fst).Nodup :=
        addTo_fst_nodup acc t.2.2 t.1 hnod
      rcases ih (addTo acc t.2.2 t.1) hnod' e he with ⟨ih1, ih2⟩
      by_cases hm : t.2.2 ∈ acc.map Prod.fst
      · have hfst : (addTo acc t.2.2 t.1).map Prod.fst = acc.map Prod.fst :=
          addTo_fst_of_mem acc t.2.2 t.1 hm
        constructor
        · intro hef
          rcases ih1 (by rw [hfst]; exact hef) with ⟨w', hw1, hw2⟩
          by_cases heq : e.1 = t.2.2
          · rcases addTo_mem_eq acc hnod t.2.2 t.1 w'
                (by rw [heq] at hw1; exact hw1) hm with ⟨w, hwa, hwb⟩
            refine ⟨w, by rw [heq]; exact hwa, ?_⟩
            rw [hw2, hwb, tripSum_cons, if_pos ⟨ht, heq.symm⟩, add_assoc]
          · refine ⟨w', (addTo_mem_ne acc t.2.2 t.1 (e.1, w') heq).mp hw1, ?_⟩
            rw [hw2, tripSum_cons, if_neg (fun hh => heq hh.2.symm)]
        · intro hef
          have := ih2 (by rw [hfst]; exact hef)
          rw [this, tripSum_cons,
            if_neg (fun hh => hef (by rw [← hh.2]; exact hm))]
      · have hfst : (addTo acc t.2.2 t.1).map Prod.fst =
            acc.map Prod.fst ++ [t.2.2] := by
          rw [addTo_of_not_mem acc t.2.2 t.1 hm, List.map_append, List.map_singleton]
        constructor
        · intro hef
          have heq : e.1 ≠ t.2.2 := fun hh => hm (hh ▸ hef)
          rcases ih1 (by
              rw [hfst]
              exact List.mem_append_left _ hef) with ⟨w', hw1, hw2⟩
          rw [addTo_of_not_mem acc t.2.2 t.1 hm] at hw1
          rcases List.mem_append.mp hw1 with h1 | h1
          · refine ⟨w', h1, ?_⟩
            rw [hw2, tripSum_cons, if_neg (fun hh => heq hh.2.symm)]
          · rw [List.mem_singleton] at h1
            exact absurd (congrArg Prod.fst h1) heq
        · intro hef
          by_cases heq : e.1 = t.2.2
          · rcases ih1 (by
                rw [hfst]
                refine List.mem_append_right _ ?_
                rw [List.mem_singleton]
                exact heq) with ⟨w', hw1, hw2⟩
            rw [addTo_of_not_mem acc t.2.2 t.1 hm] at hw1
            rcases List.mem_append.mp hw1 with h1 | h1
            · exact absurd (List.mem_map.mpr ⟨(e.1, w'), h1, rfl⟩) hef
            · rw [List.mem_singleton] at h1
              have h1b : w' = t.1 := by
                injection h1
              rw [hw2, h1b, tripSum_cons, if_pos ⟨ht, heq.symm⟩]
          · have := ih2 (by
              rw [hfst]
              intro hh
              rcases List.mem_append.mp hh with h1 | h1
              · exact hef h1
              · rw [List.mem_singleton] at h1
                exact heq h1)
            rw [this, tripSum_cons, if_neg (fun hh => heq hh.2.symm)]
    · rw [if_neg ht] at he
      rcases ih acc hnod e he with ⟨ih1, ih2⟩
      constructor
      · intro hef
        rcases ih1 hef with ⟨w, hw1, hw2⟩
        refine ⟨w, hw1, ?_⟩
        rw [hw2, tripSum_cons, if_neg (fun hh => ht hh.1)]
      · intro hef
        rw [ih2 hef, tripSum_cons, if_neg (fun hh => ht hh.1)]

/-! ## Claim C9: segment search and positional accumulation -/

theorem segFind_none (j : Nat) : ∀ (c p : Nat) (idx : List Nat) (f : Nat → Nat),
    (∀ q, q < c → idx.getD (p + q) 0 = f q) → (∀ q, q < c → f q ≠ j) →
    segFind idx j p c = none := by
  intro c
  induction c with
  | zero => intro p idx f _ _; rfl
  | succ c ih =>
    intro p idx f hcont hne
    rw [segFind]
    have h0 : idx.getD p 0 = f 0 := by
      have := hcont 0 (Nat.succ_pos c)
      rw [Nat.add_zero] at this
      exact this
    rw [if_neg (by rw [h0]; exact hne 0 (Nat.succ_pos c))]
    refine ih (p + 1) idx (fun q => f (q + 1)) ?_ ?_
    · intro q hq
      have := hcont (q + 1) (by omega)
      rw [show p + (q + 1) = p + 1 + q by omega] at this
      exact this
    · intro q hq
      exact hne (q + 1) (by omega)

theorem segFind_first (j : Nat) : ∀ (c q₀ p : Nat) (idx : List Nat) (f : Nat → Nat),
    q₀ < c → (∀ q, q < c → idx.getD (p + q) 0 = f q) → f q₀ = j →
    (∀ q, q < q₀ → f q ≠ j) →
    segFind idx j p c = some (p + q₀) := by
  intro c
  induction c with
  | zero => intro q₀ p idx f h _ _ _; cases h
  | succ c ih =>
    intro q₀ p idx f hq₀ hcont hhit hne
    rw [segFind]
    have h0 : idx.getD p 0 = f 0 := by
      have := hcont 0 (Nat.succ_pos c)
      rw [Nat.add_zero] at this
      exact this
    cases q₀ with
    | zero =>
      rw [if_pos (by rw [h0]; exact hhit), Nat.add_zero]
    | succ q₁ =>
      rw [if_neg (by rw [h0]; exact hne 0 (Nat.succ_pos q₁))]
      have := ih q₁ (p + 1) idx (fun q => f (q + 1)) (by omega)
        (by
          intro q hq
          have := hcont (q + 1) (by omega)
          rw [show p + (q + 1) = p + 1 + q by omega] at this
          exact this)
        hhit
        (by
          intro q hq
          exact hne (q + 1) (by omega))
      rw [this, show p + 1 + q₁ = p + (q₁ + 1) by omega]

theorem addTo_getD_lt {α : Type} [CommRing α] :
    ∀ (L : List (Nat × α)) (j : Nat) (v : α) (q : Nat), q < L.length →
      (L.getD q (0, 0)).1 ≠ j →
      (addTo L j v).getD q (0, 0) = L.getD q (0, 0) := by
  intro L
  induction L with
  | nil => intro j v q hq _; cases hq
  | cons e rest ih =>
    intro j v q hq hne
    rw [addTo]
    by_cases he : e.1 = j
    · rw [if_pos he]
      cases q with
      | zero => exact absurd he hne
      | succ q => rfl
    · rw [if_neg he]
      cases q with
      | zero => rfl
      | succ q =>
        show (addTo rest j v).getD q (0, 0) = rest.getD q (0, 0)
        exact ih j v q (by
          rw [List.length_cons] at hq
          omega) hne

theorem addTo_getD_hit {α : Type} [CommRing α] :
    ∀ (L : List (Nat × α)) (j : Nat) (v : α) (q : Nat), q < L.length →
      (L.getD q (0, 0)).1 = j → (∀ q', q' < q → (L.getD q' (0, 0)).1 ≠ j) →
      (addTo L j v).getD q (0, 0) = (j, (L.getD q (0, 0)).2 + v) := by
  intro L
  induction L with
  | nil => intro j v q hq _ _; cases hq
  | cons e rest ih =>
    intro j v q hq hhit hne
    rw [addTo]
    by_cases he : e.1 = j
    · rw [if_pos he]
      cases q with
      | zero =>
        show (e.1, e.2 + v) = (j, e.2 + v)
        rw [he]
      | succ q =>
        exact absurd he (hne 0 (Nat.succ_pos q))
    · rw [if_neg he]
      cases q with
      | zero => exact absurd hhit he
      | succ q =>
        show (addTo rest j v).getD q (0, 0) = (j, (rest.getD q (0, 0)).2 + v)
        refine ih j v q (by
          rw [List.length_cons] at hq
          omega) hhit ?_
        intro q' hq'
        exact hne (q' + 1) (by omega)

theorem fst_nodup_getD_inj {α : Type} [CommRing α] (L : List (Nat × α))
    (hnod : (L.map Prod.fst).Nodup) :
    ∀ q q', q < L.length → q' < L.length →
      (L.getD q (0, 0)).1 = (L.getD q' (0, 0)).1 → q = q' := by
  have hp := List.pairwise_iff_getElem.mp hnod
  have hgl : ∀ q, q < L.length → (L.getD q (0, 0)).1 = (L.map Prod.fst).getD q 0 := by
    intro q hq
    rw [List.getD_eq_getElem _ _ hq, List.getD_eq_getElem _ _ (by simpa using hq),
      List.getElem_map]
  intro q q' hq hq' heq
  rw [hgl q hq, hgl q' hq'] at heq
  by_contra hne
  rcases Nat.lt_or_ge q q' with hl | hg
  · refine hp q q' (by simpa using hq) (by simpa using hq') hl ?_
    rw [List.getD_eq_getElem _ _ (by simpa using hq),
      List.getD_eq_getElem _ _ (by simpa using hq')] at heq
    exact heq
  · have hl : q' < q := by omega
    refine hp q' q (by simpa using hq') (by simpa using hq) hl ?_
    rw [List.getD_eq_getElem _ _ (by simpa using hq),
      List.getD_eq_getElem _ _ (by simpa using hq')] at heq
    exact heq.symm

theorem fst_mem_getD {α : Type} [CommRing α] (L : List (Nat × α)) (j : Nat)
    (hj : j ∈ L.map Prod.fst) :
    ∃ q, q < L.length ∧ (L.getD q (0, 0)).1 = j := by
  rcases List.mem_map.mp hj with ⟨e, he, hfst⟩
  rcases List.getElem_of_mem he with ⟨q, hq, hget⟩
  refine ⟨q, hq, ?_⟩
  rw [List.getD_eq_getElem _ _ hq, hget, hfst]

theorem fst_getD_mem {α : Type} [CommRing α] (L : List (Nat × α)) (q : Nat)
    (hq : q < L.length) : (L.getD q (0, 0)).1 ∈ L.map Prod.fst := by
  rw [List.getD_eq_getElem _ _ hq]
  exact List.mem_map.mpr ⟨L[q], List.getElem_mem hq, rfl⟩

/-! ## Claim C9: the accumulation loop invariant -/

theorem ip_mono_of_cap (ip : List Nat) (rows : Nat) (capf : Nat → Nat)
    (hcap : ∀ i, i < rows → ip.getD (i + 1) 0 = ip.getD i 0 + capf i) :
    ∀ b a, a ≤ b → b ≤ rows → ip.getD a 0 ≤ ip.getD b 0 := by
  intro b
  induction b with
  | zero =>
    intro a h _
    cases Nat.le_zero.mp h
    exact Nat.le_refl _
  | succ b ih =>
    intro a hab hb
    rcases Nat.eq_or_lt_of_le hab with he | hl
    · rw [he]
    · have h1 := ih a (by omega) (by omega)
      rw [hcap b (by omega)]
      omega

/-- The accumulation loop of `to_csc` maintains, for every row, the exact
deduplicated `(column, value)` content predicted by `rowSpec`, laid out at
the row's window of the over-allocated arrays. -/
theorem insertAll_inv {α : Type} [CommRing α] (ip : List Nat) (rows N : Nat)
    (capf : Nat → Nat)
    (hcap : ∀ i, i < rows → ip.getD (i + 1) 0 = ip.getD i 0 + capf i)
    (hN : ip.getD rows 0 ≤ N) :
    ∀ (rem done : List (α × Nat × Nat)) (st : CscBuild α),
      (∀ t, t ∈ rem → t.2.1 < rows) →
      st.idx.length = N → st.dat.length = N → st.rc.length = rows + 1 →
      (∀ i, i < rows → st.rc.getD i 0 = (rowSpec i [] done).length) →
      (∀ i, i < rows → (rowSpec i [] done).length +
        (rem.filter (fun t => decide (t.2.1 = i))).length ≤ capf i) →
      (∀ i, i < rows → ∀ q, q < (rowSpec i [] done).length →
        st.idx.getD (ip.getD i 0 + q) 0 = ((rowSpec i [] done).getD q (0, 0)).1 ∧
        st.dat.getD (ip.getD i 0 + q) 0 = ((rowSpec i [] done).getD q (0, 0)).2) →
      (insertAll ip st rem).idx.length = N ∧ (insertAll ip st rem).dat.length = N ∧
      (insertAll ip st rem).rc.length = rows + 1 ∧
      (∀ i, i < rows → (insertAll ip st rem).rc.getD i 0 =
        (rowSpec i [] (done ++ rem)).length) ∧
      (∀ i, i < rows → (rowSpec i [] (done ++ rem)).length ≤ capf i) ∧
      (∀ i, i < rows → ∀ q, q < (rowSpec i [] (done ++ rem)).length →
        (insertAll ip st rem).idx.getD (ip.getD i 0 + q) 0 =
          ((rowSpec i [] (done ++ rem)).getD q (0, 0)).1 ∧
        (insertAll ip st rem).dat.getD (ip.getD i 0 + q) 0 =
          ((rowSpec i [] (done ++ rem)).getD q (0, 0)).2) := by
  have hmono := ip_mono_of_cap ip rows capf hcap
  have hdisj : ∀ i i', i < rows → i' < rows → i ≠ i' → ∀ q q', q < capf i →
      q' < capf i' → ip.getD i 0 + q ≠ ip.getD i' 0 + q' := by
    intro i i' hi hi' hne q q' hq hq'
    rcases Nat.lt_or_ge i i' with hl | hg
    · have h1 := hcap i hi
      have h2 := hmono i' (i + 1) hl (by omega)
      omega
    · have hgt : i' < i := Nat.lt_of_le_of_ne hg (fun hh => hne hh.symm)
      have h1 := hcap i' hi'
      have h2 := hmono i (i' + 1) hgt (by omega)
      omega
  have hwin : ∀ i, i < rows → ∀ q, q < capf i → ip.getD i 0 + q < N := by
    intro i hi q hq
    have h1 := hcap i hi
    have h2 := hmono rows (i + 1) hi (Nat.le_refl _)
    omega
  intro rem
  induction rem with
  | nil =>
    intro done st _ h1 h2 h3 h4 h5 h6
    rw [List.append_nil]
    refine ⟨h1, h2, h3, h4, ?_, h6⟩
    intro i hi
    have := h5 i hi
    rw [List.filter_nil] at this
    rw [List.length_nil] at this
    omega
  | cons t rest ih =>
    intro done st hb h1 h2 h3 h4 h5 h6
    have hi₀ : t.2.1 < rows := hb t (List.mem_cons_self _ _)
    have hcapL : ∀ i, i < rows → (rowSpec i [] done).length ≤ capf i := by
      intro i hi
      have := h5 i hi
      omega
    have hnodL : ∀ i, ((rowSpec i [] done).map Prod.fst).Nodup :=
      fun i => rowSpec_fst_nodup i done [] List.nodup_nil
    have happ : done ++ t :: rest = (done ++ [t]) ++ rest := List.append_cons done t rest
    rw [show insertAll ip st (t :: rest) =
      insertAll ip (insertTriplet ip st t) rest from rfl, happ]
    have hsnoc : ∀ i, rowSpec i [] (done ++ [t]) =
        if t.2.1 = i then addTo (rowSpec i [] done) t.2.2 t.1
        else rowSpec i [] done := fun i => rowSpec_snoc i done [] t
    -- analyse one insertion
    have hcontL := h6 t.2.1 hi₀
    rw [insertTriplet]
    by_cases hm : t.2.2 ∈ (rowSpec t.2.1 [] done).map Prod.fst
    · rcases fst_mem_getD _ _ hm with ⟨q₀, hq₀, hq₀f⟩
      have hfind : segFind st.idx t.2.2 (ip.getD t.2.1 0) (st.rc.getD t.2.1 0) =
          some (ip.getD t.2.1 0 + q₀) := by
        rw [h4 t.2.1 hi₀]
        refine segFind_first t.2.2 (rowSpec t.2.1 [] done).length q₀ _ _
          (fun q => ((rowSpec t.2.1 [] done).getD q (0, 0)).1) hq₀
          (fun q hq => (hcontL q hq).1) hq₀f ?_
        intro q hq hqf
        have hqf2 : ((rowSpec t.2.1 [] done).getD q (0, 0)).1 = t.2.2 := hqf
        have := fst_nodup_getD_inj _ (hnodL t.2.1) q q₀ (by omega) hq₀
          (by rw [hqf2, hq₀f])
        omega
      rw [hfind]
      refine ih (done ++ [t])
        { st with
          dat := st.dat.set (ip.getD t.2.1 0 + q₀)
            (st.dat.getD (ip.getD t.2.1 0 + q₀) 0 + t.1) }
        (fun t' ht' => hb t' (List.mem_cons_of_mem _ ht'))
        h1 (by rw [length_set]; exact h2) h3 ?_ ?_ ?_
      · intro i hi
        rw [hsnoc i]
        by_cases hti : t.2.1 = i
        · rw [if_pos hti, addTo_len_of_mem _ _ _ (by rw [← hti]; exact hm), ← hti]
          exact h4 t.2.1 hi₀
        · rw [if_neg hti]
          exact h4 i hi
      · intro i hi
        rw [hsnoc i]
        have h5i := h5 i hi
        rw [List.filter_cons] at h5i
        by_cases hti : t.2.1 = i
        · rw [if_pos hti, addTo_len_of_mem _ _ _ (by rw [← hti]; exact hm)]
          rw [if_pos (by rw [decide_eq_true_eq]; exact hti), List.length_cons] at h5i
          omega
        · rw [if_neg hti]
          rw [if_neg (by rw [decide_eq_true_eq]; exact hti)] at h5i
          omega
      · intro i hi q hq
        rw [hsnoc i] at hq ⊢
        by_cases hti : t.2.1 = i
        · rw [if_pos hti] at hq ⊢
          rw [← hti] at hq hi ⊢
          rw [addTo_len_of_mem _ _ _ hm] at hq
          by_cases hqq : q = q₀
          · subst hqq
            rw [addTo_getD_hit _ _ _ q hq hq₀f (by
              intro q' hq'
              intro hf
              have := fst_nodup_getD_inj _ (hnodL t.2.1) q' q (by omega) hq
                (by rw [hf, hq₀f])
              omega)]
            show st.idx.getD (ip.getD t.2.1 0 + q) 0 = t.2.2 ∧
              (st.dat.set (ip.getD t.2.1 0 + q)
                (st.dat.getD (ip.getD t.2.1 0 + q) 0 + t.1)).getD
                  (ip.getD t.2.1 0 + q) 0 =
                ((rowSpec t.2.1 [] done).getD q (0, 0)).2 + t.1
            constructor
            · rw [(hcontL q hq).1, hq₀f]
            · rw [getD_set_self _ _ _ _ (by
                rw [h2]
                exact hwin t.2.1 hi q (by
                  have := hcapL t.2.1 hi
                  omega)), (hcontL q hq).2]
          · rw [addTo_getD_lt _ _ _ q hq (by
              intro hf
              have := fst_nodup_getD_inj _ (hnodL t.2.1) q q₀ hq hq₀
                (by rw [hf, hq₀f])
              exact hqq this)]
            refine ⟨(hcontL q hq).1, ?_⟩
            show (st.dat.set (ip.getD t.2.1 0 + q₀)
                (st.dat.getD (ip.getD t.2.1 0 + q₀) 0 + t.1)).getD
                  (ip.getD t.2.1 0 + q) 0 =
              ((rowSpec t.2.1 [] done).getD q (0, 0)).2
            rw [getD_set_ne _ _ _ (by omega)]
            exact (hcontL q hq).2
        · rw [if_neg hti] at hq ⊢
          refine ⟨(h6 i hi q hq).1, ?_⟩
          show (st.dat.set (ip.getD t.2.1 0 + q₀)
              (st.dat.getD (ip.getD t.2.1 0 + q₀) 0 + t.1)).getD
                (ip.getD i 0 + q) 0 =
            ((rowSpec i [] done).getD q (0, 0)).2
          rw [getD_set_ne _ _ _ (hdisj t.2.1 i hi₀ hi hti q₀ q
            (by
              have := hcapL t.2.1 hi₀
              omega)
            (by
              have := hcapL i hi
              omega))]
          exact (h6 i hi q hq).2
    · have hfind : segFind st.idx t.2.2 (ip.getD t.2.1 0) (st.rc.getD t.2.1 0) =
          none := by
        rw [h4 t.2.1 hi₀]
        refine segFind_none t.2.2 (rowSpec t.2.1 [] done).length _ _
          (fun q => ((rowSpec t.2.1 [] done).getD q (0, 0)).1)
          (fun q hq => (hcontL q hq).1) ?_
        intro q hq hf
        have hf2 : ((rowSpec t.2.1 [] done).getD q (0, 0)).1 = t.2.2 := hf
        exact hm (hf2 ▸ fst_getD_mem _ q hq)
      rw [hfind]
      have hroom : (rowSpec t.2.1 [] done).length < capf t.2.1 := by
        have := h5 t.2.1 hi₀
        rw [List.filter_cons, if_pos (by rw [decide_eq_true_eq]), List.length_cons] at this
        omega
      have hstopN : ip.getD t.2.1 0 + (rowSpec t.2.1 [] done).length < N :=
        hwin t.2.1 hi₀ _ hroom
      have haddL : addTo (rowSpec t.2.1 [] done) t.2.2 t.1 =
          rowSpec t.2.1 [] done ++ [(t.2.2, t.1)] :=
        addTo_of_not_mem _ _ _ hm
      refine ih (done ++ [t])
        ⟨st.idx.set (ip.getD t.2.1 0 + st.rc.getD t.2.1 0) t.2.2,
          st.dat.set (ip.getD t.2.1 0 + st.rc.getD t.2.1 0) t.1,
          st.rc.set t.2.1 (st.rc.getD t.2.1 0 + 1)⟩
        (fun t' ht' => hb t' (List.mem_cons_of_mem _ ht'))
        (by
          show (st.idx.set _ _).length = N
          rw [length_set]
          exact h1)
        (by
          show (st.dat.set _ _).length = N
          rw [length_set]
          exact h2)
        (by
          show (st.rc.set _ _).length = rows + 1
          rw [length_set]
          exact h3) ?_ ?_ ?_
      · intro i hi
        rw [hsnoc i]
        by_cases hti : t.2.1 = i
        · rw [if_pos hti, ← hti]
          show (st.rc.set t.2.1 (st.rc.getD t.2.1 0 + 1)).getD t.2.1 0 =
            (addTo (rowSpec t.2.1 [] done) t.2.2 t.1).length
          rw [getD_set_self _ _ _ _ (by rw [h3]; omega), haddL, List.length_append,
            List.length_singleton, h4 t.2.1 hi₀]
        · rw [if_neg hti]
          show (st.rc.set t.2.1 (st.rc.getD t.2.1 0 + 1)).getD i 0 =
            (rowSpec i [] done).length
          rw [getD_set_ne _ _ _ hti]
          exact h4 i hi
      · intro i hi
        rw [hsnoc i]
        have h5i := h5 i hi
        rw [List.filter_cons] at h5i
        by_cases hti : t.2.1 = i
        · rw [if_pos hti]
          rw [if_pos (by rw [decide_eq_true_eq]; exact hti), List.length_cons] at h5i
          rw [← hti, haddL, List.length_append, List.length_singleton]
          rw [← hti] at h5i
          omega
        · rw [if_neg hti]
          rw [if_neg (by rw [decide_eq_true_eq]; exact hti)] at h5i
          omega
      · intro i hi q hq
        rw [hsnoc i] at hq ⊢
        by_cases hti : t.2.1 = i
        · rw [if_pos hti] at hq ⊢
          rw [← hti] at hq hi ⊢
          rw [haddL] at hq ⊢
          rw [List.length_append, List.length_singleton] at hq
          rcases Nat.lt_or_ge q (rowSpec t.2.1 [] done).length with hql | hqg
          · rw [List.getD_append _ _ _ _ hql]
            constructor
            · show (st.idx.set (ip.getD t.2.1 0 + st.rc.getD t.2.1 0) t.2.2).getD
                (ip.getD t.2.1 0 + q) 0 = ((rowSpec t.2.1 [] done).getD q (0, 0)).1
              rw [h4 t.2.1 hi₀, getD_set_ne _ _ _ (by omega)]
              exact (hcontL q hql).1
            · show (st.dat.set (ip.getD t.2.1 0 + st.rc.getD t.2.1 0) t.1).getD
                (ip.getD t.2.1 0 + q) 0 = ((rowSpec t.2.1 [] done).getD q (0, 0)).2
              rw [h4 t.2.1 hi₀, getD_set_ne _ _ _ (by omega)]
              exact (hcontL q hql).2
          · have hqe : q = (rowSpec t.2.1 [] done).length := by omega
            subst hqe
            have hga := List.getD_append_right (rowSpec t.2.1 [] done) [(t.2.2, t.1)]
              ((0 : Nat), (0 : α)) (rowSpec t.2.1 [] done).length (Nat.le_refl _)
            rw [hga, Nat.sub_self]
            constructor
            · show (st.idx.set (ip.getD t.2.1 0 + st.rc.getD t.2.1 0) t.2.2).getD
                (ip.getD t.2.1 0 + (rowSpec t.2.1 [] done).length) 0 = t.2.2
              rw [h4 t.2.1 hi₀, getD_set_self _ _ _ _ (by rw [h1]; exact hstopN)]
            · show (st.dat.set (ip.getD t.2.1 0 + st.rc.getD t.2.1 0) t.1).getD
                (ip.getD t.2.1 0 + (rowSpec t.2.1 [] done).length) 0 = t.1
              rw [h4 t.2.1 hi₀, getD_set_self _ _ _ _ (by rw [h2]; exact hstopN)]
        · rw [if_neg hti] at hq ⊢
          have hne := hdisj t.2.1 i hi₀ hi hti (st.rc.getD t.2.1 0) q
            (by
              rw [h4 t.2.1 hi₀]
              exact hroom)
            (by
              have := hcapL i hi
              omega)
          constructor
          · show (st.idx.set (ip.getD t.2.1 0 + st.rc.getD t.2.1 0) t.2.2).getD
              (ip.getD i 0 + q) 0 = ((rowSpec i [] done).getD q (0, 0)).1
            rw [getD_set_ne _ _ _ hne]
            exact (h6 i hi q hq).1
          · show (st.dat.set (ip.getD t.2.1 0 + st.rc.getD t.2.1 0) t.1).getD
              (ip.getD i 0 + q) 0 = ((rowSpec i [] done).getD q (0, 0)).2
            rw [getD_set_ne _ _ _ hne]
            exact (h6 i hi q hq).2

/-! ## Claim C9: the arrays after the accumulation loop -/

theorem count_filter_len (i : Nat) : ∀ (r : List Nat),
    r.count i = (r.filter (fun x => decide (x = i))).length := by
  intro r
  induction r with
  | nil => rfl
  | cons a t ih =>
    rw [List.count_cons, List.filter_cons, ih]
    by_cases h : a = i
    · rw [if_pos (by rw [beq_iff_eq]; exact h),
        if_pos (by rw [decide_eq_true_eq]; exact h), List.length_cons]
    · rw [if_neg (by rw [beq_iff_eq]; exact h),
        if_neg (by rw [decide_eq_true_eq]; exact h)]
      omega

theorem tripList_filter_len {α : Type} [CommRing α] (i : Nat) :
    ∀ (d : List α) (r c : List Nat), r.length = d.length → c.length = d.length →
      ((d.zip (r.zip c)).filter (fun t => decide (t.2.1 = i))).length =
        (r.filter (fun x => decide (x = i))).length := by
  intro d
  induction d with
  | nil =>
    intro r c h1 h2
    have hr : r = [] := List.eq_nil_of_length_eq_zero h1
    subst hr
    rfl
  | cons a d ih =>
    intro r c h1 h2
    cases r with
    | nil =>
      rw [List.length_nil, List.length_cons] at h1
      exact absurd h1 (by omega)
    | cons r₀ r =>
      cases c with
      | nil =>
        rw [List.length_nil, List.length_cons] at h2
        exact absurd h2 (by omega)
      | cons c₀ c =>
        rw [List.length_cons, List.length_cons] at h1 h2
        show (((a, (r₀, c₀)) :: d.zip (r.zip c)).filter
            (fun t => decide (t.2.1 = i))).length =
          ((r₀ :: r).filter (fun x => decide (x = i))).length
        rw [List.filter_cons, List.filter_cons]
        by_cases h : r₀ = i
        · rw [if_pos (by rw [decide_eq_true_eq]; exact h),
            if_pos (show decide (((a, (r₀, c₀)).2.1 = i)) = true by
              rw [decide_eq_true_eq]
              exact h),
            List.length_cons, List.length_cons, ih r c (by omega) (by omega)]
        · rw [if_neg (by rw [decide_eq_true_eq]; exact h),
            if_neg (show ¬ decide (((a, (r₀, c₀)).2.1 = i)) = true by
              rw [decide_eq_true_eq]
              exact h),
            ih r c (by omega) (by omega)]

theorem tripIndptr_zero {α : Type} (T : TripletMat α)
    (hr : ∀ i, i ∈ T.row_inds → i < T.rows) : (tripIndptr T).getD 0 0 = 0 := by
  rw [tripIndptr_getD T hr 0 (Nat.zero_le _)]
  rfl

theorem tripIndptr_cap {α : Type} (T : TripletMat α)
    (hr : ∀ i, i ∈ T.row_inds → i < T.rows) :
    ∀ i, i < T.rows →
      (tripIndptr T).getD (i + 1) 0 = (tripIndptr T).getD i 0 + T.row_inds.count i := by
  intro i hi
  rw [tripIndptr_getD T hr (i + 1) (by omega), tripIndptr_getD T hr i (by omega)]
  rfl

theorem tripBuilt_spec {α : Type} [CommRing α] (T : TripletMat α)
    (hlen1 : T.row_inds.length = T.data.length)
    (hlen2 : T.col_inds.length = T.data.length)
    (hr : ∀ i, i ∈ T.row_inds → i < T.rows) :
    (tripBuilt T).idx.length = tripNnzMax T ∧
    (tripBuilt T).dat.length = tripNnzMax T ∧
    (tripBuilt T).rc.length = T.rows + 1 ∧
    (∀ i, i < T.rows →
      (tripBuilt T).rc.getD i 0 = (rowSpec i [] (tripList T)).length) ∧
    (∀ i, i < T.rows →
      (rowSpec i [] (tripList T)).length ≤ T.row_inds.count i) ∧
    (∀ i, i < T.rows → ∀ q, q < (rowSpec i [] (tripList T)).length →
      (tripBuilt T).idx.getD ((tripIndptr T).getD i 0 + q) 0 =
        ((rowSpec i [] (tripList T)).getD q (0, 0)).1 ∧
      (tripBuilt T).dat.getD ((tripIndptr T).getD i 0 + q) 0 =
        ((rowSpec i [] (tripList T)).getD q (0, 0)).2) := by
  have hmain := insertAll_inv (tripIndptr T) T.rows (tripNnzMax T)
    (fun u => T.row_inds.count u) (tripIndptr_cap T hr) (Nat.le_refl _)
    (tripList T) []
    ⟨List.replicate (tripNnzMax T) 0, List.replicate (tripNnzMax T) 0,
      List.replicate (T.rows + 1) 0⟩
    (by
      intro t ht
      have h2 := (List.of_mem_zip ht).2
      exact hr t.2.1 (List.of_mem_zip h2).1)
    (List.length_replicate _ _)
    (List.length_replicate _ _)
    (List.length_replicate _ _)
    (by
      intro i hi
      show (List.replicate (T.rows + 1) 0).getD i 0 =
        (rowSpec i ([] : List (Nat × α)) []).length
      rw [getD_replicate_self]
      rfl)
    (by
      intro i hi
      show (rowSpec i ([] : List (Nat × α)) []).length +
        ((tripList T).filter (fun t => decide (t.2.1 = i))).length ≤
          T.row_inds.count i
      rw [count_filter_len]
      have hfl : ((tripList T).filter (fun t => decide (t.2.1 = i))).length =
          (T.row_inds.filter (fun x => decide (x = i))).length :=
        tripList_filter_len i T.data T.row_inds T.col_inds hlen1 hlen2
      have hz : (rowSpec i ([] : List (Nat × α)) []).length = 0 := rfl
      omega)
    (by
      intro i hi q hq
      have hz : (rowSpec i ([] : List (Nat × α)) []).length = 0 := rfl
      rw [hz] at hq
      exact absurd hq (Nat.not_lt_zero q))
  rw [List.nil_append] at hmain
  exact hmain

/-! ## Claim C9: the compression phase -/

theorem natPrefix_le_of_cap (ip : List Nat) (rows : Nat) (lenf capf : Nat → Nat)
    (h0 : ip.getD 0 0 = 0)
    (hcap : ∀ i, i < rows → ip.getD (i + 1) 0 = ip.getD i 0 + capf i)
    (hle : ∀ i, i < rows → lenf i ≤ capf i) :
    ∀ t, t ≤ rows → natPrefix lenf t ≤ ip.getD t 0 := by
  intro t
  induction t with
  | zero =>
    intro _
    have hz : natPrefix lenf 0 = 0 := rfl
    omega
  | succ t ih =>
    intro ht
    have h1 := ih (by omega)
    have h2 := hcap t (by omega)
    have h3 := hle t (by omega)
    have h4 : natPrefix lenf (t + 1) = natPrefix lenf t + lenf t := rfl
    omega

theorem copySeg_spec {α : Type} [CommRing α] (dst src : Nat) (h : dst ≤ src) :
    ∀ (k : Nat) (idx : List Nat) (dat : List α),
      dst + k ≤ idx.length → dst + k ≤ dat.length →
      (copySeg dst src k idx dat).1.length = idx.length ∧
      (copySeg dst src k idx dat).2.length = dat.length ∧
      (∀ p, p < dst ∨ dst + k ≤ p →
        (copySeg dst src k idx dat).1.getD p 0 = idx.getD p 0 ∧
        (copySeg dst src k idx dat).2.getD p 0 = dat.getD p 0) ∧
      (∀ q, q < k →
        (copySeg dst src k idx dat).1.getD (dst + q) 0 = idx.getD (src + q) 0 ∧
        (copySeg dst src k idx dat).2.getD (dst + q) 0 = dat.getD (src + q) 0) := by
  intro k
  induction k with
  | zero =>
    intro idx dat _ _
    exact ⟨rfl, rfl, fun p _ => ⟨rfl, rfl⟩, fun q hq => absurd hq (Nat.not_lt_zero q)⟩
  | succ k ih =>
    intro idx dat hlen1 hlen2
    rcases ih idx dat (by omega) (by omega) with ⟨ih1, ih2, ih3, ih4⟩
    have hstep : copySeg dst src (k + 1) idx dat =
        ((copySeg dst src k idx dat).1.set (dst + k)
            ((copySeg dst src k idx dat).1.getD (src + k) 0),
          (copySeg dst src k idx dat).2.set (dst + k)
            ((copySeg dst src k idx dat).2.getD (src + k) 0)) := rfl
    have hread := ih3 (src + k) (Or.inr (by omega))
    refine ⟨?_, ?_, ?_, ?_⟩
    · rw [hstep]
      show ((copySeg dst src k idx dat).1.set (dst + k)
        ((copySeg dst src k idx dat).1.getD (src + k) 0)).length = idx.length
      rw [length_set, ih1]
    · rw [hstep]
      show ((copySeg dst src k idx dat).2.set (dst + k)
        ((copySeg dst src k idx dat).2.getD (src + k) 0)).length = dat.length
      rw [length_set, ih2]
    · intro p hp
      rw [hstep]
      constructor
      · show ((copySeg dst src k idx dat).1.set (dst + k)
          ((copySeg dst src k idx dat).1.getD (src + k) 0)).getD p 0 = idx.getD p 0
        rw [getD_set_ne _ _ _ (by omega)]
        exact (ih3 p (by omega)).1
      · show ((copySeg dst src k idx dat).2.set (dst + k)
          ((copySeg dst src k idx dat).2.getD (src + k) 0)).getD p 0 = dat.getD p 0
        rw [getD_set_ne _ _ _ (by omega)]
        exact (ih3 p (by omega)).2
    · intro q hq
      rw [hstep]
      rcases Nat.lt_or_ge q k with hql | hqg
      · constructor
        · show ((copySeg dst src k idx dat).1.set (dst + k)
            ((copySeg dst src k idx dat).1.getD (src + k) 0)).getD (dst + q) 0 =
            idx.getD (src + q) 0
          rw [getD_set_ne _ _ _ (by omega)]
          exact (ih4 q hql).1
        · show ((copySeg dst src k idx dat).2.set (dst + k)
            ((copySeg dst src k idx dat).2.getD (src + k) 0)).getD (dst + q) 0 =
            dat.getD (src + q) 0
          rw [getD_set_ne _ _ _ (by omega)]
          exact (ih4 q hql).2
      · have hqe : q = k := by omega
        subst hqe
        constructor
        · show ((copySeg dst src q idx dat).1.set (dst + q)
            ((copySeg dst src q idx dat).1.getD (src + q) 0)).getD (dst + q) 0 =
            idx.getD (src + q) 0
          rw [getD_set_self _ _ _ _ (by rw [ih1]; omega)]
          exact hread.1
        · show ((copySeg dst src q idx dat).2.set (dst + q)
            ((copySeg dst src q idx dat).2.getD (src + q) 0)).getD (dst + q) 0 =
            dat.getD (src + q) 0
          rw [getD_set_self _ _ _ _ (by rw [ih2]; omega)]
          exact hread.2

theorem compressStep_of_ne {α : Type} [CommRing α] (rc : List Nat) (i : Nat)
    (st : CompState α) (h : st.ip.getD i 0 ≠ st.dst) :
    compressStep rc i st =
      ⟨(copySeg st.dst (st.ip.getD i 0) (rc.getD i 0) st.idx st.dat).1,
        (copySeg st.dst (st.ip.getD i 0) (rc.getD i 0) st.idx st.dat).2,
        st.ip.set i st.dst, st.dst + rc.getD i 0⟩ := by
  unfold compressStep
  rw [if_pos h]

theorem compressStep_of_eq {α : Type} [CommRing α] (rc : List Nat) (i : Nat)
    (st : CompState α) (h : ¬ st.ip.getD i 0 ≠ st.dst) :
    compressStep rc i st = ⟨st.idx, st.dat, st.ip.set i st.dst, st.dst + rc.getD i 0⟩ := by
  unfold compressStep
  rw [if_neg h]

/-- The compression loop of `to_csc` slides each stored row segment down to
the compacted position given by the prefix sums of the final row counts,
preserving the segment contents, and rewrites `indptr` in place. -/
theorem compressRun_inv {α : Type} [CommRing α]
    (ip rc : List Nat) (rows N : Nat) (lenf capf : Nat → Nat)
    (gi : Nat → Nat → Nat) (gd : Nat → Nat → α)
    (hiplen : ip.length = rows + 1)
    (h0 : ip.getD 0 0 = 0)
    (hcap : ∀ i, i < rows → ip.getD (i + 1) 0 = ip.getD i 0 + capf i)
    (hle : ∀ i, i < rows → lenf i ≤ capf i)
    (hN : ip.getD rows 0 ≤ N)
    (hrc : ∀ i, i < rows → rc.getD i 0 = lenf i)
    (st0 : CompState α)
    (hidx0 : st0.idx.length = N) (hdat0 : st0.dat.length = N)
    (hip0 : st0.ip = ip) (hdst0 : st0.dst = 0)
    (hcont0 : ∀ i, i < rows → ∀ q, q < lenf i →
      st0.idx.getD (ip.getD i 0 + q) 0 = gi i q ∧
      st0.dat.getD (ip.getD i 0 + q) 0 = gd i q) :
    ∀ k, k ≤ rows →
      (compressRun rc st0 k).idx.length = N ∧
      (compressRun rc st0 k).dat.length = N ∧
      (compressRun rc st0 k).ip.length = rows + 1 ∧
      (compressRun rc st0 k).dst = natPrefix lenf k ∧
      (∀ i, i < k → (compressRun rc st0 k).ip.getD i 0 = natPrefix lenf i) ∧
      (∀ i, k ≤ i → i ≤ rows → (compressRun rc st0 k).ip.getD i 0 = ip.getD i 0) ∧
      (∀ i, i < k → ∀ q, q < lenf i →
        (compressRun rc st0 k).idx.getD (natPrefix lenf i + q) 0 = gi i q ∧
        (compressRun rc st0 k).dat.getD (natPrefix lenf i + q) 0 = gd i q) ∧
      (∀ i, k ≤ i → i < rows → ∀ q, q < lenf i →
        (compressRun rc st0 k).idx.getD (ip.getD i 0 + q) 0 = gi i q ∧
        (compressRun rc st0 k).dat.getD (ip.getD i 0 + q) 0 = gd i q) := by
  have hmono := ip_mono_of_cap ip rows capf hcap
  have hpre := natPrefix_le_of_cap ip rows lenf capf h0 hcap hle
  intro k
  induction k with
  | zero =>
    intro _
    refine ⟨hidx0, hdat0, ?_, ?_, ?_, ?_, ?_, ?_⟩
    · show st0.ip.length = rows + 1
      rw [hip0, hiplen]
    · show st0.dst = natPrefix lenf 0
      exact hdst0
    · intro i hi
      exact absurd hi (Nat.not_lt_zero i)
    · intro i _ _
      show st0.ip.getD i 0 = ip.getD i 0
      rw [hip0]
    · intro i hi
      exact absurd hi (Nat.not_lt_zero i)
    · intro i _ hi q hq
      exact hcont0 i hi q hq
  | succ k ih =>
    intro hk
    rcases ih (by omega) with ⟨ih1, ih2, ih3, ih4, ih5, ih6, ih7, ih8⟩
    have hkrows : k < rows := by omega
    have hsrc : (compressRun rc st0 k).ip.getD k 0 = ip.getD k 0 :=
      ih6 k (Nat.le_refl k) (by omega)
    have hrck : rc.getD k 0 = lenf k := hrc k hkrows
    have hsle : natPrefix lenf k ≤ ip.getD k 0 := hpre k (by omega)
    have hstep1 : natPrefix lenf (k + 1) = natPrefix lenf k + lenf k := rfl
    have hbound : natPrefix lenf k + lenf k ≤ N := by
      have hb1 := hpre (k + 1) (by omega)
      have hb2 := hmono rows (k + 1) (by omega) (Nat.le_refl rows)
      have hb3 : natPrefix lenf (k + 1) = natPrefix lenf k + lenf k := rfl
      omega
    have hipk1 : ip.getD (k + 1) 0 = ip.getD k 0 + capf k := hcap k hkrows
    have hlek := hle k hkrows
    have hrun : compressRun rc st0 (k + 1) = compressStep rc k (compressRun rc st0 k) := rfl
    by_cases hcase : (compressRun rc st0 k).ip.getD k 0 ≠ (compressRun rc st0 k).dst
    · rw [hrun, compressStep_of_ne rc k _ hcase, hsrc, ih4, hrck]
      rcases copySeg_spec (natPrefix lenf k) (ip.getD k 0) hsle (lenf k)
        (compressRun rc st0 k).idx (compressRun rc st0 k).dat
        (by rw [ih1]; exact hbound) (by rw [ih2]; exact hbound) with ⟨cs1, cs2, cs3, cs4⟩
      refine ⟨?_, ?_, ?_, ?_, ?_, ?_, ?_, ?_⟩
      · show (copySeg (natPrefix lenf k) (ip.getD k 0) (lenf k)
          (compressRun rc st0 k).idx (compressRun rc st0 k).dat).1.length = N
        rw [cs1, ih1]
      · show (copySeg (natPrefix lenf k) (ip.getD k 0) (lenf k)
          (compressRun rc st0 k).idx (compressRun rc st0 k).dat).2.length = N
        rw [cs2, ih2]
      · show ((compressRun rc st0 k).ip.set k (natPrefix lenf k)).length = rows + 1
        rw [length_set, ih3]
      · show natPrefix lenf k + lenf k = natPrefix lenf (k + 1)
        omega
      · intro i hi
        show ((compressRun rc st0 k).ip.set k (natPrefix lenf k)).getD i 0 =
          natPrefix lenf i
        by_cases hik : i = k
        · subst hik
          rw [getD_set_self _ _ _ _ (by rw [ih3]; omega)]
        · rw [getD_set_ne _ _ _ (fun hh => hik hh.symm)]
          exact ih5 i (by omega)
      · intro i hi1 hi2
        show ((compressRun rc st0 k).ip.set k (natPrefix lenf k)).getD i 0 = ip.getD i 0
        rw [getD_set_ne _ _ _ (by omega)]
        exact ih6 i (by omega) hi2
      · intro i hi q hq
        by_cases hik : i = k
        · subst hik
          constructor
          · show (copySeg (natPrefix lenf i) (ip.getD i 0) (lenf i)
              (compressRun rc st0 i).idx (compressRun rc st0 i).dat).1.getD
                (natPrefix lenf i + q) 0 = gi i q
            rw [(cs4 q hq).1]
            exact (ih8 i (Nat.le_refl i) hkrows q hq).1
          · show (copySeg (natPrefix lenf i) (ip.getD i 0) (lenf i)
              (compressRun rc st0 i).idx (compressRun rc st0 i).dat).2.getD
                (natPrefix lenf i + q) 0 = gd i q
            rw [(cs4 q hq).2]
            exact (ih8 i (Nat.le_refl i) hkrows q hq).2
        · have hil : i < k := by omega
          have hout : natPrefix lenf i + q < natPrefix lenf k := by
            have hm1 : natPrefix lenf (i + 1) ≤ natPrefix lenf k :=
              natPrefix_mono lenf (i + 1) k hil
            have hs2 : natPrefix lenf (i + 1) = natPrefix lenf i + lenf i := rfl
            omega
          constructor
          · show (copySeg (natPrefix lenf k) (ip.getD k 0) (lenf k)
              (compressRun rc st0 k).idx (compressRun rc st0 k).dat).1.getD
                (natPrefix lenf i + q) 0 = gi i q
            rw [(cs3 (natPrefix lenf i + q) (Or.inl hout)).1]
            exact (ih7 i hil q hq).1
          · show (copySeg (natPrefix lenf k) (ip.getD k 0) (lenf k)
              (compressRun rc st0 k).idx (compressRun rc st0 k).dat).2.getD
                (natPrefix lenf i + q) 0 = gd i q
            rw [(cs3 (natPrefix lenf i + q) (Or.inl hout)).2]
            exact (ih7 i hil q hq).2
      · intro i hi1 hi2 q hq
        have hm1 := hmono i (k + 1) hi1 (by omega)
        have hout : natPrefix lenf k + lenf k ≤ ip.getD i 0 + q := by omega
        constructor
        · show (copySeg (natPrefix lenf k) (ip.getD k 0) (lenf k)
            (compressRun rc st0 k).idx (compressRun rc st0 k).dat).1.getD
              (ip.getD i 0 + q) 0 = gi i q
          rw [(cs3 (ip.getD i 0 + q) (Or.inr hout)).1]
          exact (ih8 i (by omega) hi2 q hq).1
        · show (copySeg (natPrefix lenf k) (ip.getD k 0) (lenf k)
            (compressRun rc st0 k).idx (compressRun rc st0 k).dat).2.getD
              (ip.getD i 0 + q) 0 = gd i q
          rw [(cs3 (ip.getD i 0 + q) (Or.inr hout)).2]
          exact (ih8 i (by omega) hi2 q hq).2
    · have heq : (compressRun rc st0 k).ip.getD k 0 = (compressRun rc st0 k).dst :=
        not_not.mp hcase
      have heq2 : ip.getD k 0 = natPrefix lenf k := by
        rw [← hsrc, heq, ih4]
      rw [hrun, compressStep_of_eq rc k _ hcase, ih4, hrck]
      refine ⟨?_, ?_, ?_, ?_, ?_, ?_, ?_, ?_⟩
      · show (compressRun rc st0 k).idx.length = N
        exact ih1
      · show (compressRun rc st0 k).dat.length = N
        exact ih2
      · show ((compressRun rc st0 k).ip.set k (natPrefix lenf k)).length = rows + 1
        rw [length_set, ih3]
      · show natPrefix lenf k + lenf k = natPrefix lenf (k + 1)
        omega
      · intro i hi
        show ((compressRun rc st0 k).ip.set k (natPrefix lenf k)).getD i 0 =
          natPrefix lenf i
        by_cases hik : i = k
        · subst hik
          rw [getD_set_self _ _ _ _ (by rw [ih3]; omega)]
        · rw [getD_set_ne _ _ _ (fun hh => hik hh.symm)]
          exact ih5 i (by omega)
      · intro i hi1 hi2
        show ((compressRun rc st0 k).ip.set k (natPrefix lenf k)).getD i 0 = ip.getD i 0
        rw [getD_set_ne _ _ _ (by omega)]
        exact ih6 i (by omega) hi2
      · intro i hi q hq
        by_cases hik : i = k
        · subst hik
          constructor
          · show (compressRun rc st0 i).idx.getD (natPrefix lenf i + q) 0 = gi i q
            rw [← heq2]
            exact (ih8 i (Nat.le_refl i) hkrows q hq).1
          · show (compressRun rc st0 i).dat.getD (natPrefix lenf i + q) 0 = gd i q
            rw [← heq2]
            exact (ih8 i (Nat.le_refl i) hkrows q hq).2
        · have hil : i < k := by omega
          exact ih7 i hil q hq
      · intro i hi1 hi2 q hq
        exact ih8 i (by omega) hi2 q hq

theorem tripComp_spec {α : Type} [CommRing α] (T : TripletMat α)
    (hlen1 : T.row_inds.length = T.data.length)
    (hlen2 : T.col_inds.length = T.data.length)
    (hr : ∀ i, i ∈ T.row_inds → i < T.rows) :
    (tripComp T).idx.length = tripNnzMax T ∧
    (tripComp T).dat.length = tripNnzMax T ∧
    (tripComp T).ip.length = T.rows + 1 ∧
    (tripComp T).dst =
      natPrefix (fun u => (rowSpec u [] (tripList T)).length) T.rows ∧
    (∀ i, i < T.rows → (tripComp T).ip.getD i 0 =
      natPrefix (fun u => (rowSpec u [] (tripList T)).length) i) ∧
    (∀ i, i < T.rows → ∀ q, q < (rowSpec i [] (tripList T)).length →
      (tripComp T).idx.getD
        (natPrefix (fun u => (rowSpec u [] (tripList T)).length) i + q) 0 =
        ((rowSpec i [] (tripList T)).getD q (0, 0)).1 ∧
      (tripComp T).dat.getD
        (natPrefix (fun u => (rowSpec u [] (tripList T)).length) i + q) 0 =
        ((rowSpec i [] (tripList T)).getD q (0, 0)).2) := by
  rcases tripBuilt_spec T hlen1 hlen2 hr with ⟨b1, b2, b3, b4, b5, b6⟩
  rcases compressRun_inv (tripIndptr T) (tripBuilt T).rc T.rows (tripNnzMax T)
    (fun u => (rowSpec u [] (tripList T)).length) (fun u => T.row_inds.count u)
    (fun i q => ((rowSpec i [] (tripList T)).getD q (0, 0)).1)
    (fun i q => ((rowSpec i [] (tripList T)).getD q (0, 0)).2)
    (tripIndptr_len T) (tripIndptr_zero T hr) (tripIndptr_cap T hr)
    b5 (Nat.le_refl _) b4
    ⟨(tripBuilt T).idx, (tripBuilt T).dat, tripIndptr T, (tripIndptr T).getD 0 0⟩
    b1 b2 rfl (tripIndptr_zero T hr) b6 T.rows (Nat.le_refl T.rows)
    with ⟨m1, m2, m3, m4, m5, m6, m7, m8⟩
  exact ⟨m1, m2, m3, m4, m5, m7⟩

theorem tripFinalIp_spec {α : Type} [CommRing α] (T : TripletMat α)
    (hlen1 : T.row_inds.length = T.data.length)
    (hlen2 : T.col_inds.length = T.data.length)
    (hr : ∀ i, i ∈ T.row_inds → i < T.rows) :
    (tripFinalIp T).length = T.rows + 1 ∧
    (∀ t, t ≤ T.rows → (tripFinalIp T).getD t 0 =
      natPrefix (fun u => (rowSpec u [] (tripList T)).length) t) := by
  rcases tripComp_spec T hlen1 hlen2 hr with ⟨c1, c2, c3, c4, c5, c6⟩
  constructor
  · show ((tripComp T).ip.set T.rows (tripComp T).dst).length = T.rows + 1
    rw [length_set, c3]
  · intro t ht
    show ((tripComp T).ip.set T.rows (tripComp T).dst).getD t 0 =
      natPrefix (fun u => (rowSpec u [] (tripList T)).length) t
    rcases Nat.eq_or_lt_of_le ht with heq | hlt
    · subst heq
      rw [getD_set_self _ _ _ _ (by rw [c3]; omega)]
      exact c4
    · rw [getD_set_ne _ _ _ (by omega)]
      exact c5 t hlt

theorem rowSeg_final {α : Type} [CommRing α] (T : TripletMat α)
    (hlen1 : T.row_inds.length = T.data.length)
    (hlen2 : T.col_inds.length = T.data.length)
    (hr : ∀ i, i ∈ T.row_inds → i < T.rows) :
    ∀ i, i < T.rows →
      rowSegOf (tripFinalIp T) (tripComp T).idx (tripComp T).dat i =
        rowSpec i [] (tripList T) := by
  rcases tripComp_spec T hlen1 hlen2 hr with ⟨c1, c2, c3, c4, c5, c6⟩
  rcases tripFinalIp_spec T hlen1 hlen2 hr with ⟨f1, f2⟩
  have hub : ∀ t, t ≤ T.rows →
      natPrefix (fun u => (rowSpec u [] (tripList T)).length) t ≤ tripNnzMax T := by
    intro t ht
    have h1 := natPrefix_le_of_cap (tripIndptr T) T.rows
      (fun u => (rowSpec u [] (tripList T)).length) (fun u => T.row_inds.count u)
      (tripIndptr_zero T hr) (tripIndptr_cap T hr)
      (tripBuilt_spec T hlen1 hlen2 hr).2.2.2.2.1 t ht
    have h2 := ip_mono_of_cap (tripIndptr T) T.rows (fun u => T.row_inds.count u)
      (tripIndptr_cap T hr) T.rows t ht (Nat.le_refl _)
    have h3 : (tripIndptr T).getD T.rows 0 = tripNnzMax T := rfl
    omega
  intro i hi
  have hs := f2 i (by omega)
  have he := f2 (i + 1) (by omega)
  have hstep : natPrefix (fun u => (rowSpec u [] (tripList T)).length) (i + 1) =
      natPrefix (fun u => (rowSpec u [] (tripList T)).length) i +
        (rowSpec i [] (tripList T)).length := rfl
  have hzlen : ((tripComp T).idx.zip (tripComp T).dat).length = tripNnzMax T := by
    rw [List.length_zip, c1, c2]
    exact Nat.min_self _
  have hub1 := hub (i + 1) (by omega)
  refine List.ext_getElem ?_ ?_
  · rw [rowSegOf, hs, he, List.length_take, List.length_drop, hzlen]
    omega
  · intro q hq1 hq2
    have hq : q < (rowSpec i [] (tripList T)).length := hq2
    have hposa : natPrefix (fun u => (rowSpec u [] (tripList T)).length) i + q <
        tripNnzMax T := by omega
    rw [← List.getD_eq_getElem (rowSegOf (tripFinalIp T) (tripComp T).idx
        (tripComp T).dat i) (0, 0) hq1,
      ← List.getD_eq_getElem (rowSpec i [] (tripList T)) (0, 0) hq2]
    have hlhs : (rowSegOf (tripFinalIp T) (tripComp T).idx (tripComp T).dat i).getD
        q (0, 0) =
        ((tripComp T).idx.getD
          (natPrefix (fun u => (rowSpec u [] (tripList T)).length) i + q) 0,
         (tripComp T).dat.getD
          (natPrefix (fun u => (rowSpec u [] (tripList T)).length) i + q) 0) := by
      rw [rowSegOf, hs, he, hstep, Nat.add_sub_cancel_left]
      rw [List.getD_eq_getElem _ _ (by
        rw [List.length_take, List.length_drop, hzlen]
        omega)]
      rw [List.getElem_take, List.getElem_drop, List.getElem_zip]
      refine Prod.ext ?_ ?_
      · exact (List.getD_eq_getElem _ _ (by rw [c1]; exact hposa)).symm
      · exact (List.getD_eq_getElem _ _ (by rw [c2]; exact hposa)).symm
    rw [hlhs]
    refine Prod.ext ?_ ?_
    · rw [(c6 i hi q hq).1]
    · rw [(c6 i hi q hq).2]

/-! ## Claim C9: the CSR-to-CSC conversion -/

theorem filter_fst_not_mem {α : Type} :
    ∀ (L : List (Nat × α)) (j : Nat), j ∉ L.map Prod.fst →
      L.filter (fun e => decide (e.1 = j)) = [] := by
  intro L
  induction L with
  | nil => intro j _; rfl
  | cons a t ih =>
    intro j h
    rw [List.map_cons] at h
    rw [List.filter_cons, if_neg (by
      rw [decide_eq_true_eq]
      intro hh
      exact h (by rw [← hh]; exact List.mem_cons_self _ _))]
    exact ih j (fun hh => h (List.mem_cons_of_mem _ hh))

theorem length_filter_fst_le_one {α : Type} (j : Nat) :
    ∀ (L : List (Nat × α)), (L.map Prod.fst).Nodup →
      (L.filter (fun e => decide (e.1 = j))).length ≤ 1 := by
  intro L
  induction L with
  | nil => intro _; exact Nat.zero_le 1
  | cons a t ih =>
    intro h
    rw [List.map_cons, List.nodup_cons] at h
    rw [List.filter_cons]
    by_cases ha : a.1 = j
    · rw [if_pos (by rw [decide_eq_true_eq]; exact ha), List.length_cons]
      have ht : t.filter (fun e => decide (e.1 = j)) = [] := by
        refine filter_fst_not_mem t j ?_
        intro hj
        exact h.1 (by rw [ha]; exact hj)
      rw [ht]
      exact Nat.le_refl 1
    · rw [if_neg (by rw [decide_eq_true_eq]; exact ha)]
      exact ih h.2

theorem pairwise_of_length_le_one {β : Type} (R : β → β → Prop) :
    ∀ (l : List β), l.length ≤ 1 → List.Pairwise R l := by
  intro l
  cases l with
  | nil => intro _; exact List.Pairwise.nil
  | cons a t =>
    cases t with
    | nil =>
      intro _
      refine List.Pairwise.cons ?_ List.Pairwise.nil
      intro b hb
      cases hb
    | cons b t2 =>
      intro h
      rw [List.length_cons, List.length_cons] at h
      exact absurd h (by omega)

theorem cscColAux_fst_lt {α : Type} (ip idx : List Nat) (dat : List α) (j : Nat) :
    ∀ n, ∀ e, e ∈ cscColAux ip idx dat j n → e.1 < n := by
  intro n
  induction n with
  | zero => intro e he; cases he
  | succ n ih =>
    intro e he
    rw [cscColAux] at he
    rcases List.mem_append.mp he with h1 | h2
    · exact Nat.lt_succ_of_lt (ih e h1)
    · rcases List.mem_map.mp h2 with ⟨x, _, hxe⟩
      rw [← hxe]
      exact Nat.lt_succ_self n

theorem cscColAux_mem {α : Type} (ip idx : List Nat) (dat : List α) (j : Nat) :
    ∀ n (e : Nat × α), e ∈ cscColAux ip idx dat j n ↔
      e.1 < n ∧ (j, e.2) ∈ rowSegOf ip idx dat e.1 := by
  intro n
  induction n with
  | zero =>
    intro e
    constructor
    · intro he
      cases he
    · intro h
      exact absurd h.1 (Nat.not_lt_zero _)
  | succ n ih =>
    intro e
    rw [cscColAux]
    constructor
    · intro he
      rcases List.mem_append.mp he with h1 | h2
      · rcases (ih e).mp h1 with ⟨ha, hb⟩
        exact ⟨Nat.lt_succ_of_lt ha, hb⟩
      · rcases List.mem_map.mp h2 with ⟨x, hx, hxe⟩
        rcases List.mem_filter.mp hx with ⟨hxseg, hxj⟩
        rw [decide_eq_true_eq] at hxj
        refine ⟨?_, ?_⟩
        · rw [← hxe]
          exact Nat.lt_succ_self n
        · rw [← hxe]
          show (j, x.2) ∈ rowSegOf ip idx dat n
          rw [← hxj]
          exact hxseg
    · rintro ⟨h1, h2⟩
      refine List.mem_append.mpr ?_
      rcases Nat.lt_or_ge e.1 n with hl | hg
      · exact Or.inl ((ih e).mpr ⟨hl, h2⟩)
      · have hen : e.1 = n := by omega
        refine Or.inr ?_
        refine List.mem_map.mpr ⟨(j, e.2), ?_, ?_⟩
        · refine List.mem_filter.mpr ⟨?_, by rw [decide_eq_true_eq]⟩
          rw [← hen]
          exact h2
        · show ((n : Nat), e.2) = e
          rw [← hen]

theorem cscColAux_pairwise {α : Type} (ip idx : List Nat) (dat : List α) (j : Nat) :
    ∀ n, (∀ i, i < n → ((rowSegOf ip idx dat i).map Prod.fst).Nodup) →
      List.Pairwise (fun a b => a.1 < b.1) (cscColAux ip idx dat j n) := by
  intro n
  induction n with
  | zero => intro _; exact List.Pairwise.nil
  | succ n ih =>
    intro h
    rw [cscColAux]
    refine List.pairwise_append.mpr ⟨ih (fun i hi => h i (by omega)), ?_, ?_⟩
    · refine pairwise_of_length_le_one _ _ ?_
      rw [List.length_map]
      exact length_filter_fst_le_one j _ (h n (Nat.lt_succ_self n))
    · intro a ha b hb
      rcases List.mem_map.mp hb with ⟨x, _, hxb⟩
      rw [← hxb]
      show a.1 < n
      exact cscColAux_fst_lt ip idx dat j n a ha

theorem find_fst_of_mem {α : Type} :
    ∀ (l : List (Nat × α)) (i : Nat) (v : α), (l.map Prod.fst).Nodup →
      (i, v) ∈ l → l.find? (fun e => decide (e.1 = i)) = some (i, v) := by
  intro l
  induction l with
  | nil =>
    intro i v _ hm
    cases hm
  | cons a t ih =>
    intro i v hnod hm
    rw [List.map_cons, List.nodup_cons] at hnod
    by_cases hai : a.1 = i
    · rw [List.find?_cons_of_pos _ (by rw [decide_eq_true_eq]; exact hai)]
      rcases List.mem_cons.mp hm with he | ht
      · rw [← he]
      · exfalso
        refine hnod.1 ?_
        rw [hai]
        exact List.mem_map.mpr ⟨(i, v), ht, rfl⟩
    · rw [List.find?_cons_of_neg _ (by rw [decide_eq_true_eq]; exact hai)]
      refine ih i v hnod.2 ?_
      rcases List.mem_cons.mp hm with he | ht
      · exfalso
        refine hai ?_
        rw [← he]
      · exact ht

theorem nodup_fst_of_pairwise {α : Type} (l : List (Nat × α))
    (h : List.Pairwise (fun a b => a.1 < b.1) l) : (l.map Prod.fst).Nodup :=
  List.Pairwise.map Prod.fst (fun _ _ hab => Nat.ne_of_lt hab) h

theorem zip_map_fst_snd {β γ : Type} : ∀ (l : List (β × γ)),
    (l.map Prod.fst).zip (l.map Prod.snd) = l := by
  intro l
  induction l with
  | nil => rfl
  | cons a t ih =>
    show (a.1, a.2) :: ((t.map Prod.fst).zip (t.map Prod.snd)) = a :: t
    rw [ih]

theorem flatten_range_len {β : Type} (f : Nat → List β) :
    ∀ n, (List.flatten ((List.range n).map f)).length =
      natPrefix (fun u => (f u).length) n := by
  intro n
  induction n with
  | zero => rfl
  | succ n ih =>
    have hfl1 : List.flatten [f n] = f n := by
      rw [List.flatten_cons, List.flatten_nil, List.append_nil]
    rw [List.range_succ, List.map_append, List.map_singleton, List.flatten_append,
      List.length_append, ih, hfl1]
    rfl

theorem flatten_range_slice {β : Type} (f : Nat → List β) :
    ∀ n j, j < n →
      ((List.flatten ((List.range n).map f)).drop
        (natPrefix (fun u => (f u).length) j)).take (f j).length = f j := by
  intro n
  induction n with
  | zero =>
    intro j hj
    exact absurd hj (Nat.not_lt_zero j)
  | succ n ih =>
    intro j hj
    have hfl1 : List.flatten [f n] = f n := by
      rw [List.flatten_cons, List.flatten_nil, List.append_nil]
    rw [List.range_succ, List.map_append, List.map_singleton, List.flatten_append, hfl1]
    rcases Nat.lt_or_ge j n with hl | hg
    · rw [List.drop_append_of_le_length (by
        rw [flatten_range_len]
        exact natPrefix_mono _ j n (by omega))]
      rw [List.take_append_of_le_length (by
        rw [List.length_drop, flatten_range_len]
        have hm1 : natPrefix (fun u => (f u).length) (j + 1) ≤
            natPrefix (fun u => (f u).length) n := natPrefix_mono _ (j + 1) n hl
        have hm2 : natPrefix (fun u => (f u).length) (j + 1) =
            natPrefix (fun u => (f u).length) j + (f j).length := rfl
        omega)]
      exact ih j hl
    · have hjn : j = n := by omega
      subst hjn
      rw [show natPrefix (fun u => (f u).length) j =
          (List.flatten ((List.range j).map f)).length from (flatten_range_len f j).symm,
        List.drop_left]
      exact List.take_length _

theorem range_map_getD {β : Type} (f : Nat → β) (d : β) :
    ∀ n j, j < n → ((List.range n).map f).getD j d = f j := by
  intro n j hj
  rw [List.getD_eq_getElem _ _ (by rw [List.length_map, List.length_range]; exact hj),
    List.getElem_map, List.getElem_range]

theorem range_map_getD_ge {β : Type} (f : Nat → β) (d : β) :
    ∀ n j, n ≤ j → ((List.range n).map f).getD j d = d := by
  intro n j hj
  refine List.getD_eq_default _ _ ?_
  rw [List.length_map, List.length_range]
  exact hj

theorem to_csc_outerSlice {α : Type} [CommRing α] (T : TripletMat α) :
    (∀ j, j < T.cols → (T.to_csc).outerSlice j =
      cscColAux (tripFinalIp T) (tripComp T).idx (tripComp T).dat j T.rows) ∧
    (∀ j, T.cols ≤ j → (T.to_csc).outerSlice j = []) := by
  have hip : (T.to_csc).indptr = (List.range (T.cols + 1)).map
      (natPrefix (fun u => (cscColAux (tripFinalIp T) (tripComp T).idx
        (tripComp T).dat u T.rows).length)) := rfl
  have hzip : (T.to_csc).indices.zip (T.to_csc).data =
      List.flatten ((List.range T.cols).map
        (fun u => cscColAux (tripFinalIp T) (tripComp T).idx (tripComp T).dat
          u T.rows)) := zip_map_fst_snd _
  constructor
  · intro j hj
    show (((T.to_csc).indices.zip (T.to_csc).data).drop
        ((T.to_csc).indptr.getD j 0)).take
        ((T.to_csc).indptr.getD (j + 1) 0 - (T.to_csc).indptr.getD j 0) =
      cscColAux (tripFinalIp T) (tripComp T).idx (tripComp T).dat j T.rows
    rw [hzip, hip, range_map_getD _ _ (T.cols + 1) j (by omega),
      range_map_getD _ _ (T.cols + 1) (j + 1) (by omega)]
    have hstep : natPrefix (fun u => (cscColAux (tripFinalIp T) (tripComp T).idx
        (tripComp T).dat u T.rows).length) (j + 1) =
      natPrefix (fun u => (cscColAux (tripFinalIp T) (tripComp T).idx
        (tripComp T).dat u T.rows).length) j +
        (cscColAux (tripFinalIp T) (tripComp T).idx (tripComp T).dat j T.rows).length :=
      rfl
    rw [hstep, Nat.add_sub_cancel_left]
    exact flatten_range_slice (fun u => cscColAux (tripFinalIp T) (tripComp T).idx
      (tripComp T).dat u T.rows) T.cols j hj
  · intro j hj
    show (((T.to_csc).indices.zip (T.to_csc).data).drop
        ((T.to_csc).indptr.getD j 0)).take
        ((T.to_csc).indptr.getD (j + 1) 0 - (T.to_csc).indptr.getD j 0) = []
    rw [hip, range_map_getD_ge _ _ (T.cols + 1) (j + 1) (by omega), Nat.zero_sub,
      List.take_zero]

/-- C9: for every triplet matrix whose index arrays match the data length and
respect the dimensions, `to_csc` returns a compressed-column matrix that has
an explicit stored entry exactly at the (row, column) locations occurring in
at least one triplet (even when the summed value is zero), whose stored value
at such a location is the sum of all triplet values there, and whose row
indices are strictly ascending within each column. -/
theorem to_csc_spec {α : Type} [CommRing α] (T : TripletMat α)
    (hlen1 : T.row_inds.length = T.data.length)
    (hlen2 : T.col_inds.length = T.data.length)
    (hr : ∀ i, i ∈ T.row_inds → i < T.rows)
    (hc : ∀ j, j ∈ T.col_inds → j < T.cols) :
    (∀ i j, hasEntry (T.to_csc) i j ↔ ∃ t ∈ tripList T, t.2.1 = i ∧ t.2.2 = j) ∧
    (∀ i j, hasEntry (T.to_csc) i j →
      (T.to_csc).findInner j i = some (tripSum (tripList T) i j)) ∧
    (∀ j, List.Pairwise (fun a b => a.1 < b.1) ((T.to_csc).outerSlice j)) := by
  rcases to_csc_outerSlice T with ⟨hsl, hsl2⟩
  have hseg := rowSeg_final T hlen1 hlen2 hr
  have hnodrow : ∀ i, i < T.rows →
      ((rowSegOf (tripFinalIp T) (tripComp T).idx (tripComp T).dat i).map
        Prod.fst).Nodup := by
    intro i hi
    rw [hseg i hi]
    exact rowSpec_fst_nodup i (tripList T) [] List.nodup_nil
  have hpw : ∀ j, List.Pairwise (fun a b => a.1 < b.1) ((T.to_csc).outerSlice j) := by
    intro j
    rcases Nat.lt_or_ge j T.cols with hj | hj
    · rw [hsl j hj]
      exact cscColAux_pairwise _ _ _ j T.rows hnodrow
    · rw [hsl2 j hj]
      exact List.Pairwise.nil
  have hmem : ∀ i j, hasEntry (T.to_csc) i j ↔
      ∃ t ∈ tripList T, t.2.1 = i ∧ t.2.2 = j := by
    intro i j
    constructor
    · rintro ⟨p, hp, hpf⟩
      have hp2 : p ∈ (T.to_csc).outerSlice j := hp
      have hpf2 : p.1 = i := hpf
      rcases Nat.lt_or_ge j T.cols with hj | hj
      · rw [hsl j hj] at hp2
        rcases (cscColAux_mem _ _ _ j T.rows p).mp hp2 with ⟨hlt, hmemrow⟩
        rw [hseg p.1 hlt] at hmemrow
        have hjf : j ∈ (rowSpec p.1 [] (tripList T)).map Prod.fst :=
          List.mem_map.mpr ⟨(j, p.2), hmemrow, rfl⟩
        rcases (rowSpec_mem_fst p.1 (tripList T) [] j).mp hjf with h1 | ⟨t, ht, ht1, ht2⟩
        · exact absurd h1 (by rw [List.map_nil]; exact List.not_mem_nil j)
        · refine ⟨t, ht, ?_, ht2⟩
          rw [ht1, hpf2]
      · rw [hsl2 j hj] at hp2
        cases hp2
    · rintro ⟨t, ht, ht1, ht2⟩
      have hz1 := (List.of_mem_zip ht).2
      have hjc : j < T.cols := by
        rw [← ht2]
        exact hc t.2.2 (List.of_mem_zip hz1).2
      have hir : i < T.rows := by
        rw [← ht1]
        exact hr t.2.1 (List.of_mem_zip hz1).1
      have hjm : j ∈ (rowSpec i [] (tripList T)).map Prod.fst :=
        (rowSpec_mem_fst i (tripList T) [] j).mpr (Or.inr ⟨t, ht, ht1, ht2⟩)
      rcases List.mem_map.mp hjm with ⟨e, he, hef⟩
      refine ⟨((i : Nat), e.2), ?_, rfl⟩
      show ((i : Nat), e.2) ∈ (T.to_csc).outerSlice j
      rw [hsl j hjc]
      refine (cscColAux_mem _ _ _ j T.rows ((i : Nat), e.2)).mpr ⟨hir, ?_⟩
      show (j, e.2) ∈ rowSegOf (tripFinalIp T) (tripComp T).idx (tripComp T).dat i
      rw [hseg i hir, ← hef]
      exact he
  refine ⟨hmem, ?_, hpw⟩
  intro i j h
  rcases (hmem i j).mp h with ⟨t, ht, ht1, ht2⟩
  have hz1 := (List.of_mem_zip ht).2
  have hjc : j < T.cols := by
    rw [← ht2]
    exact hc t.2.2 (List.of_mem_zip hz1).2
  have hir : i < T.rows := by
    rw [← ht1]
    exact hr t.2.1 (List.of_mem_zip hz1).1
  have hjm : j ∈ (rowSpec i [] (tripList T)).map Prod.fst :=
    (rowSpec_mem_fst i (tripList T) [] j).mpr (Or.inr ⟨t, ht, ht1, ht2⟩)
  rcases List.mem_map.mp hjm with ⟨e, he, hef⟩
  have hnods : (((T.to_csc).outerSlice j).map Prod.fst).Nodup :=
    nodup_fst_of_pairwise _ (hpw j)
  have hmems : ((i : Nat), e.2) ∈ (T.to_csc).outerSlice j := by
    rw [hsl j hjc]
    refine (cscColAux_mem _ _ _ j T.rows ((i : Nat), e.2)).mpr ⟨hir, ?_⟩
    show (j, e.2) ∈ rowSegOf (tripFinalIp T) (tripComp T).idx (tripComp T).dat i
    rw [hseg i hir, ← hef]
    exact he
  have hfind := find_fst_of_mem ((T.to_csc).outerSlice j) i e.2 hnods hmems
  show ((((T.to_csc).outerSlice j).find? (fun p => decide (p.1 = i))).map
    Prod.snd) = some (tripSum (tripList T) i j)
  rw [hfind]
  have hval := (rowSpec_val i (tripList T) [] List.nodup_nil e he).2
    (by rw [List.map_nil]; exact List.not_mem_nil e.1)
  rw [hef] at hval
  show some e.2 = some (tripSum (tripList T) i j)
  rw [hval]

theorem to_csc_spec_witness :
    (∀ i, i ∈ ([0, 0, 3, 1, 2, 3, 3] : List Nat) → i < 4) ∧
    ((∀ i j, hasEntry ((⟨4, 4, [0, 0, 3, 1, 2, 3, 3], [1, 0, 2, 0, 3, 3, 2],
          [2, 1, 3, 3, 4, 6, 2]⟩ : TripletMat ℤ).to_csc) i j ↔
        ∃ t ∈ tripList (⟨4, 4, [0, 0, 3, 1, 2, 3, 3], [1, 0, 2, 0, 3, 3, 2],
          [2, 1, 3, 3, 4, 6, 2]⟩ : TripletMat ℤ), t.2.1 = i ∧ t.2.2 = j) ∧
      (∀ i j, hasEntry ((⟨4, 4, [0, 0, 3, 1, 2, 3, 3], [1, 0, 2, 0, 3, 3, 2],
          [2, 1, 3, 3, 4, 6, 2]⟩ : TripletMat ℤ).to_csc) i j →
        ((⟨4, 4, [0, 0, 3, 1, 2, 3, 3], [1, 0, 2, 0, 3, 3, 2],
          [2, 1, 3, 3, 4, 6, 2]⟩ : TripletMat ℤ).to_csc).findInner j i =
          some (tripSum (tripList (⟨4, 4, [0, 0, 3, 1, 2, 3, 3],
            [1, 0, 2, 0, 3, 3, 2], [2, 1, 3, 3, 4, 6, 2]⟩ : TripletMat ℤ)) i j)) ∧
      (∀ j, List.Pairwise (fun a b => a.1 < b.1)
        (((⟨4, 4, [0, 0, 3, 1, 2, 3, 3], [1, 0, 2, 0, 3, 3, 2],
          [2, 1, 3, 3, 4, 6, 2]⟩ : TripletMat ℤ).to_csc).outerSlice j))) :=
  ⟨by decide,
    to_csc_spec (⟨4, 4, [0, 0, 3, 1, 2, 3, 3], [1, 0, 2, 0, 3, 3, 2],
      [2, 1, 3, 3, 4, 6, 2]⟩ : TripletMat ℤ) rfl rfl (by decide) (by decide)⟩

end SprsLdl
